import Mathlib

/-!
Verification of the functional-dependency analysis core of the `funcdep`
repository, shallowly embedded in Lean 4.

Attributes are modelled as lists of characters (Go strings over ASCII input
behave identically); `AttrSet` is a Go slice, modelled as a `List Attr`.
Every operation below is translated from the Go source (`attrs.go`,
`fdset.go`, `funcdep.go` and the unnamed relation/algebra files).  The two
places where Go leaves behaviour unspecified are noted at the definition:
`Intersection`/`Difference` iterate a Go map (unspecified order; the model
fixes first-insertion order, and every property proved about them is
order-insensitive), and `sort.Slice` is an unstable sort (the model uses
insertion sort; on the duplicate-free lists the algorithms sort, the result
is the unique sorted permutation, so the choice is immaterial).
-/

/-- Attributes: opaque comparable identifiers (Go `type Attr string`). -/
abbrev Attr : Type := List Char

/-- Attribute sets, represented exactly as the Go slice `type AttrSet []Attr`. -/
abbrev AttrSet : Type := List Attr

/-- Go `AttrSep` attribute separator (the package default `","`). -/
def AttrSep : Char := ','

/-- Go `(s AttrSet) Contains(other)`: true iff every member of `other` is a
member of `s` (subset test). -/
def AttrSet.ContainsB (s other : AttrSet) : Bool :=
  other.all (fun x => decide (x ∈ s))

/-- Go `(s *AttrSet) Add(a)`: appends `a` if absent; the Bool tells whether
the element was added. -/
def AttrSet.add (s : AttrSet) (a : Attr) : AttrSet × Bool :=
  if a ∈ s then (s, false) else (s ++ [a], true)

/-- One step of Go `AddAll`: append the element when it is not yet a member
(the Go `chk` map always holds exactly the members of the accumulated
slice). -/
def AttrSet.addIn (acc : AttrSet) (x : Attr) : AttrSet :=
  if x ∈ acc then acc else acc ++ [x]

/-- Go `(s *AttrSet) AddAll(others...)`: appends, in order, every element of
the other sets that is not already present. -/
def AttrSet.addAll (s : AttrSet) (others : List AttrSet) : AttrSet :=
  others.flatten.foldl AttrSet.addIn s

/-- Go `(s *AttrSet) Remove(a)`: removes the first occurrence of `a` by
swapping it with the last element and truncating; the Bool tells whether a
removal happened. -/
def AttrSet.removeGo (s : AttrSet) (a : Attr) : AttrSet × Bool :=
  match s.indexOf? a with
  | none => (s, false)
  | some i => ((s.set i (s.getLastD [])).dropLast, true)

/-- Go `(s AttrSet) Union(others...)`: a new set built by `Add`-ing every
element of `s` and then of the others into an empty set. -/
def AttrSet.UnionGo (s : AttrSet) (others : List AttrSet) : AttrSet :=
  AttrSet.addAll [] (s :: others)

/-- Go `(s AttrSet) Intersection(others...)`: keeps the keys of the `inter`
map whose count reaches `len(others)+1`; a key starts at 1 and is bumped once
per occurrence in each other set.  Go iterates the map in unspecified order;
the model iterates keys in first-insertion order (the order of `s`). -/
def AttrSet.IntersectionGo (s : AttrSet) (others : List AttrSet) : AttrSet :=
  (AttrSet.addAll [] [s]).filter
    (fun x => 1 + (others.map (fun o => o.count x)).sum = others.length + 1)

/-- Go `(s AttrSet) Difference(others...)`: the keys of `s` that survive
deleting every member of the other sets (the early return when the map
empties also yields the empty result).  Map order modelled as first-insertion
order. -/
def AttrSet.DifferenceGo (s : AttrSet) (others : List AttrSet) : AttrSet :=
  (AttrSet.addAll [] [s]).filter (fun x => others.all (fun o => decide (x ∉ o)))

/-- Go `(s AttrSet) String()` sorts the receiver in place; this is the sorted
form (Go compares strings lexicographically, as does the list order here). -/
def AttrSet.sortGo (s : AttrSet) : AttrSet :=
  List.insertionSort (fun a b : Attr => a ≤ b) s

/-- Go join of a list of attributes with the separator between members. -/
def AttrSet.joinSep : AttrSet → List Char
  | [] => []
  | [a] => a
  | a :: b :: rest => a ++ AttrSep :: AttrSet.joinSep (b :: rest)

/-- Go `(s AttrSet) String()`: members sorted, joined with the separator.
This canonical string is the memoization key of the brute-force search. -/
def AttrSet.stringGo (s : AttrSet) : List Char :=
  AttrSet.joinSep (AttrSet.sortGo s)

/-- Go `type FuncDep struct { Left, Right AttrSet }`. -/
structure FuncDep where
  Left : AttrSet
  Right : AttrSet
deriving DecidableEq, Repr

/-- Go `type Relation struct { Name; Attrs; FuncDeps }`. -/
structure Relation where
  Name : List Char
  Attrs : AttrSet
  FuncDeps : List FuncDep
deriving DecidableEq, Repr

/-- One pass of the closure fixpoint: for every FD in order, if the working
right side contains the FD left side, append its right side (the body of the
Go `for _, other := range r.FuncDeps` loop shared by `Closure` and the
brute-force `check`). -/
def closPass (fds : List FuncDep) (right : AttrSet) : AttrSet :=
  fds.foldl
    (fun acc other =>
      if AttrSet.ContainsB acc other.Left then AttrSet.addAll acc [other.Right] else acc)
    right

/-- The Go fixpoint loop: repeat `closPass` until a pass leaves the size (and
hence, since passes only append, the list) unchanged.  Go's loop needs no
fuel; the fuel here is a termination device and `closFuel` is proved large
enough for the loop to reach the fixpoint. -/
def closLoop (fds : List FuncDep) : Nat → AttrSet → AttrSet
  | 0, right => right
  | k + 1, right =>
    let r2 := closPass fds right
    if r2.length = right.length then r2 else closLoop fds k r2

/-- Fuel bound: one more than the size of the deduplicated universe of
attributes the loop can ever hold (seed plus every FD right side). -/
def closFuel (fds : List FuncDep) (right : AttrSet) : Nat :=
  (AttrSet.addAll [] (right :: fds.map FuncDep.Right)).length + 1

/-- The Go loop including its entry test `n != lastN` with `lastN = 0`: a
seed of size 0 skips the loop entirely. -/
def closFix (fds : List FuncDep) (right : AttrSet) : AttrSet :=
  if right.length = 0 then right else closLoop fds (closFuel fds right) right

/-- Go `(r *Relation) Closure(fd)`: seeds a fresh FD with a copy of
`fd.Left` on the left and `fd.Left ∪ fd.Right` on the right, then runs the
fixpoint loop over the relation's FDs. -/
def Relation.Closure (r : Relation) (fd : FuncDep) : FuncDep :=
  { Left := AttrSet.addAll [] [fd.Left]
    Right := closFix r.FuncDeps (AttrSet.addAll [] [fd.Left, fd.Right]) }

/-- Go `(r *Relation) Closures()`: the closure of every declared FD. -/
def Relation.Closures (r : Relation) : List FuncDep :=
  r.FuncDeps.map r.Closure

/-- Go `(r *Relation) CandidateKeys()`: left sides of the declared-FD
closures whose right side has full size. -/
def Relation.CandidateKeys (r : Relation) : List AttrSet :=
  (r.Closures.filter (fun cfd => cfd.Right.length = r.Attrs.length)).map FuncDep.Left

/-- Go `(r *Relation) CandidateKeysAlt()`: for every declared-FD closure
whose right side covers all but at most two attributes, add the first one or
two missing attributes to its left side and emit that. -/
def Relation.CandidateKeysAlt (r : Relation) : List AttrSet :=
  (r.Closures.filterMap
    (fun cfd =>
      if r.Attrs.length - 2 ≤ cfd.Right.length then
        some (let diff := AttrSet.DifferenceGo r.Attrs [cfd.Right]
              let l1 := if 0 < diff.length then (AttrSet.add cfd.Left (diff.getD 0 [])).1
                        else cfd.Left
              let l2 := if 1 < diff.length then (AttrSet.add l1 (diff.getD 1 [])).1 else l1
              l2)
      else none))

/-- State threaded through the brute-force enumeration: the Go closure
variables `result` and `hits` (the memo map, modelled as the list of keys in
insertion order). -/
structure BFState where
  result : List AttrSet
  hits : List (List Char)
deriving DecidableEq, Repr

/-- The Go `check` closure of `enumerateCandidateKeys`: skip the subset if
its canonical string was already tested; otherwise run the fixpoint over the
pre-closed dependencies and record the subset when the result has full size.
Go `a.String()` sorts `a` in place, so the (sorted) subset is returned
alongside the new state, exactly as the caller's `z` observes it. -/
def bfCheck (attrsLen : Nat) (clos : List FuncDep) (a : AttrSet) (st : BFState) :
    BFState × AttrSet :=
  let aS := AttrSet.sortGo a
  let key := AttrSet.joinSep aS
  if key ∈ st.hits then (st, aS)
  else
    let right := closFix clos (AttrSet.addAll [] [aS])
    let st1 :=
      if right.length = attrsLen then
        { st with result := st.result ++ [AttrSet.addAll [] [aS]] }
      else st
    ({ st1 with hits := st1.hits ++ [key] }, aS)

/-- Go `(r *Relation) recurBF(x, nremain, check)`: copy `x` into a fresh
working set `z`; for every attribute of the relation in order, try adding it,
check the grown set, recurse with one less budget when more than one attempt
remains, and undo the addition (Go `z.Remove(a1)` on the set `check` left
sorted). -/
def Relation.recurBF (r : Relation) (clos : List FuncDep) (x : AttrSet) (nremain : Nat)
    (st : BFState) : BFState :=
  (r.Attrs.foldl
    (fun (p : AttrSet × BFState) a1 =>
      if a1 ∈ p.1 then p
      else
        let q := bfCheck r.Attrs.length clos (p.1 ++ [a1]) p.2
        let st2 :=
          if h : 1 < nremain then Relation.recurBF r clos q.2 (nremain - 1) q.1 else q.1
        ((AttrSet.removeGo q.2 a1).1, st2))
    (AttrSet.addAll [] [x], st)).2
termination_by nremain
decreasing_by omega

/-- Go `(r *Relation) enumerateCandidateKeys()`: pre-close every FD once,
then drive the backtracking enumeration from the empty set with a budget of
`len(r.Attrs)`. -/
def Relation.enumerateCandidateKeys (r : Relation) : List AttrSet :=
  (r.recurBF r.Closures [] r.Attrs.length ⟨[], []⟩).result

/-- Ordering used by Go `sort.Slice(candidates, len(i) > len(j))`: larger
sets first. -/
def sizeGE (a b : AttrSet) : Prop := b.length ≤ a.length

instance : DecidableRel sizeGE := fun _ _ => Nat.decLe _ _

instance : IsTotal AttrSet sizeGE := ⟨fun a b => Nat.le_total b.length a.length⟩

instance : IsTrans AttrSet sizeGE := ⟨fun _ _ _ h1 h2 => Nat.le_trans h2 h1⟩

/-- Loop of Go `filterContainingKeys`: take the last (smallest) candidate,
emit it, and keep, in order, the earlier candidates that do not contain it
(the Go in-place compaction of the slice). -/
def filterLoop : List AttrSet → List AttrSet → List AttrSet
  | [], res => res
  | c :: cs, res =>
    let x := (c :: cs).getLast (List.cons_ne_nil c cs)
    filterLoop (((c :: cs).dropLast).filter (fun y => ! AttrSet.ContainsB y x)) (res ++ [x])
termination_by cands _ => cands.length
decreasing_by
  calc (((c :: cs).dropLast).filter _).length ≤ ((c :: cs).dropLast).length :=
        List.length_filter_le _ _
    _ < (c :: cs).length := by simp

/-- Go `(r *Relation) filterContainingKeys(candidates)`: candidates sorted so
the smallest is at the end (Go `sort.Slice` is unstable; on duplicate-free
candidate collections the descending-size order produced here is the same up
to ties, and every property proved is tie-insensitive), then the superset
removal loop. -/
def Relation.filterContainingKeys (_r : Relation) (candidates : List AttrSet) :
    List AttrSet :=
  if candidates.length ≤ 1 then candidates
  else filterLoop (List.insertionSort sizeGE candidates) []

/-- Go `(r *Relation) CandidateKeysBF()`. -/
def Relation.CandidateKeysBF (r : Relation) : List AttrSet :=
  r.filterContainingKeys r.enumerateCandidateKeys

/-- Go `(fd *FuncDep) TransitiveWith(other)`: pseudo-transitivity in two
orientations, detected by comparing intersection sizes; `none` models the Go
`(nil, false)` not-applicable outcome. -/
def FuncDep.TransitiveWith (fd other : FuncDep) : Option FuncDep :=
  let right2Left := AttrSet.IntersectionGo fd.Right [other.Left]
  let left2Right := AttrSet.IntersectionGo other.Right [fd.Left]
  if right2Left.length = other.Left.length then
    some { Left := AttrSet.addAll [] [fd.Left], Right := AttrSet.addAll [] [other.Right] }
  else if left2Right.length = fd.Left.length then
    some { Left := AttrSet.addAll [] [other.Left], Right := AttrSet.addAll [] [fd.Right] }
  else none

/-- Go `(fd *FuncDep) Decompose()`: one `Left → {a}` per right-side
attribute; not applicable when the right side has exactly one attribute. -/
def FuncDep.Decompose (fd : FuncDep) : Option (List FuncDep) :=
  if fd.Right.length = 1 then none
  else
    some (fd.Right.map
      (fun a => { Left := AttrSet.addAll [] [fd.Left], Right := (AttrSet.add [] a).1 }))

/-- Go `(fd *FuncDep) Union(other)`: applicable only when every attribute of
`other.Left` is already a member of `fd.Left`; the result keeps `fd`'s left
side and unions the right sides. -/
def FuncDep.UnionFD (fd other : FuncDep) : Option FuncDep :=
  if other.Left.all (fun x => decide (x ∈ fd.Left)) then
    some { Left := AttrSet.addAll [] [fd.Left]
           Right := AttrSet.addAll [] [fd.Right, other.Right] }
  else none

/-- Outcome of a Go call that returns `(value, error)` but can also crash:
`panic` models a Go runtime panic (here, out-of-range slicing). -/
inductive GoResult (α : Type) where
  | ok (val : α)
  | goError (msg : List Char)
  | panic
deriving DecidableEq, Repr

/-- Go `strings.TrimSpace` (ASCII behaviour). -/
def trimSpace (s : List Char) : List Char :=
  ((s.dropWhile Char.isWhitespace).reverse.dropWhile Char.isWhitespace).reverse

/-- Character class `[>→⇒⇾]` of the Go `cutArrows` regular expression. -/
def isArrowC (c : Char) : Bool :=
  c == '>' || c == '→' || c == '⇒' || c == '⇾'

/-- Character class `[-=~]` of the Go `cutArrows` regular expression. -/
def isLineC (c : Char) : Bool :=
  c == '-' || c == '=' || c == '~'

/-- Worker for `splitArrows`: `acc` holds the current part reversed.  On an
arrow character, the leftmost regex match is the maximal `[-=~]` run that
immediately precedes it (the two character classes are disjoint, so greedy
matching never backtracks) plus the maximal arrow run from it. -/
def splitArrowsAux : List Char → List Char → List (List Char)
  | acc, [] => [acc.reverse]
  | acc, c :: rest =>
    if isArrowC c then
      (acc.dropWhile isLineC).reverse :: splitArrowsAux [] (rest.dropWhile isArrowC)
    else splitArrowsAux (c :: acc) rest
termination_by _ l => l.length
decreasing_by
  · calc (rest.dropWhile isArrowC).length ≤ rest.length :=
        (List.dropWhile_sublist _).length_le
      _ < (c :: rest).length := by simp
  · simp

/-- Go `cutArrows.Split(fdesc, -1)`: the pieces of the string between the
non-overlapping leftmost matches of `[-=~]*[>→⇒⇾]+`. -/
def splitArrows (s : List Char) : List (List Char) :=
  splitArrowsAux [] s

/-- Go `strings.Split(s, AttrSep)` followed by trimming each part, as both FD
sides are parsed (plain append, no deduplication). -/
def parseAttrList (s : List Char) : AttrSet :=
  (s.splitOn AttrSep).map trimSpace

/-- Go `FromString(fdesc)` (the `(fd, error)` variant used by
`RelationFromString`): split on arrows; one part means no arrow was found,
more than two parts means too many. -/
def FromString (fdesc : List Char) : GoResult FuncDep :=
  match splitArrows fdesc with
  | [_] => .goError "no arrow found in functional dependency".data
  | [l, r] => .ok { Left := parseAttrList l, Right := parseAttrList r }
  | _ => .goError "too many arrows in functional dependency".data

/-- The FD-line loop of `RelationFromString`: trim each line, skip blanks,
parse the rest, aborting on the first error. -/
def parseFDLines (lines : List (List Char)) : GoResult (List FuncDep) :=
  lines.foldl
    (fun acc line =>
      match acc with
      | .ok fds =>
        let l := trimSpace line
        if l = [] then .ok fds
        else
          match FromString l with
          | .ok fd => .ok (fds ++ [fd])
          | .goError m => .goError m
          | .panic => .panic
      | e => e)
    (.ok [])

/-- Go `RelationFromString(desc)` (the variant that deduplicates attributes
with `Add` and validates FD attributes against the declared domain).  The
header is `Name(attrs)`: missing `(` is the only header error; the final
character is unconditionally cut (assumed to be `)`), and a `(` as the last
character makes the Go slice expression `head[pidx+1 : len(head)-1]` panic.
The validation error message is modelled by a fixed string (only the error
kind is observable in the claims). -/
def RelationFromString (desc : List Char) : GoResult Relation :=
  let lines := desc.splitOn '\n'
  let head := trimSpace (lines.headD [])
  match head.findIdx? (fun c => c == '(') with
  | none => .goError "invalid relation description".data
  | some pidx =>
    let name := head.take pidx
    if head.length ≤ pidx + 1 then .panic
    else
      let inner := (head.drop (pidx + 1)).take (head.length - 1 - (pidx + 1))
      let attrs :=
        (inner.splitOn AttrSep).foldl (fun s a => (AttrSet.add s (trimSpace a)).1) []
      match parseFDLines (lines.drop 1) with
      | .goError m => .goError m
      | .panic => .panic
      | .ok fds =>
        let problems := fds.foldl
          (fun pr fd =>
            let a := AttrSet.UnionGo fd.Left [fd.Right]
            let remAttr := AttrSet.DifferenceGo a [attrs]
            if remAttr.length ≠ 0 then AttrSet.addAll pr [remAttr] else pr)
          []
        if 0 < problems.length then
          .goError "relation FD has unknown attributes".data
        else .ok { Name := name, Attrs := attrs, FuncDeps := fds }

/-! ## Semantics of the set operations -/

/-- Well-formed relation: duplicate-free attribute universe, and every FD has
duplicate-free sides that mention only declared attributes. -/
def WFRel (r : Relation) : Prop :=
  r.Attrs.Nodup ∧
    ∀ fd ∈ r.FuncDeps,
      (∀ a ∈ fd.Left, a ∈ r.Attrs) ∧ (∀ a ∈ fd.Right, a ∈ r.Attrs) ∧
        fd.Left.Nodup ∧ fd.Right.Nodup

instance (r : Relation) : Decidable (WFRel r) := by
  unfold WFRel; infer_instance

/-- Same members, disregarding order and multiplicity. -/
def SameSet (s t : AttrSet) : Prop := ∀ a, a ∈ s ↔ a ∈ t

theorem foldlAdd_mem (l : List Attr) (s : AttrSet) (a : Attr) :
    a ∈ l.foldl AttrSet.addIn s ↔ a ∈ s ∨ a ∈ l := by
  induction l generalizing s with
  | nil => simp
  | cons x xs ih =>
    simp only [List.foldl_cons, ih, AttrSet.addIn]
    by_cases hx : x ∈ s <;> simp [hx, List.mem_append, or_assoc] <;> aesop

theorem foldlAdd_extends (l : List Attr) (s : AttrSet) :
    ∃ t, l.foldl AttrSet.addIn s = s ++ t := by
  induction l generalizing s with
  | nil => exact ⟨[], by simp⟩
  | cons x xs ih =>
    simp only [List.foldl_cons, AttrSet.addIn]
    by_cases hx : x ∈ s
    · simpa [hx] using ih s
    · simp only [if_neg hx]
      obtain ⟨t, ht⟩ := ih (s ++ [x])
      exact ⟨[x] ++ t, by simp [ht]⟩

theorem foldlAdd_nodup (l : List Attr) (s : AttrSet) (h : s.Nodup) :
    (l.foldl AttrSet.addIn s).Nodup := by
  induction l generalizing s with
  | nil => exact h
  | cons x xs ih =>
    simp only [List.foldl_cons, AttrSet.addIn]
    by_cases hx : x ∈ s
    · simpa [hx] using ih s h
    · simp only [if_neg hx]
      exact ih _ (by simp [List.nodup_append, h, hx])

theorem mem_addAll (s : AttrSet) (others : List AttrSet) (a : Attr) :
    a ∈ AttrSet.addAll s others ↔ a ∈ s ∨ ∃ t ∈ others, a ∈ t := by
  simp [AttrSet.addAll, foldlAdd_mem]

theorem addAll_nodup (s : AttrSet) (others : List AttrSet) (h : s.Nodup) :
    (AttrSet.addAll s others).Nodup :=
  foldlAdd_nodup _ _ h

theorem addAll_nil_nodup (others : List AttrSet) : (AttrSet.addAll [] others).Nodup :=
  addAll_nodup _ _ List.nodup_nil

theorem mem_addAll_single (s t : AttrSet) (a : Attr) :
    a ∈ AttrSet.addAll s [t] ↔ a ∈ s ∨ a ∈ t := by
  simp [mem_addAll]

theorem addAll_nil_single_nodup_eq (s : AttrSet) (h : s.Nodup) :
    AttrSet.addAll [] [s] = s := by
  have : ∀ acc : AttrSet, acc.Nodup → (∀ a ∈ s, a ∉ acc) →
      s.foldl AttrSet.addIn acc = acc ++ s := by
    intro acc hacc hdisj
    induction s generalizing acc with
    | nil => simp
    | cons x xs ih =>
      simp only [List.foldl_cons, AttrSet.addIn, if_neg (hdisj x (by simp))]
      rw [ih (List.nodup_cons.mp h).2 (acc ++ [x])
        (by simp [List.nodup_append, hacc, hdisj x (by simp)])
        (by intro a ha; simp only [List.mem_append, List.mem_singleton]
            push_neg
            exact ⟨hdisj a (by simp [ha]), fun hax => (List.nodup_cons.mp h).1 (hax ▸ ha)⟩)]
      simp
  simpa [AttrSet.addAll] using this [] (by simp) (by simp)

/-! ## Derivability closure (the mathematical closure X⁺) -/

/-- Attribute `a` is transitively determined by `seed` under `fds`: the
glossary notion of closure membership.  `base` is reflexivity, `step` applies
one functional dependency whose whole left side is already derivable. -/
inductive InClo (fds : List FuncDep) (seed : AttrSet) : Attr → Prop
  | base {a : Attr} : a ∈ seed → InClo fds seed a
  | step {fd : FuncDep} {a : Attr} :
      fd ∈ fds → (∀ b ∈ fd.Left, InClo fds seed b) → a ∈ fd.Right → InClo fds seed a

theorem InClo.mono_seed {fds : List FuncDep} {s t : AttrSet} {a : Attr}
    (hsub : ∀ b ∈ s, b ∈ t) (h : InClo fds s a) : InClo fds t a := by
  induction h with
  | base hb => exact .base (hsub _ hb)
  | step hfd _ hr ih => exact .step hfd (fun b hb => ih b hb) hr

theorem InClo.cut {fds : List FuncDep} {s t : AttrSet} {a : Attr}
    (hder : ∀ b ∈ t, InClo fds s b) (h : InClo fds t a) : InClo fds s a := by
  induction h with
  | base hb => exact hder _ hb
  | step hfd _ hr ih => exact .step hfd (fun b hb => ih b hb) hr

theorem InClo.congr_fds {fds fds2 : List FuncDep} {s : AttrSet} {a : Attr}
    (hmem : ∀ fd, fd ∈ fds ↔ fd ∈ fds2) (h : InClo fds s a) : InClo fds2 s a := by
  induction h with
  | base hb => exact .base hb
  | step hfd _ hr ih => exact .step ((hmem _).mp hfd) (fun b hb => ih b hb) hr

theorem InClo.universe {fds : List FuncDep} {s U : AttrSet} {a : Attr}
    (hU : ∀ fd ∈ fds, ∀ b ∈ fd.Right, b ∈ U) (hs : ∀ b ∈ s, b ∈ U)
    (h : InClo fds s a) : a ∈ U := by
  induction h with
  | base hb => exact hs _ hb
  | step hfd _ hr => exact hU _ hfd _ hr

/-! ## The fixpoint pass -/

theorem closPass_extends (fds : List FuncDep) (s : AttrSet) :
    ∃ t, closPass fds s = s ++ t := by
  induction fds generalizing s with
  | nil => exact ⟨[], by simp [closPass]⟩
  | cons fd fds ih =>
    simp only [closPass, List.foldl_cons]
    by_cases hc : AttrSet.ContainsB s fd.Left
    · simp only [if_pos hc]
      obtain ⟨t1, ht1⟩ : ∃ t1, AttrSet.addAll s [fd.Right] = s ++ t1 := by
        simpa [AttrSet.addAll] using foldlAdd_extends fd.Right s
      obtain ⟨t2, ht2⟩ := ih (AttrSet.addAll s [fd.Right])
      exact ⟨t1 ++ t2, by simpa [ht1, List.append_assoc] using ht2⟩
    · simpa [if_neg hc] using ih s

theorem closPass_mem_mono (fds : List FuncDep) (s : AttrSet) (a : Attr) (ha : a ∈ s) :
    a ∈ closPass fds s := by
  obtain ⟨t, ht⟩ := closPass_extends fds s
  simp [ht, ha]

theorem ContainsB_iff (s t : AttrSet) :
    AttrSet.ContainsB s t = true ↔ ∀ b ∈ t, b ∈ s := by
  simp [AttrSet.ContainsB, List.all_eq_true]

theorem closPass_nodup (fds : List FuncDep) (s : AttrSet) (h : s.Nodup) :
    (closPass fds s).Nodup := by
  induction fds generalizing s with
  | nil => exact h
  | cons fd fds ih =>
    simp only [closPass, List.foldl_cons]
    by_cases hc : AttrSet.ContainsB s fd.Left
    · simp only [if_pos hc]
      exact ih _ (addAll_nodup _ _ h)
    · simpa [if_neg hc] using ih s h

theorem closPass_universe (fds : List FuncDep) (s U : AttrSet)
    (hU : ∀ fd ∈ fds, ∀ b ∈ fd.Right, b ∈ U) (hs : ∀ b ∈ s, b ∈ U) :
    ∀ b ∈ closPass fds s, b ∈ U := by
  induction fds generalizing s with
  | nil => exact hs
  | cons fd fds ih =>
    simp only [closPass, List.foldl_cons]
    by_cases hc : AttrSet.ContainsB s fd.Left
    · simp only [if_pos hc]
      refine ih _ (fun fd2 h2 => hU fd2 (by simp [h2])) ?_
      intro b hb
      rcases (mem_addAll_single s fd.Right b).mp hb with h1 | h1
      · exact hs _ h1
      · exact hU fd (by simp) _ h1
    · simpa [if_neg hc] using ih s (fun fd2 h2 => hU fd2 (by simp [h2])) hs

theorem closPass_sound (fds fds2 : List FuncDep) (seed s : AttrSet)
    (hsub : ∀ fd ∈ fds, fd ∈ fds2)
    (hder : ∀ b ∈ s, InClo fds2 seed b) :
    ∀ b ∈ closPass fds s, InClo fds2 seed b := by
  induction fds generalizing s with
  | nil => exact hder
  | cons fd fds ih =>
    simp only [closPass, List.foldl_cons]
    by_cases hc : AttrSet.ContainsB s fd.Left
    · simp only [if_pos hc]
      refine ih _ (fun fd2 h2 => hsub fd2 (by simp [h2])) ?_
      intro b hb
      rcases (mem_addAll_single s fd.Right b).mp hb with h1 | h1
      · exact hder _ h1
      · exact .step (hsub fd (by simp))
          (fun c hc2 => hder _ ((ContainsB_iff s fd.Left).mp hc _ hc2)) h1
    · simpa [if_neg hc] using ih s (fun fd2 h2 => hsub fd2 (by simp [h2])) hder

theorem closPass_cons (fd : FuncDep) (fds : List FuncDep) (s : AttrSet) :
    closPass (fd :: fds) s =
      if AttrSet.ContainsB s fd.Left then closPass fds (AttrSet.addAll s [fd.Right])
      else closPass fds s := by
  by_cases hc : AttrSet.ContainsB s fd.Left <;> simp [closPass, hc]

theorem addAll_single_extends (s t : AttrSet) : ∃ u, AttrSet.addAll s [t] = s ++ u := by
  simpa [AttrSet.addAll] using foldlAdd_extends t s

theorem closPass_stable_closed (fds : List FuncDep) (s : AttrSet)
    (hstab : closPass fds s = s) :
    ∀ fd ∈ fds, (∀ b ∈ fd.Left, b ∈ s) → ∀ a ∈ fd.Right, a ∈ s := by
  induction fds generalizing s with
  | nil => simp
  | cons fd fds ih =>
    rw [closPass_cons] at hstab
    by_cases hc : AttrSet.ContainsB s fd.Left
    · rw [if_pos hc] at hstab
      have hs2 : AttrSet.addAll s [fd.Right] = s := by
        obtain ⟨t1, ht1⟩ := addAll_single_extends s fd.Right
        obtain ⟨t2, ht2⟩ := closPass_extends fds (AttrSet.addAll s [fd.Right])
        rw [ht1] at ht2 hstab
        rw [ht2, List.append_assoc] at hstab
        have hnil : t1 = [] := by
          have hlen := congrArg List.length hstab
          simp at hlen
          simp [hlen.1]
        simp [ht1, hnil]
      rw [hs2] at hstab
      intro fd2 hfd2 hleft a ha
      rcases List.mem_cons.mp hfd2 with heq | htail
      · subst heq
        have : a ∈ AttrSet.addAll s [fd2.Right] := by
          simp [mem_addAll_single, ha]
        rwa [hs2] at this
      · exact ih s hstab fd2 htail hleft a ha
    · rw [if_neg hc] at hstab
      intro fd2 hfd2 hleft a ha
      rcases List.mem_cons.mp hfd2 with heq | htail
      · subst heq
        exact absurd ((ContainsB_iff s fd2.Left).mpr hleft) (by simpa using hc)
      · exact ih s hstab fd2 htail hleft a ha

theorem nodup_subset_length (l m : List Attr) (h : l.Nodup) (hsub : ∀ a ∈ l, a ∈ m) :
    l.length ≤ m.length :=
  (List.subperm_of_subset h hsub).length_le

theorem closLoop_succ (fds : List FuncDep) (k : Nat) (s : AttrSet) :
    closLoop fds (k + 1) s =
      if (closPass fds s).length = s.length then closPass fds s
      else closLoop fds k (closPass fds s) := by
  simp [closLoop]

theorem closLoop_extends (fds : List FuncDep) (k : Nat) (s : AttrSet) :
    ∃ t, closLoop fds k s = s ++ t := by
  induction k generalizing s with
  | zero => exact ⟨[], by simp [closLoop]⟩
  | succ k ih =>
    rw [closLoop_succ]
    by_cases hl : (closPass fds s).length = s.length
    · rw [if_pos hl]
      exact closPass_extends fds s
    · rw [if_neg hl]
      obtain ⟨u, hu⟩ := closPass_extends fds s
      obtain ⟨v, hv⟩ := ih (closPass fds s)
      exact ⟨u ++ v, by rw [hv, hu, List.append_assoc]⟩

theorem closLoop_nodup (fds : List FuncDep) (k : Nat) (s : AttrSet) (h : s.Nodup) :
    (closLoop fds k s).Nodup := by
  induction k generalizing s with
  | zero => simpa [closLoop] using h
  | succ k ih =>
    rw [closLoop_succ]
    by_cases hl : (closPass fds s).length = s.length
    · simpa [hl] using closPass_nodup fds s h
    · simpa [hl] using ih _ (closPass_nodup fds s h)

theorem closLoop_universe (fds : List FuncDep) (k : Nat) (s U : AttrSet)
    (hU : ∀ fd ∈ fds, ∀ b ∈ fd.Right, b ∈ U) (hs : ∀ b ∈ s, b ∈ U) :
    ∀ b ∈ closLoop fds k s, b ∈ U := by
  induction k generalizing s with
  | zero => simpa [closLoop] using hs
  | succ k ih =>
    rw [closLoop_succ]
    by_cases hl : (closPass fds s).length = s.length
    · simpa [hl] using closPass_universe fds s U hU hs
    · simpa [hl] using ih _ (closPass_universe fds s U hU hs)

theorem closLoop_sound (fds : List FuncDep) (k : Nat) (seed s : AttrSet)
    (hder : ∀ b ∈ s, InClo fds seed b) :
    ∀ b ∈ closLoop fds k s, InClo fds seed b := by
  induction k generalizing s with
  | zero => simpa [closLoop] using hder
  | succ k ih =>
    rw [closLoop_succ]
    by_cases hl : (closPass fds s).length = s.length
    · simpa [hl] using closPass_sound fds fds seed s (fun _ h => h) hder
    · simpa [hl] using ih _ (closPass_sound fds fds seed s (fun _ h => h) hder)

theorem closLoop_stable (fds : List FuncDep) (U : AttrSet)
    (hU : ∀ fd ∈ fds, ∀ b ∈ fd.Right, b ∈ U) :
    ∀ (k : Nat) (s : AttrSet), s.Nodup → (∀ b ∈ s, b ∈ U) →
      U.length + 1 ≤ k + s.length →
      closPass fds (closLoop fds k s) = closLoop fds k s := by
  intro k
  induction k with
  | zero =>
    intro s hnd hsub hfuel
    exact absurd (nodup_subset_length s U hnd hsub) (by omega)
  | succ k ih =>
    intro s hnd hsub hfuel
    rw [closLoop_succ]
    by_cases hl : (closPass fds s).length = s.length
    · rw [if_pos hl]
      obtain ⟨u, hu⟩ := closPass_extends fds s
      have hu0 : u = [] := by
        refine List.eq_nil_of_length_eq_zero ?_
        have h2 := congrArg List.length hu
        simp only [List.length_append] at h2
        omega
      have hs : closPass fds s = s := by simp [hu, hu0]
      rw [hs]
      exact hs
    · rw [if_neg hl]
      obtain ⟨u, hu⟩ := closPass_extends fds s
      have hlen : s.length + 1 ≤ (closPass fds s).length := by
        rcases u with _ | ⟨x, u⟩
        · exact absurd (by simp [hu]) hl
        · simp [hu]
      exact ih (closPass fds s) (closPass_nodup fds s hnd)
        (closPass_universe fds s U hU hsub) (by omega)

theorem closFix_extends (fds : List FuncDep) (s : AttrSet) :
    ∃ t, closFix fds s = s ++ t := by
  unfold closFix
  by_cases h : s.length = 0
  · exact ⟨[], by simp [h]⟩
  · simpa [h] using closLoop_extends fds (closFuel fds s) s

theorem closFix_nodup (fds : List FuncDep) (s : AttrSet) (h : s.Nodup) :
    (closFix fds s).Nodup := by
  unfold closFix
  by_cases hl : s.length = 0
  · simpa [hl] using h
  · simpa [hl] using closLoop_nodup fds _ s h

theorem closFix_universe (fds : List FuncDep) (s U : AttrSet)
    (hU : ∀ fd ∈ fds, ∀ b ∈ fd.Right, b ∈ U) (hs : ∀ b ∈ s, b ∈ U) :
    ∀ b ∈ closFix fds s, b ∈ U := by
  unfold closFix
  by_cases hl : s.length = 0
  · simpa [hl] using hs
  · simpa [hl] using closLoop_universe fds _ s U hU hs

theorem closFix_stable (fds : List FuncDep) (s : AttrSet) (hne : s ≠ [])
    (hnd : s.Nodup) :
    closPass fds (closFix fds s) = closFix fds s := by
  unfold closFix
  have hl : ¬ s.length = 0 := by simpa using hne
  rw [if_neg hl]
  refine closLoop_stable fds (AttrSet.addAll [] (s :: fds.map FuncDep.Right))
    ?_ _ s hnd ?_ ?_
  · intro fd hfd b hb
    refine (mem_addAll _ _ b).mpr (Or.inr ⟨fd.Right, ?_, hb⟩)
    exact List.mem_cons_of_mem s (List.mem_map_of_mem FuncDep.Right hfd)
  · intro b hb
    exact (mem_addAll _ _ b).mpr (Or.inr ⟨s, List.mem_cons_self s _, hb⟩)
  · simp only [closFuel]
    omega

theorem closFix_sound (fds : List FuncDep) (s : AttrSet) :
    ∀ b ∈ closFix fds s, InClo fds s b := by
  unfold closFix
  by_cases hl : s.length = 0
  · simp only [if_pos hl]
    exact fun b hb => .base hb
  · simp only [if_neg hl]
    exact closLoop_sound fds _ s s (fun b hb => .base hb)

theorem closFix_complete (fds : List FuncDep) (s : AttrSet) (hne : s ≠ [])
    (hnd : s.Nodup) {a : Attr} (h : InClo fds s a) : a ∈ closFix fds s := by
  induction h with
  | base hb =>
    obtain ⟨t, ht⟩ := closFix_extends fds s
    simp [ht, hb]
  | step hfd _ hr ih =>
    exact closPass_stable_closed fds (closFix fds s) (closFix_stable fds s hne hnd)
      _ hfd (fun b hb => ih b hb) _ hr

theorem closFix_iff (fds : List FuncDep) (s : AttrSet) (hne : s ≠ [])
    (hnd : s.Nodup) (a : Attr) : a ∈ closFix fds s ↔ InClo fds s a :=
  ⟨fun h => closFix_sound fds s a h, fun h => closFix_complete fds s hne hnd h⟩

theorem foldlAdd_id (l : List Attr) (acc : AttrSet) (h : ∀ x ∈ l, x ∈ acc) :
    l.foldl AttrSet.addIn acc = acc := by
  induction l with
  | nil => rfl
  | cons x xs ih =>
    simp only [List.foldl_cons, AttrSet.addIn, if_pos (h x (by simp))]
    exact ih fun y hy => h y (by simp [hy])

theorem foldlAdd_disjoint :
    ∀ (s acc : AttrSet), s.Nodup → acc.Nodup → (∀ a ∈ s, a ∉ acc) →
      s.foldl AttrSet.addIn acc = acc ++ s := by
  intro s
  induction s with
  | nil => intro acc _ _ _; simp
  | cons x xs ih =>
    intro acc hs hacc hdisj
    simp only [List.foldl_cons, AttrSet.addIn, if_neg (hdisj x (by simp))]
    rw [ih (acc ++ [x]) (List.nodup_cons.mp hs).2
      (by simp [List.nodup_append, hacc, hdisj x (by simp)])
      (by intro a ha
          simp only [List.mem_append, List.mem_singleton]
          push_neg
          exact ⟨hdisj a (by simp [ha]), fun hax => (List.nodup_cons.mp hs).1 (hax ▸ ha)⟩)]
    simp

theorem foldlAdd_self (acc rest : AttrSet) (hnd : (acc ++ rest).Nodup) :
    (acc ++ rest).foldl AttrSet.addIn acc = acc ++ rest := by
  rw [List.foldl_append, foldlAdd_id acc acc (fun x hx => hx)]
  have h2 := List.nodup_append.mp hnd
  exact foldlAdd_disjoint rest acc h2.2.1 h2.1 (fun a ha hacc => h2.2.2 hacc ha)

theorem mem_addAll_nil_single (t : AttrSet) (a : Attr) :
    a ∈ AttrSet.addAll [] [t] ↔ a ∈ t := by
  simp [mem_addAll]

theorem addAll_nil_pair_eq_foldl (l r : AttrSet) :
    AttrSet.addAll [] [l, r] = r.foldl AttrSet.addIn (AttrSet.addAll [] [l]) := by
  simp [AttrSet.addAll, List.foldl_append]

theorem addAll_nil_pair_extends (l r : AttrSet) :
    ∃ u, AttrSet.addAll [] [l, r] = AttrSet.addAll [] [l] ++ u := by
  rw [addAll_nil_pair_eq_foldl]
  exact foldlAdd_extends r (AttrSet.addAll [] [l])

theorem addAll_nil_dup_pair (a : AttrSet) :
    AttrSet.addAll [] [a, a] = AttrSet.addAll [] [a] := by
  rw [addAll_nil_pair_eq_foldl]
  exact foldlAdd_id a _ (fun x hx => (mem_addAll_nil_single a x).mpr hx)

theorem addAll_nil_single_empty_iff (a : AttrSet) :
    AttrSet.addAll [] [a] = [] ↔ a = [] := by
  constructor
  · intro h
    rcases a with _ | ⟨x, a⟩
    · rfl
    · exfalso
      have hx : x ∈ AttrSet.addAll [] [x :: a] := (mem_addAll_nil_single _ x).mpr (by simp)
      simp [h] at hx
  · intro h; simp [h, AttrSet.addAll]

theorem addAll_nil_pair_empty_iff (l r : AttrSet) :
    AttrSet.addAll [] [l, r] = [] ↔ l = [] ∧ r = [] := by
  constructor
  · intro h
    constructor
    · rcases l with _ | ⟨x, l⟩
      · rfl
      · exfalso
        have hx : x ∈ AttrSet.addAll [] [x :: l, r] := by simp [mem_addAll]
        simp [h] at hx
    · rcases r with _ | ⟨x, r⟩
      · rfl
      · exfalso
        have hx : x ∈ AttrSet.addAll [] [l, x :: r] := by simp [mem_addAll]
        simp [h] at hx
  · rintro ⟨h1, h2⟩
    simp [h1, h2, AttrSet.addAll]

theorem closLoop_of_stable (fds : List FuncDep) (k : Nat) (s : AttrSet)
    (h : closPass fds s = s) (hk : 0 < k) : closLoop fds k s = s := by
  rcases k with _ | k
  · omega
  · rw [closLoop_succ, if_pos (by rw [h]), h]

theorem closFix_of_stable (fds : List FuncDep) (s : AttrSet)
    (h : closPass fds s = s) : closFix fds s = s := by
  unfold closFix
  by_cases hl : s.length = 0
  · simp [hl]
  · rw [if_neg hl]
    exact closLoop_of_stable fds _ s h (by simp [closFuel])

/-- Membership in a seed built as the union of the two FD sides. -/
theorem mem_seed (l r : AttrSet) (a : Attr) :
    a ∈ AttrSet.addAll [] [l, r] ↔ a ∈ l ∨ a ∈ r := by
  simp [mem_addAll]

theorem InClo_seed_congr {fds : List FuncDep} {s t : AttrSet} (h : SameSet s t)
    (a : Attr) : InClo fds s a ↔ InClo fds t a :=
  ⟨fun hc => hc.mono_seed (fun b hb => (h b).mp hb),
   fun hc => hc.mono_seed (fun b hb => (h b).mpr hb)⟩

/-- The right side of `Closure` seen through derivability: for a seed with at
least one attribute, the computed closure contains exactly the attributes
derivable from `fd.Left ∪ fd.Right`. -/
theorem Closure_right_iff (r : Relation) (fd : FuncDep)
    (hne : ¬(fd.Left = [] ∧ fd.Right = [])) (a : Attr) :
    a ∈ (r.Closure fd).Right ↔ InClo r.FuncDeps (fd.Left ++ fd.Right) a := by
  have hseed : AttrSet.addAll [] [fd.Left, fd.Right] ≠ [] := by
    intro h
    exact hne ((addAll_nil_pair_empty_iff _ _).mp h)
  rw [show (r.Closure fd).Right = closFix r.FuncDeps (AttrSet.addAll [] [fd.Left, fd.Right])
        from rfl,
    closFix_iff r.FuncDeps _ hseed (addAll_nil_nodup _)]
  exact InClo_seed_congr (fun b => by simp [mem_seed]) a

theorem Closure_right_sound (r : Relation) (fd : FuncDep) (a : Attr)
    (h : a ∈ (r.Closure fd).Right) : InClo r.FuncDeps (fd.Left ++ fd.Right) a := by
  have hs := closFix_sound r.FuncDeps (AttrSet.addAll [] [fd.Left, fd.Right]) a h
  exact hs.mono_seed (fun b hb => by simpa [mem_seed] using (mem_seed _ _ b).mp hb)

theorem Closure_right_extensive (r : Relation) (fd : FuncDep) (a : Attr)
    (h : a ∈ fd.Left ∨ a ∈ fd.Right) : a ∈ (r.Closure fd).Right := by
  obtain ⟨t, ht⟩ := closFix_extends r.FuncDeps (AttrSet.addAll [] [fd.Left, fd.Right])
  show a ∈ closFix r.FuncDeps (AttrSet.addAll [] [fd.Left, fd.Right])
  rw [ht]
  simp [mem_seed, h]

theorem Closure_left_mem (r : Relation) (fd : FuncDep) (b : Attr) :
    b ∈ (r.Closure fd).Left ↔ b ∈ fd.Left :=
  mem_addAll_nil_single fd.Left b

/-- Equivalence between derivability over the pre-closed dependency list
`r.Closures` and derivability over the raw `r.FuncDeps`. -/
theorem InClo_Closures_iff (r : Relation) (seed : AttrSet) (x : Attr) :
    InClo r.Closures seed x ↔ InClo r.FuncDeps seed x := by
  constructor
  · intro h
    induction h with
    | base hb => exact .base hb
    | step hfd hprem hr ih =>
      rename_i cfd a
      obtain ⟨fd, hfdmem, heq⟩ := List.mem_map.mp hfd
      subst heq
      refine InClo.cut ?_ (Closure_right_sound r fd a hr)
      intro b hb
      rcases List.mem_append.mp hb with h1 | h1
      · exact ih b ((Closure_left_mem r fd b).mpr h1)
      · refine .step hfdmem ?_ h1
        intro c hc
        exact ih c ((Closure_left_mem r fd c).mpr hc)
  · intro h
    induction h with
    | base hb => exact .base hb
    | step hfd hprem hr ih =>
      rename_i fd a
      refine .step (List.mem_map_of_mem r.Closure hfd) ?_ ?_
      · intro b hb
        exact ih b ((Closure_left_mem r fd b).mp hb)
      · exact Closure_right_extensive r fd a (Or.inr hr)

theorem sameSet_length_iff (s U : AttrSet) (hs : s.Nodup) (hU : U.Nodup)
    (hsub : ∀ a ∈ s, a ∈ U) : s.length = U.length ↔ SameSet s U := by
  constructor
  · intro hlen a
    have hperm := (List.subperm_of_subset hs (fun a ha => hsub a ha)).perm_of_length_le
      (by omega)
    exact hperm.mem_iff
  · intro hss
    have hperm := (List.perm_ext_iff_of_nodup hs hU).mpr hss
    exact hperm.length_eq

theorem sortGo_perm (s : AttrSet) : (AttrSet.sortGo s).Perm s :=
  List.perm_insertionSort _ s

theorem sortGo_eq_of_sameSet (s t : AttrSet) (hs : s.Nodup) (ht : t.Nodup)
    (h : SameSet s t) : AttrSet.sortGo s = AttrSet.sortGo t := by
  have hperm : s.Perm t := (List.perm_ext_iff_of_nodup hs ht).mpr h
  have h1 : (AttrSet.sortGo s).Perm (AttrSet.sortGo t) :=
    ((sortGo_perm s).trans hperm).trans (sortGo_perm t).symm
  exact List.eq_of_perm_of_sorted h1
    (List.sorted_insertionSort _ s) (List.sorted_insertionSort _ t)

theorem Closures_right_universe (r : Relation) (hwf : WFRel r) :
    ∀ cfd ∈ r.Closures, ∀ b ∈ cfd.Right, b ∈ r.Attrs := by
  intro cfd hcfd b hb
  obtain ⟨fd, hfd, heq⟩ := List.mem_map.mp hcfd
  subst heq
  refine closFix_universe r.FuncDeps _ r.Attrs ?_ ?_ b hb
  · intro fd2 h2 c hc
    exact (hwf.2 fd2 h2).2.1 c hc
  · intro c hc
    rcases (mem_seed _ _ c).mp hc with h1 | h1
    · exact (hwf.2 fd hfd).1 c h1
    · exact (hwf.2 fd hfd).2.1 c h1

theorem Closure_right_universe (r : Relation) (hwf : WFRel r) (fd : FuncDep)
    (hl : ∀ a ∈ fd.Left, a ∈ r.Attrs) (hr : ∀ a ∈ fd.Right, a ∈ r.Attrs) :
    ∀ b ∈ (r.Closure fd).Right, b ∈ r.Attrs := by
  refine closFix_universe r.FuncDeps _ r.Attrs ?_ ?_
  · intro fd2 h2 c hc
    exact (hwf.2 fd2 h2).2.1 c hc
  · intro c hc
    rcases (mem_seed _ _ c).mp hc with h1 | h1
    · exact hl c h1
    · exact hr c h1

/-! ## Claim theorems C4, C5, C7, C3 -/

/-- C4: for every Relation `r` and every FD `fd`, `Closure` is idempotent and
extensive: `Closure(Closure(fd)).Right` equals `Closure(fd).Right` (here even
as a list, which implies equality as a set), and `Closure(fd).Right` contains
every attribute of `fd.Left` and of `fd.Right`. -/
theorem C4_closure_idempotent_extensive (r : Relation) (fd : FuncDep) :
    (r.Closure (r.Closure fd)).Right = (r.Closure fd).Right ∧
      ∀ a, (a ∈ fd.Left ∨ a ∈ fd.Right) → a ∈ (r.Closure fd).Right := by
  constructor
  · have hL0 : AttrSet.addAll [] [(r.Closure fd).Left] = (r.Closure fd).Left :=
      addAll_nil_single_nodup_eq _ (addAll_nil_nodup _)
    have hXnodup : (r.Closure fd).Right.Nodup := closFix_nodup _ _ (addAll_nil_nodup _)
    obtain ⟨u, hu⟩ := addAll_nil_pair_extends fd.Left fd.Right
    obtain ⟨t, ht⟩ :=
      closFix_extends r.FuncDeps (AttrSet.addAll [] [fd.Left, fd.Right])
    have hX : (r.Closure fd).Right = (r.Closure fd).Left ++ (u ++ t) := by
      show closFix r.FuncDeps (AttrSet.addAll [] [fd.Left, fd.Right]) = _
      rw [ht, hu, List.append_assoc]
      rfl
    have hseed2 :
        AttrSet.addAll [] [(r.Closure fd).Left, (r.Closure fd).Right] =
          (r.Closure fd).Right := by
      rw [addAll_nil_pair_eq_foldl, hL0]
      calc (r.Closure fd).Right.foldl AttrSet.addIn (r.Closure fd).Left
          = ((r.Closure fd).Left ++ (u ++ t)).foldl AttrSet.addIn (r.Closure fd).Left := by
            rw [← hX]
        _ = (r.Closure fd).Left ++ (u ++ t) := foldlAdd_self _ _ (hX ▸ hXnodup)
        _ = (r.Closure fd).Right := hX.symm
    show closFix r.FuncDeps
        (AttrSet.addAll [] [(r.Closure fd).Left, (r.Closure fd).Right]) = _
    rw [hseed2]
    by_cases hXnil : (r.Closure fd).Right = []
    · rw [hXnil]
      simp [closFix]
    · have hseednil : AttrSet.addAll [] [fd.Left, fd.Right] ≠ [] := by
        intro h
        apply hXnil
        show closFix r.FuncDeps (AttrSet.addAll [] [fd.Left, fd.Right]) = []
        rw [h]
        simp [closFix]
      exact closFix_of_stable r.FuncDeps _
        (closFix_stable r.FuncDeps _ hseednil (addAll_nil_nodup _))
  · intro a ha
    exact Closure_right_extensive r fd a ha

/-- C5: shuffling the relation's FD list changes neither the membership of
any closure's resulting right side nor its canonical sorted string. -/
theorem C5_closure_fd_order_determinism (r : Relation) (fds2 : List FuncDep)
    (hperm : r.FuncDeps.Perm fds2) (fd : FuncDep) :
    (∀ a, a ∈ (Relation.Closure ⟨r.Name, r.Attrs, fds2⟩ fd).Right ↔
        a ∈ (r.Closure fd).Right) ∧
      AttrSet.stringGo (Relation.Closure ⟨r.Name, r.Attrs, fds2⟩ fd).Right =
        AttrSet.stringGo (r.Closure fd).Right := by
  have hmem : ∀ a, a ∈ (Relation.Closure ⟨r.Name, r.Attrs, fds2⟩ fd).Right ↔
      a ∈ (r.Closure fd).Right := by
    intro a
    by_cases hne : fd.Left = [] ∧ fd.Right = []
    · have hseed : AttrSet.addAll [] [fd.Left, fd.Right] = [] :=
        (addAll_nil_pair_empty_iff _ _).mpr hne
      show a ∈ closFix fds2 (AttrSet.addAll [] [fd.Left, fd.Right]) ↔
          a ∈ closFix r.FuncDeps (AttrSet.addAll [] [fd.Left, fd.Right])
      rw [hseed]
      simp [closFix]
    · rw [Closure_right_iff ⟨r.Name, r.Attrs, fds2⟩ fd hne a,
        Closure_right_iff r fd hne a]
      exact ⟨fun h => h.congr_fds (fun x => (hperm.mem_iff).symm),
             fun h => h.congr_fds (fun x => hperm.mem_iff)⟩
  refine ⟨hmem, ?_⟩
  unfold AttrSet.stringGo
  rw [sortGo_eq_of_sameSet ((Relation.Closure ⟨r.Name, r.Attrs, fds2⟩ fd).Right)
    ((r.Closure fd).Right) (closFix_nodup _ _ (addAll_nil_nodup _))
    (closFix_nodup _ _ (addAll_nil_nodup _)) hmem]

/-- C5 witness: a concrete relation, a reversal of its FD list, and a seed FD
with the hypotheses discharged by computation. -/
theorem C5_closure_fd_order_determinism_witness :
    (Relation.mk ['R'] [['A'], ['B'], ['C']]
        [⟨[['A']], [['B']]⟩, ⟨[['B']], [['C']]⟩]).FuncDeps.Perm
      [⟨[['B']], [['C']]⟩, ⟨[['A']], [['B']]⟩] ∧
    ((∀ a, a ∈ (Relation.Closure
          ⟨(Relation.mk ['R'] [['A'], ['B'], ['C']]
              [⟨[['A']], [['B']]⟩, ⟨[['B']], [['C']]⟩]).Name,
            (Relation.mk ['R'] [['A'], ['B'], ['C']]
              [⟨[['A']], [['B']]⟩, ⟨[['B']], [['C']]⟩]).Attrs,
            [⟨[['B']], [['C']]⟩, ⟨[['A']], [['B']]⟩]⟩ ⟨[['A']], [['A']]⟩).Right ↔
        a ∈ ((Relation.mk ['R'] [['A'], ['B'], ['C']]
            [⟨[['A']], [['B']]⟩, ⟨[['B']], [['C']]⟩]).Closure ⟨[['A']], [['A']]⟩).Right) ∧
      AttrSet.stringGo (Relation.Closure
          ⟨(Relation.mk ['R'] [['A'], ['B'], ['C']]
              [⟨[['A']], [['B']]⟩, ⟨[['B']], [['C']]⟩]).Name,
            (Relation.mk ['R'] [['A'], ['B'], ['C']]
              [⟨[['A']], [['B']]⟩, ⟨[['B']], [['C']]⟩]).Attrs,
            [⟨[['B']], [['C']]⟩, ⟨[['A']], [['B']]⟩]⟩ ⟨[['A']], [['A']]⟩).Right =
        AttrSet.stringGo ((Relation.mk ['R'] [['A'], ['B'], ['C']]
            [⟨[['A']], [['B']]⟩, ⟨[['B']], [['C']]⟩]).Closure ⟨[['A']], [['A']]⟩).Right) :=
  ⟨by decide,
   C5_closure_fd_order_determinism
     (Relation.mk ['R'] [['A'], ['B'], ['C']]
       [⟨[['A']], [['B']]⟩, ⟨[['B']], [['C']]⟩])
     [⟨[['B']], [['C']]⟩, ⟨[['A']], [['B']]⟩] (by decide) ⟨[['A']], [['A']]⟩⟩

/-- C7: the fixpoint terminates.  A pass never loses a member; for a
well-formed relation and a seed FD over its attributes the working set stays
duplicate-free and bounded by `|Attrs|`; and (unless the seed is empty, in
which case the Go loop is skipped) the returned right side is a fixpoint of
the pass, which is exactly the loop exit condition.  In particular `Closure`
and the candidate-key strategies built on it always return. -/
theorem C7_closure_terminates (r : Relation) (fd : FuncDep) (hwf : WFRel r)
    (hl : ∀ a ∈ fd.Left, a ∈ r.Attrs) (hr : ∀ a ∈ fd.Right, a ∈ r.Attrs) :
    (∀ s : AttrSet, ∀ a ∈ s, a ∈ closPass r.FuncDeps s) ∧
    ((r.Closure fd).Right.Nodup ∧ (r.Closure fd).Right.length ≤ r.Attrs.length) ∧
    ((fd.Left = [] ∧ fd.Right = []) ∨
      closPass r.FuncDeps (r.Closure fd).Right = (r.Closure fd).Right) := by
  refine ⟨fun s a ha => closPass_mem_mono r.FuncDeps s a ha, ⟨?_, ?_⟩, ?_⟩
  · exact closFix_nodup _ _ (addAll_nil_nodup _)
  · exact nodup_subset_length _ _ (closFix_nodup _ _ (addAll_nil_nodup _))
      (Closure_right_universe r hwf fd hl hr)
  · by_cases hne : fd.Left = [] ∧ fd.Right = []
    · exact Or.inl hne
    · refine Or.inr (closFix_stable r.FuncDeps _ ?_ (addAll_nil_nodup _))
      intro h
      exact hne ((addAll_nil_pair_empty_iff _ _).mp h)

/-- C7 witness: the termination properties at a concrete relation and FD. -/
theorem C7_closure_terminates_witness :
    (WFRel (Relation.mk ['R'] [['A'], ['B']] [⟨[['A']], [['B']]⟩]) ∧
      (∀ a ∈ (FuncDep.mk [['A']] [['B']]).Left,
          a ∈ (Relation.mk ['R'] [['A'], ['B']] [⟨[['A']], [['B']]⟩]).Attrs) ∧
      (∀ a ∈ (FuncDep.mk [['A']] [['B']]).Right,
          a ∈ (Relation.mk ['R'] [['A'], ['B']] [⟨[['A']], [['B']]⟩]).Attrs)) ∧
    ((∀ s : AttrSet, ∀ a ∈ s,
        a ∈ closPass (Relation.mk ['R'] [['A'], ['B']] [⟨[['A']], [['B']]⟩]).FuncDeps s) ∧
      (((Relation.mk ['R'] [['A'], ['B']] [⟨[['A']], [['B']]⟩]).Closure
          ⟨[['A']], [['B']]⟩).Right.Nodup ∧
        ((Relation.mk ['R'] [['A'], ['B']] [⟨[['A']], [['B']]⟩]).Closure
            ⟨[['A']], [['B']]⟩).Right.length ≤
          (Relation.mk ['R'] [['A'], ['B']] [⟨[['A']], [['B']]⟩]).Attrs.length) ∧
      (((FuncDep.mk [['A']] [['B']]).Left = [] ∧ (FuncDep.mk [['A']] [['B']]).Right = []) ∨
        closPass (Relation.mk ['R'] [['A'], ['B']] [⟨[['A']], [['B']]⟩]).FuncDeps
            ((Relation.mk ['R'] [['A'], ['B']] [⟨[['A']], [['B']]⟩]).Closure
              ⟨[['A']], [['B']]⟩).Right =
          ((Relation.mk ['R'] [['A'], ['B']] [⟨[['A']], [['B']]⟩]).Closure
            ⟨[['A']], [['B']]⟩).Right)) :=
  ⟨⟨by decide, by decide, by decide⟩,
   C7_closure_terminates (Relation.mk ['R'] [['A'], ['B']] [⟨[['A']], [['B']]⟩])
     ⟨[['A']], [['B']]⟩ (by decide) (by decide) (by decide)⟩

/-- C3: for every well-formed relation and every duplicate-free subset of its
attributes, the inner fixpoint of the brute-force `check` run against the
pre-closed dependencies from `Closures()` has the same members as the same
fixpoint run against the raw `FuncDeps`; consequently the subset is recorded
as a key candidate (full size reached) iff its `Closure` against the raw FDs
equals the full attribute set. -/
theorem C3_preclosed_fixpoint_equivalence (r : Relation) (a : AttrSet)
    (hwf : WFRel r) (hnd : a.Nodup) (hsub : ∀ x ∈ a, x ∈ r.Attrs) :
    (∀ x, x ∈ closFix r.Closures (AttrSet.addAll [] [a]) ↔
        x ∈ closFix r.FuncDeps (AttrSet.addAll [] [a])) ∧
    ((closFix r.Closures (AttrSet.addAll [] [a])).length = r.Attrs.length ↔
        SameSet (r.Closure ⟨a, a⟩).Right r.Attrs) := by
  have hmem : ∀ x, x ∈ closFix r.Closures (AttrSet.addAll [] [a]) ↔
      x ∈ closFix r.FuncDeps (AttrSet.addAll [] [a]) := by
    intro x
    by_cases hnil : a = []
    · subst hnil
      rw [show AttrSet.addAll [] [([] : AttrSet)] = [] from rfl]
      simp [closFix]
    · have hne : AttrSet.addAll [] [a] ≠ [] := by
        intro h
        exact hnil ((addAll_nil_single_empty_iff a).mp h)
      rw [closFix_iff _ _ hne (addAll_nil_nodup _), closFix_iff _ _ hne (addAll_nil_nodup _)]
      exact InClo_Closures_iff r _ x
  refine ⟨hmem, ?_⟩
  have hGseed : (r.Closure ⟨a, a⟩).Right = closFix r.FuncDeps (AttrSet.addAll [] [a]) := by
    show closFix r.FuncDeps (AttrSet.addAll [] [a, a]) = _
    rw [addAll_nil_dup_pair]
  have hFnodup : (closFix r.Closures (AttrSet.addAll [] [a])).Nodup :=
    closFix_nodup _ _ (addAll_nil_nodup _)
  have hFuniv : ∀ b ∈ closFix r.Closures (AttrSet.addAll [] [a]), b ∈ r.Attrs := by
    refine closFix_universe _ _ r.Attrs (Closures_right_universe r hwf) ?_
    intro b hb
    exact hsub b ((mem_addAll_nil_single a b).mp hb)
  rw [sameSet_length_iff _ r.Attrs hFnodup hwf.1 hFuniv, hGseed]
  constructor
  · intro hss x
    exact ((hmem x).symm.trans (hss x))
  · intro hss x
    exact ((hmem x).trans (hss x))

/-- C3 witness: the equivalence at a concrete relation and subset. -/
theorem C3_preclosed_fixpoint_equivalence_witness :
    (WFRel (Relation.mk ['R'] [['A'], ['B']] [⟨[['A']], [['B']]⟩]) ∧
      ([[ 'A' ]] : AttrSet).Nodup ∧
      (∀ x ∈ ([[ 'A' ]] : AttrSet),
        x ∈ (Relation.mk ['R'] [['A'], ['B']] [⟨[['A']], [['B']]⟩]).Attrs)) ∧
    ((∀ x, x ∈ closFix (Relation.mk ['R'] [['A'], ['B']]
            [⟨[['A']], [['B']]⟩]).Closures (AttrSet.addAll [] [[['A']]]) ↔
        x ∈ closFix (Relation.mk ['R'] [['A'], ['B']]
            [⟨[['A']], [['B']]⟩]).FuncDeps (AttrSet.addAll [] [[['A']]])) ∧
      ((closFix (Relation.mk ['R'] [['A'], ['B']]
            [⟨[['A']], [['B']]⟩]).Closures (AttrSet.addAll [] [[['A']]])).length =
          (Relation.mk ['R'] [['A'], ['B']] [⟨[['A']], [['B']]⟩]).Attrs.length ↔
        SameSet ((Relation.mk ['R'] [['A'], ['B']]
            [⟨[['A']], [['B']]⟩]).Closure ⟨[['A']], [['A']]⟩).Right
          (Relation.mk ['R'] [['A'], ['B']] [⟨[['A']], [['B']]⟩]).Attrs)) :=
  ⟨⟨by decide, by decide, by decide⟩,
   C3_preclosed_fixpoint_equivalence
     (Relation.mk ['R'] [['A'], ['B']] [⟨[['A']], [['B']]⟩]) [['A']]
     (by decide) (by decide) (by decide)⟩

theorem add_nil_eq (a : Attr) : (AttrSet.add [] a).1 = [a] := by
  simp [AttrSet.add]

theorem removeGo_not_mem (s : AttrSet) (a : Attr) (h : a ∉ s) :
    AttrSet.removeGo s a = (s, false) := by
  unfold AttrSet.removeGo
  have hnone : s.indexOf? a = none := by
    rw [List.indexOf?_eq_none_iff]
    intro x hx hxa
    exact h (beq_iff_eq.mp hxa ▸ hx)
  rw [hnone]

theorem removeGo_perm (s : AttrSet) (a : Attr) (hnd : s.Nodup) (h : a ∈ s) :
    (AttrSet.removeGo s a).1.Perm (s.erase a) := by
  induction s with
  | nil => simp at h
  | cons x xs ih =>
    by_cases hxa : x = a
    · subst hxa
      unfold AttrSet.removeGo
      rw [List.indexOf?_cons, if_pos (by simp)]
      rcases List.eq_nil_or_concat xs with hnil | ⟨p, w, hpw⟩
      · subst hnil
        simp
      · rw [List.concat_eq_append] at hpw
        subst hpw
        simp only [List.set_cons_zero, List.getLastD_cons, List.getLastD_concat,
          List.erase_cons_head]
        have hdl : (w :: (p ++ [w])).dropLast = w :: p := by
          rw [show w :: (p ++ [w]) = (w :: p) ++ [w] by simp, List.dropLast_concat]
        rw [hdl]
        exact (List.perm_append_singleton w p).symm
    · have hmem : a ∈ xs := by
        rcases List.mem_cons.mp h with h1 | h1
        · exact absurd h1.symm hxa
        · exact h1
      have hxs : xs ≠ [] := List.ne_nil_of_mem hmem
      unfold AttrSet.removeGo at ih ⊢
      rw [List.indexOf?_cons, if_neg (by simpa using hxa)]
      match hidx : xs.indexOf? a with
      | none =>
        exfalso
        rw [List.indexOf?_eq_none_iff] at hidx
        exact hidx a hmem (by simp)
      | some j =>
        show (((x :: xs).set (j + 1) ((x :: xs).getLastD [])).dropLast).Perm
          ((x :: xs).erase a)
        have hset : (x :: xs).set (j + 1) ((x :: xs).getLastD []) =
            x :: xs.set j (xs.getLastD []) := by
          rw [List.getLastD_cons, List.set_cons_succ]
          rcases List.eq_nil_or_concat xs with hnil | ⟨p, w, hpw⟩
          · exact absurd hnil hxs
          · rw [List.concat_eq_append] at hpw
            subst hpw
            simp [List.getLastD_concat]
        rw [hset]
        have hsetne : xs.set j (xs.getLastD []) ≠ [] := by
          intro hc
          have := congrArg List.length hc
          simp at this
          exact hxs this
        rw [show (x :: xs.set j (xs.getLastD [])).dropLast =
              x :: (xs.set j (xs.getLastD [])).dropLast from
            List.dropLast_cons_of_ne_nil hsetne,
          List.erase_cons_tail (by simpa using hxa)]
        have ihp := ih (List.nodup_cons.mp hnd).2 hmem
        rw [hidx] at ihp
        exact ihp.cons x

theorem removeGo_nodup (s : AttrSet) (a : Attr) (hnd : s.Nodup) :
    (AttrSet.removeGo s a).1.Nodup := by
  by_cases h : a ∈ s
  · exact ((removeGo_perm s a hnd h).nodup_iff).mpr (hnd.erase a)
  · rw [removeGo_not_mem s a h]
    exact hnd

theorem removeGo_mem (s : AttrSet) (a : Attr) (hnd : s.Nodup) (h : a ∈ s) (x : Attr) :
    x ∈ (AttrSet.removeGo s a).1 ↔ x ∈ s ∧ x ≠ a := by
  rw [(removeGo_perm s a hnd h).mem_iff, hnd.mem_erase_iff]
  tauto

/-- C9: every AttrSet operation preserves the no-duplicates invariant, and
`Add` reports `true` exactly when the attribute was absent. -/
theorem C9_attrset_invariants (s : AttrSet) (a : Attr) (others : List AttrSet)
    (hs : s.Nodup) :
    ((AttrSet.add s a).1.Nodup ∧ ((AttrSet.add s a).2 = true ↔ a ∉ s)) ∧
    (AttrSet.addAll s others).Nodup ∧
    (AttrSet.removeGo s a).1.Nodup ∧
    (AttrSet.UnionGo s others).Nodup ∧
    (AttrSet.IntersectionGo s others).Nodup ∧
    (AttrSet.DifferenceGo s others).Nodup := by
  refine ⟨⟨?_, ?_⟩, addAll_nodup s others hs, removeGo_nodup s a hs,
    addAll_nil_nodup _, ?_, ?_⟩
  · unfold AttrSet.add
    by_cases h : a ∈ s
    · simpa [h] using hs
    · simp [h, List.nodup_append, hs]
  · unfold AttrSet.add
    by_cases h : a ∈ s <;> simp [h]
  · exact List.Nodup.filter _ (addAll_nil_nodup [s])
  · exact List.Nodup.filter _ (addAll_nil_nodup [s])

/-- C9 witness: the invariants at concrete inputs. -/
theorem C9_attrset_invariants_witness :
    ([[ 'A' ], ['B']] : AttrSet).Nodup ∧
    (((AttrSet.add [['A'], ['B']] ['C']).1.Nodup ∧
        ((AttrSet.add [['A'], ['B']] ['C']).2 = true ↔ (['C'] : Attr) ∉ [['A'], ['B']])) ∧
      (AttrSet.addAll [['A'], ['B']] [[['C']]]).Nodup ∧
      (AttrSet.removeGo [['A'], ['B']] ['C']).1.Nodup ∧
      (AttrSet.UnionGo [['A'], ['B']] [[['C']]]).Nodup ∧
      (AttrSet.IntersectionGo [['A'], ['B']] [[['C']]]).Nodup ∧
      (AttrSet.DifferenceGo [['A'], ['B']] [[['C']]]).Nodup) :=
  ⟨by decide, C9_attrset_invariants [['A'], ['B']] ['C'] [[['C']]] (by decide)⟩

theorem count_le_one_of_nodup (x : Attr) (t : List Attr) (ht : t.Nodup) :
    t.count x ≤ 1 := by
  induction t with
  | nil => simp
  | cons y ys ih =>
    rw [List.count_cons]
    by_cases hyx : y = x
    · subst hyx
      have h0 : ys.count y = 0 := List.count_eq_zero.mpr (List.nodup_cons.mp ht).1
      simp [h0]
    · have hih := ih (List.nodup_cons.mp ht).2
      simp only [beq_iff_eq]
      rw [if_neg hyx]
      omega

theorem IntersectionGo_single_length_iff (s t : AttrSet) (ht : t.Nodup) :
    ((AttrSet.IntersectionGo s [t]).length = t.length) ↔ ∀ x ∈ t, x ∈ s := by
  have hpred : ∀ x : Attr, (1 + t.count x = 2) ↔ x ∈ t := by
    intro x
    constructor
    · intro h
      exact List.count_pos_iff.mp (by omega)
    · intro h
      have hle := count_le_one_of_nodup x t ht
      have hpos := List.count_pos_iff.mpr h
      omega
  have hfe : AttrSet.IntersectionGo s [t] =
      (AttrSet.addAll [] [s]).filter (fun x => decide (x ∈ t)) := by
    unfold AttrSet.IntersectionGo
    refine List.filter_congr ?_
    intro x _
    apply decide_eq_decide.mpr
    simpa using hpred x
  rw [hfe]
  have hFnodup := (addAll_nil_nodup [s]).filter (fun x => decide (x ∈ t))
  have hFsub : ∀ x ∈ (AttrSet.addAll [] [s]).filter (fun x => decide (x ∈ t)), x ∈ t := by
    intro x hx
    simpa using (List.mem_filter.mp hx).2
  rw [sameSet_length_iff _ t hFnodup ht hFsub]
  constructor
  · intro hss x hx
    have := (hss x).mpr hx
    exact (mem_addAll_nil_single s x).mp (List.mem_filter.mp this).1
  · intro hsub x
    constructor
    · intro hx
      exact hFsub x hx
    · intro hx
      refine List.mem_filter.mpr ⟨(mem_addAll_nil_single s x).mpr (hsub x hx), by simpa using hx⟩

/-- C6: the applicability contracts of the FD algebra: `Decompose` fails iff
the right side has exactly one attribute and otherwise emits one FD per
right-side attribute; `Union` fails iff some attribute of `other.Left` is
missing from `fd.Left`, else keeps the left side and unions the rights;
`TransitiveWith` fails iff neither orientation's subset condition holds, and
applies the first orientation with priority. -/
theorem C6_algebra_applicability (fd other : FuncDep)
    (h1 : fd.Left.Nodup) (h3 : other.Left.Nodup) :
    (fd.Decompose = none ↔ fd.Right.length = 1) ∧
    (fd.Right.length ≠ 1 →
      fd.Decompose =
        some (fd.Right.map
          (fun a => { Left := AttrSet.addAll [] [fd.Left], Right := [a] }))) ∧
    (fd.UnionFD other = none ↔ ∃ x ∈ other.Left, x ∉ fd.Left) ∧
    ((∀ x ∈ other.Left, x ∈ fd.Left) →
      fd.UnionFD other =
        some { Left := AttrSet.addAll [] [fd.Left]
               Right := AttrSet.addAll [] [fd.Right, other.Right] }) ∧
    (fd.TransitiveWith other = none ↔
      ¬(∀ x ∈ other.Left, x ∈ fd.Right) ∧ ¬(∀ x ∈ fd.Left, x ∈ other.Right)) ∧
    ((∀ x ∈ other.Left, x ∈ fd.Right) →
      fd.TransitiveWith other =
        some { Left := AttrSet.addAll [] [fd.Left]
               Right := AttrSet.addAll [] [other.Right] }) ∧
    (¬(∀ x ∈ other.Left, x ∈ fd.Right) → (∀ x ∈ fd.Left, x ∈ other.Right) →
      fd.TransitiveWith other =
        some { Left := AttrSet.addAll [] [other.Left]
               Right := AttrSet.addAll [] [fd.Right] }) := by
  have htw1 : ((AttrSet.IntersectionGo fd.Right [other.Left]).length =
      other.Left.length) ↔ ∀ x ∈ other.Left, x ∈ fd.Right :=
    IntersectionGo_single_length_iff fd.Right other.Left h3
  have htw2 : ((AttrSet.IntersectionGo other.Right [fd.Left]).length =
      fd.Left.length) ↔ ∀ x ∈ fd.Left, x ∈ other.Right :=
    IntersectionGo_single_length_iff other.Right fd.Left h1
  refine ⟨?_, ?_, ?_, ?_, ?_, ?_, ?_⟩
  · unfold FuncDep.Decompose
    by_cases h : fd.Right.length = 1 <;> simp [h]
  · intro h
    unfold FuncDep.Decompose
    rw [if_neg h]
    rfl
  · unfold FuncDep.UnionFD
    by_cases h : ∀ x ∈ other.Left, x ∈ fd.Left
    · rw [if_pos (by simpa [List.all_eq_true] using h)]
      simp only [reduceCtorEq, false_iff]
      push_neg
      exact h
    · rw [if_neg (by simpa [List.all_eq_true] using h)]
      simp only [true_iff]
      push_neg at h
      exact h
  · intro h
    unfold FuncDep.UnionFD
    rw [if_pos (by simpa [List.all_eq_true] using h)]
  · unfold FuncDep.TransitiveWith
    by_cases ha : (AttrSet.IntersectionGo fd.Right [other.Left]).length =
        other.Left.length
    · rw [if_pos ha]
      simp only [reduceCtorEq, false_iff]
      intro hcon
      exact hcon.1 (htw1.mp ha)
    · rw [if_neg ha]
      by_cases hb : (AttrSet.IntersectionGo other.Right [fd.Left]).length =
          fd.Left.length
      · rw [if_pos hb]
        simp only [reduceCtorEq, false_iff]
        intro hcon
        exact hcon.2 (htw2.mp hb)
      · rw [if_neg hb]
        simp only [true_iff]
        exact ⟨fun hc => ha (htw1.mpr hc), fun hc => hb (htw2.mpr hc)⟩
  · intro h
    unfold FuncDep.TransitiveWith
    rw [if_pos (htw1.mpr h)]
  · intro hna hb
    unfold FuncDep.TransitiveWith
    rw [if_neg (fun hc => hna (htw1.mp hc)), if_pos (htw2.mpr hb)]

/-- C6 witness: the contracts at concrete FDs. -/
theorem C6_algebra_applicability_witness :
    ((FuncDep.mk [['A']] [['B'], ['X']]).Left.Nodup ∧
      (FuncDep.mk [['B']] [['C']]).Left.Nodup) ∧
    (((FuncDep.mk [['A']] [['B'], ['X']]).Decompose = none ↔
        (FuncDep.mk [['A']] [['B'], ['X']]).Right.length = 1) ∧
      ((FuncDep.mk [['A']] [['B'], ['X']]).Right.length ≠ 1 →
        (FuncDep.mk [['A']] [['B'], ['X']]).Decompose =
          some ((FuncDep.mk [['A']] [['B'], ['X']]).Right.map
            (fun a => { Left := AttrSet.addAll [] [(FuncDep.mk [['A']] [['B'], ['X']]).Left]
                        Right := [a] }))) ∧
      ((FuncDep.mk [['A']] [['B'], ['X']]).UnionFD (FuncDep.mk [['B']] [['C']]) = none ↔
        ∃ x ∈ (FuncDep.mk [['B']] [['C']]).Left,
          x ∉ (FuncDep.mk [['A']] [['B'], ['X']]).Left) ∧
      ((∀ x ∈ (FuncDep.mk [['B']] [['C']]).Left,
          x ∈ (FuncDep.mk [['A']] [['B'], ['X']]).Left) →
        (FuncDep.mk [['A']] [['B'], ['X']]).UnionFD (FuncDep.mk [['B']] [['C']]) =
          some { Left := AttrSet.addAll [] [(FuncDep.mk [['A']] [['B'], ['X']]).Left]
                 Right := AttrSet.addAll []
                   [(FuncDep.mk [['A']] [['B'], ['X']]).Right,
                     (FuncDep.mk [['B']] [['C']]).Right] }) ∧
      ((FuncDep.mk [['A']] [['B'], ['X']]).TransitiveWith (FuncDep.mk [['B']] [['C']]) =
          none ↔
        ¬(∀ x ∈ (FuncDep.mk [['B']] [['C']]).Left,
            x ∈ (FuncDep.mk [['A']] [['B'], ['X']]).Right) ∧
          ¬(∀ x ∈ (FuncDep.mk [['A']] [['B'], ['X']]).Left,
              x ∈ (FuncDep.mk [['B']] [['C']]).Right)) ∧
      ((∀ x ∈ (FuncDep.mk [['B']] [['C']]).Left,
          x ∈ (FuncDep.mk [['A']] [['B'], ['X']]).Right) →
        (FuncDep.mk [['A']] [['B'], ['X']]).TransitiveWith (FuncDep.mk [['B']] [['C']]) =
          some { Left := AttrSet.addAll [] [(FuncDep.mk [['A']] [['B'], ['X']]).Left]
                 Right := AttrSet.addAll [] [(FuncDep.mk [['B']] [['C']]).Right] }) ∧
      (¬(∀ x ∈ (FuncDep.mk [['B']] [['C']]).Left,
            x ∈ (FuncDep.mk [['A']] [['B'], ['X']]).Right) →
        (∀ x ∈ (FuncDep.mk [['A']] [['B'], ['X']]).Left,
            x ∈ (FuncDep.mk [['B']] [['C']]).Right) →
        (FuncDep.mk [['A']] [['B'], ['X']]).TransitiveWith (FuncDep.mk [['B']] [['C']]) =
          some { Left := AttrSet.addAll [] [(FuncDep.mk [['B']] [['C']]).Left]
                 Right := AttrSet.addAll [] [(FuncDep.mk [['A']] [['B'], ['X']]).Right] })) :=
  ⟨⟨by decide, by decide⟩,
   C6_algebra_applicability (FuncDep.mk [['A']] [['B'], ['X']])
     (FuncDep.mk [['B']] [['C']]) (by decide) (by decide)⟩

theorem splitOnP_go_no_match (P : Char → Bool) (l : List Char) :
    ∀ acc : List Char, (∀ x ∈ l, ¬ P x = true) →
      List.splitOnP.go P l acc = [acc.reverse ++ l] := by
  induction l with
  | nil => intro acc _; simp [List.splitOnP.go]
  | cons y ys ih =>
    intro acc h
    rw [List.splitOnP.go, if_neg (h y (by simp))]
    rw [ih (y :: acc) (fun x hx => h x (by simp [hx]))]
    simp

theorem splitOn_no_sep (c : Char) (l : List Char) (h : c ∉ l) :
    l.splitOn c = [l] := by
  show List.splitOnP (fun x => x == c) l = [l]
  rw [List.splitOnP, splitOnP_go_no_match _ _ [] ?_]
  · simp
  · intro x hx
    simp only [beq_iff_eq]
    exact fun hc => h (hc ▸ hx)

theorem findIdx_paren_aux (name : List Char) (rest : List Char) :
    ∀ i : Nat, (∀ x ∈ name, ¬((x == '(') = true)) →
      List.findIdx? (fun c => c == '(') (name ++ '(' :: rest) i =
        some (name.length + i) := by
  induction name with
  | nil => intro i _; simp [List.findIdx?_cons]
  | cons y ys ih =>
    intro i h
    rw [List.cons_append, List.findIdx?_cons, if_neg (h y (by simp)),
      ih (i + 1) (fun x hx => h x (by simp [hx]))]
    simp only [List.length_cons]
    congr 1
    omega

/-- C8 counterexample: the first line `R(A` has an unbalanced `(` yet
`RelationFromString` returns a Relation and no error (the final character is
cut unconditionally, so the attribute list degenerates to one empty name);
the claim that unbalanced parentheses yield an error is false on the code. -/
theorem C8_unbalanced_parens_counterexample :
    RelationFromString ['R', '(', 'A'] =
      .ok { Name := ['R'], Attrs := [[]], FuncDeps := [] } := by
  decide

/-- C8 (amended): `RelationFromString` returns an error whenever the trimmed
first line lacks a `(` delimiter, and for a single-line `Name(attrs)` input
it parses the name and attribute list without error.  (Unbalanced
parentheses are not detected: the character after the attribute list is cut
without being checked, and a `(` as the final character panics.) -/
theorem C8_header_parsing (desc name inner : List Char)
    (hnop : (trimSpace ((desc.splitOn '
').headD [])).findIdx?
        (fun c => c == '(') = none)
    (hnl : '
' ∉ name ++ '(' :: inner ++ [')'])
    (htrim : trimSpace (name ++ '(' :: inner ++ [')']) = name ++ '(' :: inner ++ [')'])
    (hname : '(' ∉ name) :
    RelationFromString desc = .goError "invalid relation description".data ∧
    RelationFromString (name ++ '(' :: inner ++ [')']) =
      .ok { Name := name
            Attrs := (inner.splitOn AttrSep).foldl
              (fun s a => (AttrSet.add s (trimSpace a)).1) []
            FuncDeps := [] } := by
  constructor
  · simp only [RelationFromString]
    rw [hnop]
  · simp only [RelationFromString]
    rw [splitOn_no_sep '\n' _ hnl]
    simp only [List.headD_cons, List.drop_succ_cons, List.drop_nil]
    rw [htrim]
    have hfi : List.findIdx? (fun c => c == '(') (name ++ '(' :: inner ++ [')']) =
        some (name.length + 0) := by
      have h2 : name ++ '(' :: inner ++ [')'] = name ++ '(' :: (inner ++ [')']) := by
        simp
      rw [h2]
      exact findIdx_paren_aux name (inner ++ [')']) 0 (by
        intro x hx
        simp only [beq_iff_eq]
        exact fun hc => hname (hc ▸ hx))
    rw [hfi]
    dsimp only
    have hlen : (name ++ '(' :: inner ++ [')']).length = name.length + inner.length + 2 := by
      simp
      omega
    rw [if_neg (by omega)]
    have htake : (name ++ '(' :: inner ++ [')']).take (name.length + 0) = name := by
      rw [Nat.add_zero]
      have : name ++ '(' :: inner ++ [')'] = name ++ ('(' :: inner ++ [')']) := by simp
      rw [this, List.take_left]
    have hdrop : (name ++ '(' :: inner ++ [')']).drop (name.length + 0 + 1) =
        inner ++ [')'] := by
      have h2 : name ++ '(' :: inner ++ [')'] = (name ++ ['(']) ++ (inner ++ [')']) := by
        simp
      rw [Nat.add_zero, h2,
        show name.length + 1 = (name ++ ['(']).length by simp, List.drop_left]
    have htake2 : (inner ++ [')']).take
        ((name ++ '(' :: inner ++ [')']).length - 1 - (name.length + 0 + 1)) = inner := by
      rw [hlen, show name.length + inner.length + 2 - 1 - (name.length + 0 + 1) =
        inner.length by omega, List.take_left]
    rw [htake, hdrop, htake2]
    rfl

/-- C8 witness: the amended header-parsing behaviour at concrete inputs. -/
theorem C8_header_parsing_witness :
    ((trimSpace (((['R', 'A', 'B'] : List Char).splitOn '\n').headD [])).findIdx?
        (fun c => c == '(') = none ∧
      ('\n' : Char) ∉ ['R'] ++ '(' :: ['A', ',', 'B'] ++ [')'] ∧
      trimSpace (['R'] ++ '(' :: ['A', ',', 'B'] ++ [')']) =
        ['R'] ++ '(' :: ['A', ',', 'B'] ++ [')'] ∧
      ('(' : Char) ∉ ['R']) ∧
    (RelationFromString ['R', 'A', 'B'] =
        .goError "invalid relation description".data ∧
      RelationFromString (['R'] ++ '(' :: ['A', ',', 'B'] ++ [')']) =
        .ok { Name := ['R']
              Attrs := ((['A', ',', 'B'] : List Char).splitOn AttrSep).foldl
                (fun s a => (AttrSet.add s (trimSpace a)).1) []
              FuncDeps := [] }) :=
  ⟨⟨by decide, by decide, by decide, by decide⟩,
   C8_header_parsing ['R', 'A', 'B'] ['R'] ['A', ',', 'B']
     (by decide) (by decide) (by decide) (by decide)⟩

/-! ## Canonical-string injectivity (memoization keys) -/

theorem joinSep_cons (x : Attr) (rest : AttrSet) :
    AttrSet.joinSep (x :: rest) =
      x ++ (if rest = [] then [] else AttrSep :: AttrSet.joinSep rest) := by
  rcases rest with _ | ⟨y, ys⟩
  · simp [AttrSet.joinSep]
  · simp [AttrSet.joinSep]

theorem append_sep_cancel :
    ∀ (a b u v : List Char), AttrSep ∉ a → AttrSep ∉ b →
      (u = [] ∨ ∃ w, u = AttrSep :: w) → (v = [] ∨ ∃ w, v = AttrSep :: w) →
      a ++ u = b ++ v → a = b ∧ u = v := by
  intro a
  induction a with
  | nil =>
    intro b u v _ hb hu hv heq
    rcases b with _ | ⟨y, b2⟩
    · exact ⟨rfl, heq⟩
    · exfalso
      rcases hu with hu | ⟨w, hw⟩
      · subst hu
        simp at heq
      · subst hw
        simp only [List.nil_append, List.cons_append] at heq
        have : y = AttrSep := (List.cons.injEq _ _ _ _ ▸ heq).1.symm
        exact hb (this ▸ List.mem_cons_self y b2)
  | cons x a2 ih =>
    intro b u v ha hb hu hv heq
    rcases b with _ | ⟨y, b2⟩
    · exfalso
      rcases hv with hv | ⟨w, hw⟩
      · subst hv
        simp at heq
      · subst hw
        simp only [List.cons_append, List.nil_append] at heq
        have : x = AttrSep := (List.cons.injEq _ _ _ _ ▸ heq).1
        exact ha (this ▸ List.mem_cons_self x a2)
    · simp only [List.cons_append, List.cons.injEq] at heq
      obtain ⟨hxy, heq2⟩ := heq
      obtain ⟨h1, h2⟩ := ih b2 u v (fun hc => ha (by simp [hc])) (fun hc => hb (by simp [hc]))
        hu hv heq2
      exact ⟨by rw [hxy, h1], h2⟩

theorem joinSep_append_eq_nil (l1 l2 : List Char) (h : l1 ++ l2 = []) : l1 = [] :=
  (List.append_eq_nil.mp h).1

theorem joinSep_ne_nil (x : Attr) (xs : AttrSet) (hx : x ≠ []) :
    AttrSet.joinSep (x :: xs) ≠ [] := by
  rw [joinSep_cons]
  intro h
  exact hx (joinSep_append_eq_nil _ _ h)

theorem joinSep_inj :
    ∀ (xs ys : AttrSet), (∀ a ∈ xs, a ≠ [] ∧ AttrSep ∉ a) →
      (∀ a ∈ ys, a ≠ [] ∧ AttrSep ∉ a) →
      AttrSet.joinSep xs = AttrSet.joinSep ys → xs = ys := by
  intro xs
  induction xs with
  | nil =>
    intro ys _ hys heq
    rcases ys with _ | ⟨y, ys2⟩
    · rfl
    · exact absurd heq.symm (joinSep_ne_nil y ys2 (hys y (by simp)).1)
  | cons x xs2 ih =>
    intro ys hxs hys heq
    rcases ys with _ | ⟨y, ys2⟩
    · exact absurd heq (joinSep_ne_nil x xs2 (hxs x (by simp)).1)
    · rw [joinSep_cons, joinSep_cons] at heq
      have hcan := append_sep_cancel x y _ _ (hxs x (by simp)).2 (hys y (by simp)).2
        (by rcases xs2 with _ | ⟨z, zs⟩
            · exact Or.inl (by simp)
            · exact Or.inr ⟨AttrSet.joinSep (z :: zs), by
                rw [if_neg (List.cons_ne_nil z zs)]⟩)
        (by rcases ys2 with _ | ⟨z, zs⟩
            · exact Or.inl (by simp)
            · exact Or.inr ⟨AttrSet.joinSep (z :: zs), by
                rw [if_neg (List.cons_ne_nil z zs)]⟩)
        heq
      obtain ⟨hxy, hrest⟩ := hcan
      rcases xs2 with _ | ⟨z, zs⟩
      · rcases ys2 with _ | ⟨w, ws⟩
        · rw [hxy]
        · exfalso
          rw [if_pos rfl, if_neg (List.cons_ne_nil w ws)] at hrest
          exact List.noConfusion hrest
      · rcases ys2 with _ | ⟨w, ws⟩
        · exfalso
          rw [if_pos rfl, if_neg (List.cons_ne_nil z zs)] at hrest
          exact List.noConfusion hrest
        · have hj : AttrSet.joinSep (z :: zs) = AttrSet.joinSep (w :: ws) := by
            rw [if_neg (List.cons_ne_nil z zs), if_neg (List.cons_ne_nil w ws)] at hrest
            exact (List.cons.injEq _ _ _ _ ▸ hrest).2
          rw [hxy, ih (w :: ws) (fun a ha => hxs a (by simp [ha]))
            (fun a ha => hys a (by simp [ha])) hj]

theorem sortGo_nodup (s : AttrSet) (h : s.Nodup) : (AttrSet.sortGo s).Nodup :=
  (sortGo_perm s).nodup_iff.mpr h

theorem stringGo_inj (a b : AttrSet) (ha : a.Nodup) (hb : b.Nodup)
    (haa : ∀ x ∈ a, x ≠ [] ∧ AttrSep ∉ x) (hbb : ∀ x ∈ b, x ≠ [] ∧ AttrSep ∉ x)
    (h : AttrSet.stringGo a = AttrSet.stringGo b) : SameSet a b := by
  have hs : AttrSet.sortGo a = AttrSet.sortGo b :=
    joinSep_inj _ _ (fun x hx => haa x ((sortGo_perm a).mem_iff.mp hx))
      (fun x hx => hbb x ((sortGo_perm b).mem_iff.mp hx)) h
  intro x
  rw [← (sortGo_perm a).mem_iff, ← (sortGo_perm b).mem_iff, hs]

theorem stringGo_congr (a b : AttrSet) (ha : a.Nodup) (hb : b.Nodup)
    (h : SameSet a b) : AttrSet.stringGo a = AttrSet.stringGo b := by
  unfold AttrSet.stringGo
  rw [sortGo_eq_of_sameSet a b ha hb h]

/-! ## Brute-force enumeration invariants -/

theorem sameSet_nil_right (a : AttrSet) (h : SameSet a []) : a = [] :=
  List.eq_nil_iff_forall_not_mem.mpr (fun x hx => by simpa using (h x).mp hx)

theorem closFix_seed_congr (clos : List FuncDep) (a b : AttrSet)
    (ha : a.Nodup) (hb : b.Nodup) (hss : SameSet a b) :
    SameSet (closFix clos (AttrSet.addAll [] [a])) (closFix clos (AttrSet.addAll [] [b])) ∧
      (closFix clos (AttrSet.addAll [] [a])).length =
        (closFix clos (AttrSet.addAll [] [b])).length := by
  by_cases hnil : a = []
  · subst hnil
    have hbnil : b = [] := sameSet_nil_right b (fun x => (hss x).symm)
    subst hbnil
    exact ⟨fun x => Iff.rfl, rfl⟩
  · have hbnil : b ≠ [] := by
      intro hc
      subst hc
      exact hnil (sameSet_nil_right a hss)
    have hseeda : AttrSet.addAll [] [a] ≠ [] :=
      fun hc => hnil ((addAll_nil_single_empty_iff a).mp hc)
    have hseedb : AttrSet.addAll [] [b] ≠ [] :=
      fun hc => hbnil ((addAll_nil_single_empty_iff b).mp hc)
    have hmm : SameSet (closFix clos (AttrSet.addAll [] [a]))
        (closFix clos (AttrSet.addAll [] [b])) := by
      intro x
      rw [closFix_iff _ _ hseeda (addAll_nil_nodup _),
        closFix_iff _ _ hseedb (addAll_nil_nodup _)]
      refine InClo_seed_congr (fun y => ?_) x
      rw [mem_addAll_nil_single, mem_addAll_nil_single]
      exact hss y
    refine ⟨hmm, ?_⟩
    exact ((List.perm_ext_iff_of_nodup (closFix_nodup _ _ (addAll_nil_nodup _))
      (closFix_nodup _ _ (addAll_nil_nodup _))).mpr hmm).length_eq

/-- Invariant of the brute-force enumeration state: every recorded candidate
is a nonempty duplicate-free subset of the attributes whose inner fixpoint
reaches full size, and every memoized subset that is a key candidate has a
set-equal entry in the results. -/
def BFInv (r : Relation) (st : BFState) : Prop :=
  (∀ x ∈ st.result, x ≠ [] ∧ x.Nodup ∧ (∀ b ∈ x, b ∈ r.Attrs) ∧
    (closFix r.Closures (AttrSet.addAll [] [x])).length = r.Attrs.length) ∧
  (∀ a : AttrSet, a.Nodup → (∀ b ∈ a, b ∈ r.Attrs) →
    AttrSet.stringGo a ∈ st.hits →
    (closFix r.Closures (AttrSet.addAll [] [a])).length = r.Attrs.length →
    ∃ x ∈ st.result, SameSet x a)

theorem bfCheck_spec (r : Relation)
    (hattrs : ∀ a ∈ r.Attrs, a ≠ [] ∧ AttrSep ∉ a)
    (z : AttrSet) (hzne : z ≠ []) (hznd : z.Nodup)
    (hzsub : ∀ b ∈ z, b ∈ r.Attrs) (st : BFState) (hinv : BFInv r st) :
    BFInv r (bfCheck r.Attrs.length r.Closures z st).1 ∧
    (bfCheck r.Attrs.length r.Closures z st).2 = AttrSet.sortGo z ∧
    (∃ hs, (bfCheck r.Attrs.length r.Closures z st).1.hits = st.hits ++ hs) ∧
    (∃ rs, (bfCheck r.Attrs.length r.Closures z st).1.result = st.result ++ rs) ∧
    AttrSet.stringGo z ∈ (bfCheck r.Attrs.length r.Closures z st).1.hits := by
  have hkey : AttrSet.joinSep (AttrSet.sortGo z) = AttrSet.stringGo z := rfl
  have haSnd : (AttrSet.sortGo z).Nodup := sortGo_nodup z hznd
  have haSss : SameSet (AttrSet.sortGo z) z := fun x => (sortGo_perm z).mem_iff
  have haSne : AttrSet.sortGo z ≠ [] := by
    intro hc
    have hlen := (sortGo_perm z).length_eq
    rw [hc] at hlen
    exact hzne (List.eq_nil_of_length_eq_zero hlen.symm)
  have haSsub : ∀ b ∈ AttrSet.sortGo z, b ∈ r.Attrs :=
    fun b hb => hzsub b ((haSss b).mp hb)
  unfold bfCheck
  by_cases hk : AttrSet.joinSep (AttrSet.sortGo z) ∈ st.hits
  · rw [if_pos hk]
    exact ⟨hinv, rfl, ⟨[], by simp⟩, ⟨[], by simp⟩, hkey ▸ hk⟩
  · rw [if_neg hk]
    dsimp only
    by_cases hrec : (closFix r.Closures
        (AttrSet.addAll [] [AttrSet.sortGo z])).length = r.Attrs.length
    · rw [if_pos hrec]
      refine ⟨⟨?_, ?_⟩, rfl, ⟨[AttrSet.stringGo z], by simp [hkey]⟩,
        ⟨[AttrSet.addAll [] [AttrSet.sortGo z]], by simp⟩, by simp [hkey]⟩
      · intro x hx
        rcases List.mem_append.mp hx with h1 | h1
        · exact hinv.1 x h1
        · have hxeq : x = AttrSet.addAll [] [AttrSet.sortGo z] := by simpa using h1
          subst hxeq
          rw [addAll_nil_single_nodup_eq _ haSnd]
          refine ⟨haSne, haSnd, haSsub, ?_⟩
          rwa [addAll_nil_single_nodup_eq _ haSnd] at hrec ⊢
      · intro a hand hasub hahit hafix
        simp only [List.mem_append, List.mem_singleton] at hahit
        rcases hahit with h1 | h1
        · obtain ⟨x, hx, hxss⟩ := hinv.2 a hand hasub h1 hafix
          exact ⟨x, by simp [hx], hxss⟩
        · have hssza : SameSet z a := by
            refine stringGo_inj z a hznd hand
              (fun x hx => hattrs x (hzsub x hx))
              (fun x hx => hattrs x (hasub x hx)) ?_
            rw [hkey] at h1
            exact h1.symm
          refine ⟨AttrSet.addAll [] [AttrSet.sortGo z], by simp, ?_⟩
          rw [addAll_nil_single_nodup_eq _ haSnd]
          intro x
          exact (haSss x).trans (hssza x)
    · rw [if_neg hrec]
      refine ⟨⟨hinv.1, ?_⟩, rfl, ⟨[AttrSet.stringGo z], by simp [hkey]⟩,
        ⟨[], by simp⟩, by simp [hkey]⟩
      intro a hand hasub hahit hafix
      simp only [List.mem_append, List.mem_singleton] at hahit
      rcases hahit with h1 | h1
      · exact hinv.2 a hand hasub h1 hafix
      · exfalso
        have hssza : SameSet z a := by
          refine stringGo_inj z a hznd hand
            (fun x hx => hattrs x (hzsub x hx))
            (fun x hx => hattrs x (hasub x hx)) ?_
          exact (h1.trans hkey).symm
        have hcong := closFix_seed_congr r.Closures a (AttrSet.sortGo z) hand haSnd
          (fun x => ((hssza x).symm.trans (haSss x).symm))
        exact hrec (hcong.2 ▸ hafix)

/-- One iteration of the `recurBF` loop body, named for reasoning about the
fold (identical to the lambda inside `Relation.recurBF`). -/
def recurBFStep (r : Relation) (clos : List FuncDep) (nremain : Nat)
    (p : AttrSet × BFState) (a1 : Attr) : AttrSet × BFState :=
  if a1 ∈ p.1 then p
  else
    let q := bfCheck r.Attrs.length clos (p.1 ++ [a1]) p.2
    let st2 :=
      if h : 1 < nremain then Relation.recurBF r clos q.2 (nremain - 1) q.1 else q.1
    ((AttrSet.removeGo q.2 a1).1, st2)

theorem recurBF_eq_fold (r : Relation) (clos : List FuncDep) (x : AttrSet) (m : Nat)
    (st : BFState) :
    r.recurBF clos x m st =
      (r.Attrs.foldl (recurBFStep r clos m) (AttrSet.addAll [] [x], st)).2 := by
  rw [Relation.recurBF]
  rfl

theorem append_nodup_of (z T : AttrSet) (hz : z.Nodup) (hT : T.Nodup)
    (hdisj : ∀ b ∈ T, b ∉ z) : (z ++ T).Nodup := by
  rw [List.nodup_append]
  exact ⟨hz, hT, fun a ha hb => hdisj a hb ha⟩

theorem recurBF_fold_spec (r : Relation)
    (hattrs : ∀ a ∈ r.Attrs, a ≠ [] ∧ AttrSep ∉ a) (m : Nat)
    (IH : 1 < m → ∀ (x : AttrSet) (st : BFState), (∀ b ∈ x, b ∈ r.Attrs) → BFInv r st →
      BFInv r (r.recurBF r.Closures x (m - 1) st) ∧
      (∃ hs, (r.recurBF r.Closures x (m - 1) st).hits = st.hits ++ hs) ∧
      (∃ rs, (r.recurBF r.Closures x (m - 1) st).result = st.result ++ rs) ∧
      (∀ T : AttrSet, T.Nodup → T ≠ [] →
        (∀ b ∈ T, b ∈ r.Attrs ∧ b ∉ x) → T.length ≤ m - 1 →
        AttrSet.stringGo (AttrSet.addAll [] [x] ++ T) ∈
          (r.recurBF r.Closures x (m - 1) st).hits)) :
    ∀ (l : List Attr), (∀ a ∈ l, a ∈ r.Attrs) →
    ∀ (z : AttrSet) (st : BFState), z.Nodup → (∀ b ∈ z, b ∈ r.Attrs) → BFInv r st →
      BFInv r (l.foldl (recurBFStep r r.Closures m) (z, st)).2 ∧
      (∃ hs, (l.foldl (recurBFStep r r.Closures m) (z, st)).2.hits = st.hits ++ hs) ∧
      (∃ rs, (l.foldl (recurBFStep r r.Closures m) (z, st)).2.result = st.result ++ rs) ∧
      (∀ T : AttrSet, T.Nodup → T ≠ [] →
        (∀ b ∈ T, b ∈ r.Attrs ∧ b ∉ z) → T.length ≤ m →
        (∃ a1 ∈ T, a1 ∈ l) →
        AttrSet.stringGo (z ++ T) ∈
          (l.foldl (recurBFStep r r.Closures m) (z, st)).2.hits) := by
  intro l
  induction l with
  | nil =>
    intro _ z st _ _ hinv
    refine ⟨hinv, ⟨[], by simp⟩, ⟨[], by simp⟩, ?_⟩
    rintro T _ _ _ _ ⟨a1, _, ha1⟩
    simp at ha1
  | cons a1 l2 ihl =>
    intro hl z st hznd hzsub hinv
    by_cases ha1z : a1 ∈ z
    · have hstep : recurBFStep r r.Closures m (z, st) a1 = (z, st) := by
        simp [recurBFStep, ha1z]
      rw [List.foldl_cons, hstep]
      obtain ⟨c1, c2, c3, c4⟩ :=
        ihl (fun a ha => hl a (by simp [ha])) z st hznd hzsub hinv
      refine ⟨c1, c2, c3, ?_⟩
      rintro T hTnd hTne hTat hTlen ⟨w, hwT, hwl⟩
      rcases List.mem_cons.mp hwl with hw1 | hw1
      · exact absurd ha1z (hw1 ▸ (hTat w hwT).2)
      · exact c4 T hTnd hTne hTat hTlen ⟨w, hwT, hw1⟩
    · have ha1A : a1 ∈ r.Attrs := hl a1 (by simp)
      have hz1nd : (z ++ [a1]).Nodup :=
        append_nodup_of z [a1] hznd (by simp) (by simpa using ha1z)
      have hz1ne : z ++ [a1] ≠ [] := by simp
      have hz1sub : ∀ b ∈ z ++ [a1], b ∈ r.Attrs := by
        intro b hb
        rcases List.mem_append.mp hb with h1 | h1
        · exact hzsub b h1
        · simp at h1
          exact h1 ▸ ha1A
      obtain ⟨hqinv, hq2, ⟨hs1, hhits1⟩, ⟨rs1, hres1⟩, hqcov⟩ :=
        bfCheck_spec r hattrs (z ++ [a1]) hz1ne hz1nd hz1sub st hinv
      have hq2nd : (bfCheck r.Attrs.length r.Closures (z ++ [a1]) st).2.Nodup := by
        rw [hq2]
        exact sortGo_nodup _ hz1nd
      have hq2ss : SameSet (bfCheck r.Attrs.length r.Closures (z ++ [a1]) st).2
          (z ++ [a1]) := by
        rw [hq2]
        exact fun x => (sortGo_perm _).mem_iff
      have hq2sub : ∀ b ∈ (bfCheck r.Attrs.length r.Closures (z ++ [a1]) st).2,
          b ∈ r.Attrs := fun b hb => hz1sub b ((hq2ss b).mp hb)
      have ha1q2 : a1 ∈ (bfCheck r.Attrs.length r.Closures (z ++ [a1]) st).2 :=
        (hq2ss a1).mpr (by simp)
      have hstep : recurBFStep r r.Closures m (z, st) a1 =
          ((AttrSet.removeGo (bfCheck r.Attrs.length r.Closures (z ++ [a1]) st).2 a1).1,
            if _h : 1 < m then
              r.recurBF r.Closures (bfCheck r.Attrs.length r.Closures (z ++ [a1]) st).2
                (m - 1) (bfCheck r.Attrs.length r.Closures (z ++ [a1]) st).1
            else (bfCheck r.Attrs.length r.Closures (z ++ [a1]) st).1) := by
        simp [recurBFStep, ha1z]
      have hst2 : BFInv r (if _h : 1 < m then
            r.recurBF r.Closures (bfCheck r.Attrs.length r.Closures (z ++ [a1]) st).2
              (m - 1) (bfCheck r.Attrs.length r.Closures (z ++ [a1]) st).1
          else (bfCheck r.Attrs.length r.Closures (z ++ [a1]) st).1) ∧
          (∃ hs, (if _h : 1 < m then
            r.recurBF r.Closures (bfCheck r.Attrs.length r.Closures (z ++ [a1]) st).2
              (m - 1) (bfCheck r.Attrs.length r.Closures (z ++ [a1]) st).1
          else (bfCheck r.Attrs.length r.Closures (z ++ [a1]) st).1).hits =
            (bfCheck r.Attrs.length r.Closures (z ++ [a1]) st).1.hits ++ hs) ∧
          (∃ rs, (if _h : 1 < m then
            r.recurBF r.Closures (bfCheck r.Attrs.length r.Closures (z ++ [a1]) st).2
              (m - 1) (bfCheck r.Attrs.length r.Closures (z ++ [a1]) st).1
          else (bfCheck r.Attrs.length r.Closures (z ++ [a1]) st).1).result =
            (bfCheck r.Attrs.length r.Closures (z ++ [a1]) st).1.result ++ rs) := by
        by_cases hm : 1 < m
        · rw [dif_pos hm]
          obtain ⟨i1, i2, i3, _⟩ := IH hm _ _ hq2sub hqinv
          exact ⟨i1, i2, i3⟩
        · rw [dif_neg hm]
          exact ⟨hqinv, ⟨[], by simp⟩, ⟨[], by simp⟩⟩
      have hz2nd : (AttrSet.removeGo
          (bfCheck r.Attrs.length r.Closures (z ++ [a1]) st).2 a1).1.Nodup :=
        removeGo_nodup _ a1 hq2nd
      have hz2ss : SameSet (AttrSet.removeGo
          (bfCheck r.Attrs.length r.Closures (z ++ [a1]) st).2 a1).1 z := by
        intro x
        rw [removeGo_mem _ a1 hq2nd ha1q2 x]
        constructor
        · rintro ⟨hx1, hx2⟩
          rcases List.mem_append.mp ((hq2ss x).mp hx1) with h1 | h1
          · exact h1
          · simp at h1
            exact absurd h1 hx2
        · intro hx
          refine ⟨(hq2ss x).mpr (by simp [hx]), ?_⟩
          intro hc
          exact ha1z (hc ▸ hx)
      have hz2sub : ∀ b ∈ (AttrSet.removeGo
          (bfCheck r.Attrs.length r.Closures (z ++ [a1]) st).2 a1).1, b ∈ r.Attrs :=
        fun b hb => hzsub b ((hz2ss b).mp hb)
      obtain ⟨c1, ⟨hs3, hhit3⟩, ⟨rs3, hres3⟩, c4⟩ :=
        ihl (fun a ha => hl a (by simp [ha])) _ _ hz2nd hz2sub hst2.1
      obtain ⟨hs2, hhit2⟩ := hst2.2.1
      obtain ⟨rs2, hres2⟩ := hst2.2.2
      rw [List.foldl_cons, hstep]
      refine ⟨c1, ?_, ?_, ?_⟩
      · exact ⟨hs1 ++ hs2 ++ hs3, by
          rw [hhit3, hhit2, hhits1]
          simp [List.append_assoc]⟩
      · exact ⟨rs1 ++ rs2 ++ rs3, by
          rw [hres3, hres2, hres1]
          simp [List.append_assoc]⟩
      · rintro T hTnd hTne hTat hTlen ⟨w, hwT, hwl⟩
        have hmemfin : ∀ k, k ∈ (if _h : 1 < m then
              r.recurBF r.Closures (bfCheck r.Attrs.length r.Closures (z ++ [a1]) st).2
                (m - 1) (bfCheck r.Attrs.length r.Closures (z ++ [a1]) st).1
            else (bfCheck r.Attrs.length r.Closures (z ++ [a1]) st).1).hits →
            k ∈ (l2.foldl (recurBFStep r r.Closures m)
              ((AttrSet.removeGo
                (bfCheck r.Attrs.length r.Closures (z ++ [a1]) st).2 a1).1,
              if _h : 1 < m then
                r.recurBF r.Closures (bfCheck r.Attrs.length r.Closures (z ++ [a1]) st).2
                  (m - 1) (bfCheck r.Attrs.length r.Closures (z ++ [a1]) st).1
              else (bfCheck r.Attrs.length r.Closures (z ++ [a1]) st).1)).2.hits := by
          intro k hk
          rw [hhit3, List.mem_append]
          exact Or.inl hk
        by_cases hwa1 : w = a1
        · subst hwa1
          rcases Nat.lt_or_ge T.length 2 with hT1 | hT2
          · have hTeq : T = [w] := by
              rcases T with _ | ⟨t0, ts⟩
              · simp at hwT
              · rcases ts with _ | ⟨t1, ts2⟩
                · simp at hwT
                  simp [hwT]
                · exfalso
                  simp at hT1
                  omega
            subst hTeq
            refine hmemfin _ ?_
            have hk1 : AttrSet.stringGo (z ++ [w]) ∈
                (bfCheck r.Attrs.length r.Closures (z ++ [w]) st).1.hits := hqcov
            by_cases hm : 1 < m
            · rw [dif_pos hm]
              obtain ⟨i1, ⟨ihs, ihits⟩, i3, _⟩ := IH hm _ _ hq2sub hqinv
              rw [ihits]
              simp [hk1]
            · rw [dif_neg hm]
              exact hk1
          · have hm : 1 < m := by omega
            refine hmemfin _ ?_
            rw [dif_pos hm]
            obtain ⟨i1, i2, i3, icov⟩ := IH hm _ _ hq2sub hqinv
            have hT'nd : (T.erase w).Nodup := hTnd.erase w
            have hT'len : (T.erase w).length = T.length - 1 :=
              List.length_erase_of_mem hwT
            have hT'ne : T.erase w ≠ [] := by
              intro hc
              have := congrArg List.length hc
              rw [hT'len] at this
              simp at this
              omega
            have hT'at : ∀ b ∈ T.erase w, b ∈ r.Attrs ∧
                b ∉ (bfCheck r.Attrs.length r.Closures (z ++ [w]) st).2 := by
              intro b hb
              obtain ⟨hbne, hbT⟩ := (hTnd.mem_erase_iff).mp hb
              refine ⟨(hTat b hbT).1, ?_⟩
              intro hc
              rcases List.mem_append.mp ((hq2ss b).mp hc) with h1 | h1
              · exact (hTat b hbT).2 h1
              · simp at h1
                exact hbne h1
            have hcov2 := icov (T.erase w) hT'nd hT'ne hT'at (by omega)
            rw [addAll_nil_single_nodup_eq _ hq2nd] at hcov2
            have hT'q2nd : ((bfCheck r.Attrs.length r.Closures (z ++ [w]) st).2 ++
                T.erase w).Nodup :=
              append_nodup_of _ _ hq2nd hT'nd (fun b hb => (hT'at b hb).2)
            have hzTnd : (z ++ T).Nodup :=
              append_nodup_of z T hznd hTnd (fun b hb => (hTat b hb).2)
            have hsseq : SameSet
                ((bfCheck r.Attrs.length r.Closures (z ++ [w]) st).2 ++ T.erase w)
                (z ++ T) := by
              intro x
              simp only [List.mem_append]
              rw [hTnd.mem_erase_iff]
              constructor
              · rintro (h1 | ⟨hne, hT⟩)
                · rcases List.mem_append.mp ((hq2ss x).mp h1) with h2 | h2
                  · exact Or.inl h2
                  · simp at h2
                    exact Or.inr (h2 ▸ hwT)
                · exact Or.inr hT
              · rintro (h1 | h1)
                · exact Or.inl ((hq2ss x).mpr (by simp [h1]))
                · by_cases hxa : x = w
                  · exact Or.inl ((hq2ss x).mpr (by simp [hxa]))
                  · exact Or.inr ⟨hxa, h1⟩
            rw [← stringGo_congr _ _ hT'q2nd hzTnd hsseq]
            exact hcov2
        · have hwl2 : w ∈ l2 := by
            rcases List.mem_cons.mp hwl with h1 | h1
            · exact absurd h1 hwa1
            · exact h1
          have hTat2 : ∀ b ∈ T, b ∈ r.Attrs ∧ b ∉ (AttrSet.removeGo
              (bfCheck r.Attrs.length r.Closures (z ++ [a1]) st).2 a1).1 := by
            intro b hb
            refine ⟨(hTat b hb).1, ?_⟩
            intro hc
            exact (hTat b hb).2 ((hz2ss b).mp hc)
          have hcov3 := c4 T hTnd hTne hTat2 hTlen ⟨w, hwT, hwl2⟩
          have hz2Tnd : ((AttrSet.removeGo
              (bfCheck r.Attrs.length r.Closures (z ++ [a1]) st).2 a1).1 ++ T).Nodup :=
            append_nodup_of _ T hz2nd hTnd (fun b hb => (hTat2 b hb).2)
          have hzTnd : (z ++ T).Nodup :=
            append_nodup_of z T hznd hTnd (fun b hb => (hTat b hb).2)
          have hsseq : SameSet ((AttrSet.removeGo
              (bfCheck r.Attrs.length r.Closures (z ++ [a1]) st).2 a1).1 ++ T)
              (z ++ T) := by
            intro x
            simp only [List.mem_append]
            constructor
            · rintro (h1 | h1)
              · exact Or.inl ((hz2ss x).mp h1)
              · exact Or.inr h1
            · rintro (h1 | h1)
              · exact Or.inl ((hz2ss x).mpr h1)
              · exact Or.inr h1
          rw [← stringGo_congr _ _ hz2Tnd hzTnd hsseq]
          exact hcov3

theorem recurBF_spec (r : Relation)
    (hattrs : ∀ a ∈ r.Attrs, a ≠ [] ∧ AttrSep ∉ a) :
    ∀ (m : Nat) (x : AttrSet) (st : BFState),
      (∀ b ∈ x, b ∈ r.Attrs) → BFInv r st →
      BFInv r (r.recurBF r.Closures x m st) ∧
      (∃ hs, (r.recurBF r.Closures x m st).hits = st.hits ++ hs) ∧
      (∃ rs, (r.recurBF r.Closures x m st).result = st.result ++ rs) ∧
      (∀ T : AttrSet, T.Nodup → T ≠ [] →
        (∀ b ∈ T, b ∈ r.Attrs ∧ b ∉ x) → T.length ≤ m →
        AttrSet.stringGo (AttrSet.addAll [] [x] ++ T) ∈
          (r.recurBF r.Closures x m st).hits) := by
  intro m
  induction m using Nat.strong_induction_on with
  | _ m ih =>
    intro x st hxsub hinv
    have hIH : 1 < m → ∀ (x2 : AttrSet) (st2 : BFState),
        (∀ b ∈ x2, b ∈ r.Attrs) → BFInv r st2 →
        BFInv r (r.recurBF r.Closures x2 (m - 1) st2) ∧
        (∃ hs, (r.recurBF r.Closures x2 (m - 1) st2).hits = st2.hits ++ hs) ∧
        (∃ rs, (r.recurBF r.Closures x2 (m - 1) st2).result = st2.result ++ rs) ∧
        (∀ T : AttrSet, T.Nodup → T ≠ [] →
          (∀ b ∈ T, b ∈ r.Attrs ∧ b ∉ x2) → T.length ≤ m - 1 →
          AttrSet.stringGo (AttrSet.addAll [] [x2] ++ T) ∈
            (r.recurBF r.Closures x2 (m - 1) st2).hits) := by
      intro hm x2 st2 hx2 hinv2
      exact ih (m - 1) (by omega) x2 st2 hx2 hinv2
    have hzsub : ∀ b ∈ AttrSet.addAll [] [x], b ∈ r.Attrs := by
      intro b hb
      exact hxsub b ((mem_addAll_nil_single x b).mp hb)
    obtain ⟨c1, c2, c3, c4⟩ := recurBF_fold_spec r hattrs m hIH r.Attrs
      (fun a ha => ha) (AttrSet.addAll [] [x]) st (addAll_nil_nodup _) hzsub hinv
    rw [recurBF_eq_fold]
    refine ⟨c1, c2, c3, ?_⟩
    intro T hTnd hTne hTat hTlen
    refine c4 T hTnd hTne ?_ hTlen ?_
    · intro b hb
      refine ⟨(hTat b hb).1, ?_⟩
      intro hc
      exact (hTat b hb).2 ((mem_addAll_nil_single x b).mp hc)
    · rcases T with _ | ⟨t0, ts⟩
      · exact absurd rfl hTne
      · exact ⟨t0, by simp, (hTat t0 (by simp)).1⟩

/-! ## Minimality filter -/

theorem filterLoop_nil (res : List AttrSet) : filterLoop [] res = res := by
  rw [filterLoop]

theorem filterLoop_cons (c : AttrSet) (cs res : List AttrSet) :
    filterLoop (c :: cs) res =
      filterLoop (((c :: cs).dropLast).filter
          (fun y => ! AttrSet.ContainsB y ((c :: cs).getLast (List.cons_ne_nil c cs))))
        (res ++ [(c :: cs).getLast (List.cons_ne_nil c cs)]) := by
  rw [filterLoop]

theorem filterLoop_len_lt (c : AttrSet) (cs : List AttrSet) :
    (((c :: cs).dropLast).filter
        (fun y => ! AttrSet.ContainsB y ((c :: cs).getLast (List.cons_ne_nil c cs)))).length <
      (c :: cs).length := by
  calc (((c :: cs).dropLast).filter _).length ≤ ((c :: cs).dropLast).length :=
        List.length_filter_le _ _
    _ < (c :: cs).length := by simp

theorem filterLoop_prefix :
    ∀ (n : Nat) (cands res : List AttrSet), cands.length ≤ n →
      ∃ t, filterLoop cands res = res ++ t := by
  intro n
  induction n with
  | zero =>
    intro cands res hlen
    obtain rfl : cands = [] := List.length_eq_zero.mp (by omega)
    rw [filterLoop_nil]
    exact ⟨[], by simp⟩
  | succ n ihn =>
    intro cands res hlen
    rcases cands with _ | ⟨c, cs⟩
    · rw [filterLoop_nil]
      exact ⟨[], by simp⟩
    · rw [filterLoop_cons]
      have hlt : (((c :: cs).dropLast).filter
          (fun y => ! AttrSet.ContainsB y
            ((c :: cs).getLast (List.cons_ne_nil c cs)))).length ≤ n := by
        have h2 := filterLoop_len_lt c cs
        have h3 : (c :: cs).length ≤ n + 1 := hlen
        omega
      obtain ⟨t, ht⟩ := ihn _ (res ++ [(c :: cs).getLast (List.cons_ne_nil c cs)]) hlt
      exact ⟨(c :: cs).getLast (List.cons_ne_nil c cs) :: t, by simp [ht]⟩

theorem filterLoop_mem :
    ∀ (n : Nat) (cands res : List AttrSet), cands.length ≤ n →
      ∀ k ∈ filterLoop cands res, k ∈ cands ∨ k ∈ res := by
  intro n
  induction n with
  | zero =>
    intro cands res hlen k hk
    obtain rfl : cands = [] := List.length_eq_zero.mp (by omega)
    rw [filterLoop_nil] at hk
    exact Or.inr hk
  | succ n ihn =>
    intro cands res hlen k hk
    rcases cands with _ | ⟨c, cs⟩
    · rw [filterLoop_nil] at hk
      exact Or.inr hk
    · rw [filterLoop_cons] at hk
      have hlt : (((c :: cs).dropLast).filter
          (fun y => ! AttrSet.ContainsB y
            ((c :: cs).getLast (List.cons_ne_nil c cs)))).length ≤ n := by
        have h2 := filterLoop_len_lt c cs
        have h3 : (c :: cs).length ≤ n + 1 := hlen
        omega
      rcases ihn _ _ hlt k hk with h1 | h1
      · exact Or.inl ((List.dropLast_sublist _).subset ((List.filter_sublist _).subset h1))
      · rcases List.mem_append.mp h1 with h2 | h2
        · exact Or.inr h2
        · simp at h2
          exact Or.inl (h2 ▸ List.getLast_mem (List.cons_ne_nil c cs))

theorem filterLoop_dominates :
    ∀ (n : Nat) (cands res : List AttrSet), cands.length ≤ n →
      ∀ c ∈ cands, ∃ e ∈ filterLoop cands res, ∀ b ∈ e, b ∈ c := by
  intro n
  induction n with
  | zero =>
    intro cands res hlen c hc
    obtain rfl : cands = [] := List.length_eq_zero.mp (by omega)
    simp at hc
  | succ n ihn =>
    intro cands res hlen c hc
    rcases cands with _ | ⟨c0, cs⟩
    · simp at hc
    · have hlt : (((c0 :: cs).dropLast).filter
          (fun y => ! AttrSet.ContainsB y
            ((c0 :: cs).getLast (List.cons_ne_nil c0 cs)))).length ≤ n := by
        have h2 := filterLoop_len_lt c0 cs
        have h3 : (c0 :: cs).length ≤ n + 1 := hlen
        omega
      have hxin : (c0 :: cs).getLast (List.cons_ne_nil c0 cs) ∈
          filterLoop (c0 :: cs) res := by
        rw [filterLoop_cons]
        obtain ⟨t, ht⟩ := filterLoop_prefix n _ _ hlt
        rw [ht]
        simp
      by_cases hcon : AttrSet.ContainsB c ((c0 :: cs).getLast (List.cons_ne_nil c0 cs))
      · exact ⟨(c0 :: cs).getLast (List.cons_ne_nil c0 cs), hxin,
          (ContainsB_iff _ _).mp hcon⟩
      · by_cases hcx : c = (c0 :: cs).getLast (List.cons_ne_nil c0 cs)
        · exact ⟨c, hcx ▸ hxin, fun b hb => hb⟩
        · have hcdl : c ∈ (c0 :: cs).dropLast := by
            rcases List.mem_append.mp
              ((List.dropLast_append_getLast (List.cons_ne_nil c0 cs)).symm ▸ hc)
              with h1 | h1
            · exact h1
            · simp at h1
              exact absurd h1 hcx
          have hcf : c ∈ ((c0 :: cs).dropLast).filter
              (fun y => ! AttrSet.ContainsB y
                ((c0 :: cs).getLast (List.cons_ne_nil c0 cs))) :=
            List.mem_filter.mpr ⟨hcdl, by simp [hcon]⟩
          obtain ⟨e, he, hesub⟩ :=
            ihn _ (res ++ [(c0 :: cs).getLast (List.cons_ne_nil c0 cs)]) hlt c hcf
          rw [filterLoop_cons]
          exact ⟨e, he, hesub⟩

theorem sorted_sizeGE_getLast :
    ∀ (l : List AttrSet) (hs : List.Sorted sizeGE l) (hne : l ≠ []),
      ∀ c ∈ l, (l.getLast hne).length ≤ c.length := by
  intro l
  induction l with
  | nil => intro _ hne; exact absurd rfl hne
  | cons a t iht =>
    intro hs hne c hc
    rcases t with _ | ⟨b, t2⟩
    · simp at hc
      subst hc
      simp
    · rw [List.getLast_cons (List.cons_ne_nil b t2)]
      rcases List.mem_cons.mp hc with h1 | h1
      · subst h1
        have hrel : sizeGE c ((b :: t2).getLast (List.cons_ne_nil b t2)) :=
          (List.sorted_cons.mp hs).1 _ (List.getLast_mem _)
        exact hrel
      · exact iht (List.sorted_cons.mp hs).2 (List.cons_ne_nil b t2) c h1

theorem filterLoop_noproper :
    ∀ (n : Nat) (cands res : List AttrSet), cands.length ≤ n →
      List.Sorted sizeGE cands →
      (∀ c ∈ cands, c.Nodup) → (∀ e ∈ res, e.Nodup) →
      (∀ e ∈ res, ∀ c ∈ cands, ¬(∀ b ∈ e, b ∈ c)) →
      (∀ e ∈ res, ∀ c ∈ cands, e.length ≤ c.length) →
      (∀ e ∈ res, ∀ e2 ∈ res, (∀ b ∈ e2, b ∈ e) → (∀ b ∈ e, b ∈ e2)) →
      ∀ k ∈ filterLoop cands res, ∀ k2 ∈ filterLoop cands res,
        (∀ b ∈ k2, b ∈ k) → (∀ b ∈ k, b ∈ k2) := by
  intro n
  induction n with
  | zero =>
    intro cands res hlen _ _ _ _ _ hnp k hk k2 hk2 hsub
    obtain rfl : cands = [] := List.length_eq_zero.mp (by omega)
    rw [filterLoop_nil] at hk hk2
    exact hnp k hk k2 hk2 hsub
  | succ n ihn =>
    intro cands res hlen hsort hcnd hrnd hncon hlens hnp k hk k2 hk2 hsub
    rcases cands with _ | ⟨c0, cs⟩
    · rw [filterLoop_nil] at hk hk2
      exact hnp k hk k2 hk2 hsub
    · have hlast := List.getLast_mem (List.cons_ne_nil c0 cs)
      have hxnd : ((c0 :: cs).getLast (List.cons_ne_nil c0 cs)).Nodup :=
        hcnd _ hlast
      have hxmin : ∀ c ∈ c0 :: cs,
          ((c0 :: cs).getLast (List.cons_ne_nil c0 cs)).length ≤ c.length :=
        sorted_sizeGE_getLast _ hsort _
      have hlt : (((c0 :: cs).dropLast).filter
          (fun y => ! AttrSet.ContainsB y
            ((c0 :: cs).getLast (List.cons_ne_nil c0 cs)))).length ≤ n := by
        have h2 := filterLoop_len_lt c0 cs
        have h3 : (c0 :: cs).length ≤ n + 1 := hlen
        omega
      have hsubc : ∀ c ∈ ((c0 :: cs).dropLast).filter
          (fun y => ! AttrSet.ContainsB y
            ((c0 :: cs).getLast (List.cons_ne_nil c0 cs))), c ∈ c0 :: cs :=
        fun c hc => (List.dropLast_sublist _).subset ((List.filter_sublist _).subset hc)
      rw [filterLoop_cons] at hk hk2
      refine ihn _ _ hlt ?_ ?_ ?_ ?_ ?_ ?_ k hk k2 hk2 hsub
      · exact List.Pairwise.sublist ((List.filter_sublist _).trans (List.dropLast_sublist _)) hsort
      · exact fun c hc => hcnd c (hsubc c hc)
      · intro e he
        rcases List.mem_append.mp he with h1 | h1
        · exact hrnd e h1
        · simp at h1
          exact h1 ▸ hxnd
      · intro e he c hc
        rcases List.mem_append.mp he with h1 | h1
        · exact hncon e h1 c (hsubc c hc)
        · simp at h1
          subst h1
          have := (List.mem_filter.mp hc).2
          simp only [Bool.not_eq_eq_eq_not, Bool.not_true] at this
          intro hcon
          rw [(ContainsB_iff _ _).mpr hcon] at this
          simp at this
      · intro e he c hc
        rcases List.mem_append.mp he with h1 | h1
        · exact hlens e h1 c (hsubc c hc)
        · simp at h1
          exact h1 ▸ hxmin c (hsubc c hc)
      · intro e he e2 he2 hsub2
        rcases List.mem_append.mp he with h1 | h1
        · rcases List.mem_append.mp he2 with h2 | h2
          · exact hnp e h1 e2 h2 hsub2
          · simp at h2
            subst h2
            have hle : e.length ≤ ((c0 :: cs).getLast (List.cons_ne_nil c0 cs)).length :=
              hlens e h1 _ hlast
            have hge := nodup_subset_length _ e hxnd (fun b hb => hsub2 b hb)
            have hperm := (List.subperm_of_subset hxnd
              (fun b hb => hsub2 b hb)).perm_of_length_le (by omega)
            exact fun b hb => hperm.symm.mem_iff.mp hb
        · simp at h1
          subst h1
          rcases List.mem_append.mp he2 with h2 | h2
          · exact absurd (fun b hb => hsub2 b hb) (hncon e2 h2 _ hlast)
          · simp at h2
            subst h2
            exact fun b hb => hb

theorem filterContainingKeys_spec (r : Relation) (cands : List AttrSet)
    (hnd : ∀ c ∈ cands, c.Nodup) :
    (∀ k ∈ r.filterContainingKeys cands, k ∈ cands) ∧
    (∀ c ∈ cands, ∃ e ∈ r.filterContainingKeys cands, ∀ b ∈ e, b ∈ c) ∧
    (∀ k ∈ r.filterContainingKeys cands, ∀ k2 ∈ r.filterContainingKeys cands,
      (∀ b ∈ k2, b ∈ k) → (∀ b ∈ k, b ∈ k2)) := by
  unfold Relation.filterContainingKeys
  by_cases hlen : cands.length ≤ 1
  · rw [if_pos hlen]
    refine ⟨fun k hk => hk, fun c hc => ⟨c, hc, fun b hb => hb⟩, ?_⟩
    intro k hk k2 hk2 hsub
    rcases cands with _ | ⟨c0, cs⟩
    · simp at hk
    · rcases cs with _ | ⟨c1, cs2⟩
      · simp at hk hk2
        subst hk
        subst hk2
        exact fun b hb => hb
      · simp at hlen
  · rw [if_neg hlen]
    have hperm := List.perm_insertionSort sizeGE cands
    have hnd2 : ∀ c ∈ List.insertionSort sizeGE cands, c.Nodup :=
      fun c hc => hnd c (hperm.subset hc)
    refine ⟨?_, ?_, ?_⟩
    · intro k hk
      rcases filterLoop_mem (List.insertionSort sizeGE cands).length _ [] le_rfl k hk
        with h1 | h1
      · exact hperm.subset h1
      · simp at h1
    · intro c hc
      obtain ⟨e, he, hesub⟩ := filterLoop_dominates (List.insertionSort sizeGE cands).length
        _ [] le_rfl c (hperm.mem_iff.mpr hc)
      exact ⟨e, he, hesub⟩
    · intro k hk k2 hk2 hsub
      refine filterLoop_noproper (List.insertionSort sizeGE cands).length _ [] le_rfl
        (List.sorted_insertionSort sizeGE cands) hnd2 (by simp) (by simp) (by simp)
        (by simp) k hk k2 hk2 hsub

/-- Soundness and completeness of the enumeration phase of the brute-force
candidate-key search. -/
theorem enumerate_spec (r : Relation)
    (hattrs : ∀ a ∈ r.Attrs, a ≠ [] ∧ AttrSep ∉ a) (hAnd : r.Attrs.Nodup) :
    (∀ x ∈ r.enumerateCandidateKeys, x ≠ [] ∧ x.Nodup ∧ (∀ b ∈ x, b ∈ r.Attrs) ∧
      (closFix r.Closures (AttrSet.addAll [] [x])).length = r.Attrs.length) ∧
    (∀ S : AttrSet, S.Nodup → S ≠ [] → (∀ b ∈ S, b ∈ r.Attrs) →
      (closFix r.Closures (AttrSet.addAll [] [S])).length = r.Attrs.length →
      ∃ x ∈ r.enumerateCandidateKeys, SameSet x S) := by
  have hinv0 : BFInv r ⟨[], []⟩ := by
    constructor
    · intro x hx
      simp at hx
    · intro a _ _ hhit
      simp [BFState.hits] at hhit
  obtain ⟨hfin, _, _, hcov⟩ := recurBF_spec r hattrs r.Attrs.length [] ⟨[], []⟩
    (by intro b hb; simp at hb) hinv0
  constructor
  · intro x hx
    exact hfin.1 x hx
  · intro S hSnd hSne hSsub hSfix
    have hkey : AttrSet.stringGo S ∈
        (r.recurBF r.Closures [] r.Attrs.length ⟨[], []⟩).hits := by
      have := hcov S hSnd hSne (fun b hb => ⟨hSsub b hb, by simp⟩)
        (nodup_subset_length S r.Attrs hSnd hSsub)
      simpa using this
    exact hfin.2 S hSnd hSsub hkey hSfix

/-- The recording condition of the brute-force search characterizes genuine
keys: the inner fixpoint reaches full size iff the derivability closure of
the subset is exactly the attribute universe. -/
theorem fixFull_iff_key (r : Relation) (hwf : WFRel r) (k : AttrSet)
    (hknd : k.Nodup) (hksub : ∀ b ∈ k, b ∈ r.Attrs) (hkne : k ≠ []) :
    (closFix r.Closures (AttrSet.addAll [] [k])).length = r.Attrs.length ↔
      (∀ x, InClo r.FuncDeps k x ↔ x ∈ r.Attrs) := by
  have hseedne : AttrSet.addAll [] [k] ≠ [] :=
    fun hc => hkne ((addAll_nil_single_empty_iff k).mp hc)
  have hFnd : (closFix r.Closures (AttrSet.addAll [] [k])).Nodup :=
    closFix_nodup _ _ (addAll_nil_nodup _)
  have hFsub : ∀ b ∈ closFix r.Closures (AttrSet.addAll [] [k]), b ∈ r.Attrs := by
    refine closFix_universe _ _ r.Attrs (Closures_right_universe r hwf) ?_
    intro b hb
    exact hksub b ((mem_addAll_nil_single k b).mp hb)
  rw [sameSet_length_iff _ r.Attrs hFnd hwf.1 hFsub]
  have hmemiff : ∀ x, x ∈ closFix r.Closures (AttrSet.addAll [] [k]) ↔
      InClo r.FuncDeps k x := by
    intro x
    rw [closFix_iff _ _ hseedne (addAll_nil_nodup _)]
    rw [InClo_Closures_iff r _ x]
    exact InClo_seed_congr (fun b => mem_addAll_nil_single k b) x
  constructor
  · intro hss x
    rw [← hmemiff x]
    exact hss x
  · intro hkey x
    rw [hmemiff x]
    exact hkey x

/-- Soundness part of the enumeration invariant (needs no assumption on the
attribute tokens themselves). -/
def BFSound (r : Relation) (st : BFState) : Prop :=
  ∀ x ∈ st.result, x ≠ [] ∧ x.Nodup ∧ (∀ b ∈ x, b ∈ r.Attrs) ∧
    (closFix r.Closures (AttrSet.addAll [] [x])).length = r.Attrs.length

theorem bfCheck_snd (n : Nat) (clos : List FuncDep) (a : AttrSet) (st : BFState) :
    (bfCheck n clos a st).2 = AttrSet.sortGo a := by
  unfold bfCheck
  dsimp only
  split
  · rfl
  · split <;> rfl

theorem bfCheck_sound (r : Relation) (z : AttrSet) (hzne : z ≠ []) (hznd : z.Nodup)
    (hzsub : ∀ b ∈ z, b ∈ r.Attrs) (st : BFState) (hs : BFSound r st) :
    BFSound r (bfCheck r.Attrs.length r.Closures z st).1 := by
  have haSnd : (AttrSet.sortGo z).Nodup := sortGo_nodup z hznd
  have haSss : SameSet (AttrSet.sortGo z) z := fun x => (sortGo_perm z).mem_iff
  have haSne : AttrSet.sortGo z ≠ [] := by
    intro hc
    have hlen := (sortGo_perm z).length_eq
    rw [hc] at hlen
    exact hzne (List.eq_nil_of_length_eq_zero hlen.symm)
  have haSsub : ∀ b ∈ AttrSet.sortGo z, b ∈ r.Attrs :=
    fun b hb => hzsub b ((haSss b).mp hb)
  unfold bfCheck
  by_cases hk : AttrSet.joinSep (AttrSet.sortGo z) ∈ st.hits
  · rw [if_pos hk]
    exact hs
  · rw [if_neg hk]
    dsimp only
    by_cases hrec : (closFix r.Closures
        (AttrSet.addAll [] [AttrSet.sortGo z])).length = r.Attrs.length
    · rw [if_pos hrec]
      intro x hx
      rcases List.mem_append.mp hx with h1 | h1
      · exact hs x h1
      · have hxeq : x = AttrSet.addAll [] [AttrSet.sortGo z] := by simpa using h1
        subst hxeq
        rw [addAll_nil_single_nodup_eq _ haSnd]
        refine ⟨haSne, haSnd, haSsub, ?_⟩
        rwa [addAll_nil_single_nodup_eq _ haSnd] at hrec ⊢
    · rw [if_neg hrec]
      exact hs

theorem recurBF_sound (r : Relation) :
    ∀ (m : Nat) (x : AttrSet) (st : BFState),
      (∀ b ∈ x, b ∈ r.Attrs) → BFSound r st →
      BFSound r (r.recurBF r.Closures x m st) := by
  intro m
  induction m using Nat.strong_induction_on with
  | _ m ih =>
    intro x st hxsub hst
    rw [recurBF_eq_fold]
    have hfold : ∀ (l : List Attr), (∀ a ∈ l, a ∈ r.Attrs) →
        ∀ (z : AttrSet) (st2 : BFState), z.Nodup → (∀ b ∈ z, b ∈ r.Attrs) →
        BFSound r st2 →
        BFSound r (l.foldl (recurBFStep r r.Closures m) (z, st2)).2 := by
      intro l
      induction l with
      | nil =>
        intro _ z st2 _ _ hst2
        exact hst2
      | cons a1 l2 ihl =>
        intro hl z st2 hznd hzsub2 hst2
        by_cases ha1z : a1 ∈ z
        · have hstep : recurBFStep r r.Closures m (z, st2) a1 = (z, st2) := by
            simp [recurBFStep, ha1z]
          rw [List.foldl_cons, hstep]
          exact ihl (fun a ha => hl a (by simp [ha])) z st2 hznd hzsub2 hst2
        · have ha1A : a1 ∈ r.Attrs := hl a1 (by simp)
          have hz1nd : (z ++ [a1]).Nodup :=
            append_nodup_of z [a1] hznd (by simp) (by simpa using ha1z)
          have hz1sub : ∀ b ∈ z ++ [a1], b ∈ r.Attrs := by
            intro b hb
            rcases List.mem_append.mp hb with h1 | h1
            · exact hzsub2 b h1
            · simp at h1
              exact h1 ▸ ha1A
          have hq1 : BFSound r (bfCheck r.Attrs.length r.Closures (z ++ [a1]) st2).1 :=
            bfCheck_sound r (z ++ [a1]) (by simp) hz1nd hz1sub st2 hst2
          have hq2nd : (bfCheck r.Attrs.length r.Closures (z ++ [a1]) st2).2.Nodup := by
            rw [bfCheck_snd]
            exact sortGo_nodup _ hz1nd
          have hq2ss : SameSet (bfCheck r.Attrs.length r.Closures (z ++ [a1]) st2).2
              (z ++ [a1]) := by
            rw [bfCheck_snd]
            exact fun y => (sortGo_perm _).mem_iff
          have hq2sub : ∀ b ∈ (bfCheck r.Attrs.length r.Closures (z ++ [a1]) st2).2,
              b ∈ r.Attrs := fun b hb => hz1sub b ((hq2ss b).mp hb)
          have ha1q2 : a1 ∈ (bfCheck r.Attrs.length r.Closures (z ++ [a1]) st2).2 :=
            (hq2ss a1).mpr (by simp)
          have hstep : recurBFStep r r.Closures m (z, st2) a1 =
              ((AttrSet.removeGo
                  (bfCheck r.Attrs.length r.Closures (z ++ [a1]) st2).2 a1).1,
                if _h : 1 < m then
                  r.recurBF r.Closures
                    (bfCheck r.Attrs.length r.Closures (z ++ [a1]) st2).2 (m - 1)
                    (bfCheck r.Attrs.length r.Closures (z ++ [a1]) st2).1
                else (bfCheck r.Attrs.length r.Closures (z ++ [a1]) st2).1) := by
            simp [recurBFStep, ha1z]
          have hst3 : BFSound r (if _h : 1 < m then
              r.recurBF r.Closures
                (bfCheck r.Attrs.length r.Closures (z ++ [a1]) st2).2 (m - 1)
                (bfCheck r.Attrs.length r.Closures (z ++ [a1]) st2).1
            else (bfCheck r.Attrs.length r.Closures (z ++ [a1]) st2).1) := by
            by_cases hm : 1 < m
            · rw [dif_pos hm]
              exact ih (m - 1) (by omega) _ _ hq2sub hq1
            · rw [dif_neg hm]
              exact hq1
          have hz2nd : (AttrSet.removeGo
              (bfCheck r.Attrs.length r.Closures (z ++ [a1]) st2).2 a1).1.Nodup :=
            removeGo_nodup _ a1 hq2nd
          have hz2sub : ∀ b ∈ (AttrSet.removeGo
              (bfCheck r.Attrs.length r.Closures (z ++ [a1]) st2).2 a1).1,
              b ∈ r.Attrs := by
            intro b hb
            have := (removeGo_mem _ a1 hq2nd ha1q2 b).mp hb
            exact hq2sub b this.1
          rw [List.foldl_cons, hstep]
          exact ihl (fun a ha => hl a (by simp [ha])) _ _ hz2nd hz2sub hst3
    refine hfold r.Attrs (fun a ha => ha) (AttrSet.addAll [] [x]) st
      (addAll_nil_nodup _) ?_ hst
    intro b hb
    exact hxsub b ((mem_addAll_nil_single x b).mp hb)

theorem enumerate_sound (r : Relation) :
    ∀ x ∈ r.enumerateCandidateKeys, x ≠ [] ∧ x.Nodup ∧ (∀ b ∈ x, b ∈ r.Attrs) ∧
      (closFix r.Closures (AttrSet.addAll [] [x])).length = r.Attrs.length := by
  have hs0 : BFSound r ⟨[], []⟩ := by
    intro x hx
    simp at hx
  exact recurBF_sound r r.Attrs.length [] ⟨[], []⟩ (by intro b hb; simp at hb) hs0

theorem attrAdd_mem (s : AttrSet) (a x : Attr) :
    x ∈ (AttrSet.add s a).1 ↔ x ∈ s ∨ x = a := by
  unfold AttrSet.add
  by_cases h : a ∈ s
  · simp only [if_pos h]
    constructor
    · exact Or.inl
    · rintro (h1 | h1)
      · exact h1
      · exact h1 ▸ h
  · simp [if_neg h]

theorem DifferenceGo_single_eq (s t : AttrSet) :
    AttrSet.DifferenceGo s [t] =
      (AttrSet.addAll [] [s]).filter (fun x => decide (x ∉ t)) := by
  unfold AttrSet.DifferenceGo
  refine List.filter_congr ?_
  intro x _
  simp

theorem DifferenceGo_single_mem (s t : AttrSet) (x : Attr) :
    x ∈ AttrSet.DifferenceGo s [t] ↔ x ∈ s ∧ x ∉ t := by
  rw [DifferenceGo_single_eq, List.mem_filter, mem_addAll_nil_single]
  simp

theorem DifferenceGo_nodup (s t : AttrSet) : (AttrSet.DifferenceGo s [t]).Nodup :=
  List.Nodup.filter _ (addAll_nil_nodup [s])

theorem length_filter_compl (l : List Attr) (p : Attr → Bool) :
    (l.filter p).length + (l.filter (fun x => ! p x)).length = l.length := by
  induction l with
  | nil => rfl
  | cons a t ih =>
    by_cases h : p a <;> simp [h, List.filter_cons] <;> omega

/-- Any FD whose closure reaches full size has a left side that is a genuine
superkey of a well-formed relation. -/
theorem key_from_full_closure (r : Relation) (hwf : WFRel r) (fd : FuncDep)
    (hfd : fd ∈ r.FuncDeps)
    (hfull : (r.Closure fd).Right.length = r.Attrs.length) :
    ∀ x, InClo r.FuncDeps fd.Left x ↔ x ∈ r.Attrs := by
  have hXnd : (r.Closure fd).Right.Nodup := closFix_nodup _ _ (addAll_nil_nodup _)
  have hXsub : ∀ b ∈ (r.Closure fd).Right, b ∈ r.Attrs :=
    Closure_right_universe r hwf fd (hwf.2 fd hfd).1 (hwf.2 fd hfd).2.1
  have hXA : SameSet (r.Closure fd).Right r.Attrs :=
    (sameSet_length_iff _ r.Attrs hXnd hwf.1 hXsub).mp hfull
  intro x
  constructor
  · intro h
    exact h.universe (fun fd2 h2 b hb => (hwf.2 fd2 h2).2.1 b hb)
      (fun b hb => (hwf.2 fd hfd).1 b hb)
  · intro hx
    have hmem : x ∈ (r.Closure fd).Right := (hXA x).mpr hx
    refine InClo.cut ?_ (Closure_right_sound r fd x hmem)
    intro b hb
    rcases List.mem_append.mp hb with h1 | h1
    · exact .base h1
    · exact .step hfd (fun c hc => .base hc) h1

/-- The sets emitted by `CandidateKeysAlt` are superkeys: left side plus the
whole (at most two element) difference. -/
theorem alt_key_superkey (r : Relation) (hwf : WFRel r) (fd : FuncDep)
    (hfd : fd ∈ r.FuncDeps) (k : AttrSet)
    (hcond : r.Attrs.length - 2 ≤ (r.Closure fd).Right.length)
    (hkmem : ∀ x, x ∈ k ↔ x ∈ fd.Left ∨
      x ∈ AttrSet.DifferenceGo r.Attrs [(r.Closure fd).Right]) :
    ∀ x, InClo r.FuncDeps k x ↔ x ∈ r.Attrs := by
  have hXsub : ∀ b ∈ (r.Closure fd).Right, b ∈ r.Attrs :=
    Closure_right_universe r hwf fd (hwf.2 fd hfd).1 (hwf.2 fd hfd).2.1
  intro x
  constructor
  · intro h
    refine h.universe (fun fd2 h2 b hb => (hwf.2 fd2 h2).2.1 b hb) ?_
    intro b hb
    rcases (hkmem b).mp hb with h1 | h1
    · exact (hwf.2 fd hfd).1 b h1
    · exact ((DifferenceGo_single_mem _ _ b).mp h1).1
  · intro hx
    by_cases hxR : x ∈ (r.Closure fd).Right
    · have hder := Closure_right_sound r fd x hxR
      have hL : InClo r.FuncDeps fd.Left x := by
        refine InClo.cut ?_ hder
        intro b hb
        rcases List.mem_append.mp hb with h1 | h1
        · exact .base h1
        · exact .step hfd (fun c hc => .base hc) h1
      exact hL.mono_seed (fun b hb => (hkmem b).mpr (Or.inl hb))
    · exact .base ((hkmem x).mpr (Or.inr
        ((DifferenceGo_single_mem _ _ x).mpr ⟨hx, hxR⟩)))

/-- C2: every set returned by any of the three candidate-key strategies,
when closed under the relation's functional dependencies, equals the full
attribute set (and for nonempty returned sets the same holds verbatim for
the set computed by `Closure` seeded with the set itself). -/
theorem C2_strategies_superkeys (r : Relation) (hwf : WFRel r) (k : AttrSet)
    (hk : k ∈ r.CandidateKeys ∨ k ∈ r.CandidateKeysAlt ∨ k ∈ r.CandidateKeysBF) :
    (∀ x, InClo r.FuncDeps k x ↔ x ∈ r.Attrs) ∧
    (k ≠ [] → ∀ x, x ∈ (r.Closure ⟨k, k⟩).Right ↔ x ∈ r.Attrs) := by
  have hmain : ∀ x, InClo r.FuncDeps k x ↔ x ∈ r.Attrs := by
    rcases hk with hk | hk | hk
    · unfold Relation.CandidateKeys at hk
      obtain ⟨cfd, hcfd, hkeq⟩ := List.mem_map.mp hk
      obtain ⟨hcmem, hcond⟩ := List.mem_filter.mp hcfd
      obtain ⟨fd, hfdmem, hfdeq⟩ := List.mem_map.mp hcmem
      subst hfdeq
      subst hkeq
      have hkey := key_from_full_closure r hwf fd hfdmem (by simpa using hcond)
      intro x
      rw [← hkey x]
      exact InClo_seed_congr (fun b => Closure_left_mem r fd b) x
    · unfold Relation.CandidateKeysAlt at hk
      obtain ⟨cfd, hcmem, hfeq⟩ := List.mem_filterMap.mp hk
      obtain ⟨fd, hfdmem, hfdeq⟩ := List.mem_map.mp hcmem
      subst hfdeq
      by_cases hcond : r.Attrs.length - 2 ≤ (r.Closure fd).Right.length
      swap
      · rw [if_neg hcond] at hfeq
        exact absurd hfeq (by simp)
      rw [if_pos hcond] at hfeq
      have hXnd : (r.Closure fd).Right.Nodup := closFix_nodup _ _ (addAll_nil_nodup _)
      have hXsub : ∀ b ∈ (r.Closure fd).Right, b ∈ r.Attrs :=
        Closure_right_universe r hwf fd (hwf.2 fd hfdmem).1 (hwf.2 fd hfdmem).2.1
      have hdiff2 : (AttrSet.DifferenceGo r.Attrs [(r.Closure fd).Right]).length ≤ 2 := by
        have hA : AttrSet.addAll [] [r.Attrs] = r.Attrs :=
          addAll_nil_single_nodup_eq _ hwf.1
        have hsplit := length_filter_compl r.Attrs
          (fun x => decide (x ∉ (r.Closure fd).Right))
        have hRle : (r.Closure fd).Right.length ≤
            (r.Attrs.filter (fun x =>
              ! (decide (x ∉ (r.Closure fd).Right)))).length := by
          refine nodup_subset_length _ _ hXnd ?_
          intro b hb
          refine List.mem_filter.mpr ⟨hXsub b hb, ?_⟩
          simp [hb]
        rw [DifferenceGo_single_eq, hA]
        omega
      have hkmem : ∀ x, x ∈ k ↔ x ∈ fd.Left ∨
          x ∈ AttrSet.DifferenceGo r.Attrs [(r.Closure fd).Right] := by
        have hkeq : (let diff := AttrSet.DifferenceGo r.Attrs [(r.Closure fd).Right]
            let l1 := if 0 < diff.length then
                (AttrSet.add (r.Closure fd).Left (diff.getD 0 [])).1
              else (r.Closure fd).Left
            let l2 := if 1 < diff.length then (AttrSet.add l1 (diff.getD 1 [])).1 else l1
            l2) = k := by
          simpa using hfeq
        intro x
        rcases hD : AttrSet.DifferenceGo r.Attrs [(r.Closure fd).Right]
          with _ | ⟨d0, ds⟩
        · rw [hD] at hkeq
          simp only [List.length_nil] at hkeq
          norm_num at hkeq
          rw [← hkeq, Closure_left_mem r fd x]
          simp
        · rcases ds with _ | ⟨d1, ds2⟩
          · rw [hD] at hkeq
            simp only [List.length_cons, List.length_nil] at hkeq
            norm_num at hkeq
            rw [← hkeq, attrAdd_mem, Closure_left_mem r fd x]
            simp only [List.getD_cons_zero, List.mem_singleton]
          · rcases ds2 with _ | ⟨d2, ds3⟩
            · rw [hD] at hkeq
              simp only [List.length_cons, List.length_nil] at hkeq
              norm_num at hkeq
              rw [← hkeq, attrAdd_mem, attrAdd_mem, Closure_left_mem r fd x]
              simp only [List.getD_cons_zero, List.getD_cons_succ, List.mem_cons,
                List.mem_singleton, List.not_mem_nil, or_false]
              tauto
            · exfalso
              rw [hD] at hdiff2
              simp at hdiff2
      exact alt_key_superkey r hwf fd hfdmem k hcond hkmem
    · have hnd : ∀ c ∈ r.enumerateCandidateKeys, c.Nodup :=
        fun c hc => (enumerate_sound r c hc).2.1
      have hmem : k ∈ r.enumerateCandidateKeys :=
        (filterContainingKeys_spec r _ hnd).1 k hk
      obtain ⟨hne, hnd2, hsub, hfix⟩ := enumerate_sound r k hmem
      exact (fixFull_iff_key r hwf k hnd2 hsub hne).mp hfix
  refine ⟨hmain, ?_⟩
  intro hkne x
  rw [Closure_right_iff r ⟨k, k⟩ (by simp [hkne]) x]
  rw [← hmain x]
  refine InClo_seed_congr (fun b => ?_) x
  simp

/-- C2 witness: the superkey property at a concrete relation and a key
returned by the first strategy. -/
theorem C2_strategies_superkeys_witness :
    (WFRel (Relation.mk ['R'] [['A'], ['B'], ['C']]
        [⟨[['A']], [['B']]⟩, ⟨[['B']], [['C']]⟩]) ∧
      ([[ 'A' ]] ∈ (Relation.mk ['R'] [['A'], ['B'], ['C']]
          [⟨[['A']], [['B']]⟩, ⟨[['B']], [['C']]⟩]).CandidateKeys ∨
        [['A']] ∈ (Relation.mk ['R'] [['A'], ['B'], ['C']]
          [⟨[['A']], [['B']]⟩, ⟨[['B']], [['C']]⟩]).CandidateKeysAlt ∨
        [['A']] ∈ (Relation.mk ['R'] [['A'], ['B'], ['C']]
          [⟨[['A']], [['B']]⟩, ⟨[['B']], [['C']]⟩]).CandidateKeysBF)) ∧
    ((∀ x, InClo (Relation.mk ['R'] [['A'], ['B'], ['C']]
          [⟨[['A']], [['B']]⟩, ⟨[['B']], [['C']]⟩]).FuncDeps [['A']] x ↔
        x ∈ (Relation.mk ['R'] [['A'], ['B'], ['C']]
          [⟨[['A']], [['B']]⟩, ⟨[['B']], [['C']]⟩]).Attrs) ∧
      (([['A']] : AttrSet) ≠ [] → ∀ x,
        x ∈ ((Relation.mk ['R'] [['A'], ['B'], ['C']]
            [⟨[['A']], [['B']]⟩, ⟨[['B']], [['C']]⟩]).Closure
          ⟨[['A']], [['A']]⟩).Right ↔
          x ∈ (Relation.mk ['R'] [['A'], ['B'], ['C']]
            [⟨[['A']], [['B']]⟩, ⟨[['B']], [['C']]⟩]).Attrs)) :=
  ⟨⟨by decide, Or.inl (by decide)⟩,
   C2_strategies_superkeys (Relation.mk ['R'] [['A'], ['B'], ['C']]
       [⟨[['A']], [['B']]⟩, ⟨[['B']], [['C']]⟩]) (by decide) [['A']]
     (Or.inl (by decide))⟩

/-! ## C1: minimality of the brute-force candidate keys -/

theorem InClo_empty_seed (fds : List FuncDep)
    (hl : ∀ fd ∈ fds, fd.Left ≠ []) (x : Attr) : ¬ InClo fds [] x := by
  intro h
  induction h with
  | base hb => simp at hb
  | step hfd _ _ ih =>
    obtain ⟨c, hc⟩ := List.exists_mem_of_ne_nil _ (hl _ hfd)
    exact ih c hc

/-- C1 counterexample: for the relation with no attributes and no
dependencies, the empty set is a minimal key — its derivability closure is
the full (empty) attribute set and it has no proper subsets — yet
`CandidateKeysBF` returns no key at all, because the brute-force
enumeration only ever tests nonempty subsets.  So not every minimal key
appears in the result. -/
theorem C1_empty_relation_counterexample :
    WFRel (Relation.mk ['R'] [] []) ∧
    ([] : AttrSet).Nodup ∧
    (∀ x, InClo (Relation.mk ['R'] [] []).FuncDeps [] x ↔
      x ∈ (Relation.mk ['R'] [] []).Attrs) ∧
    (∀ T : AttrSet, T.Nodup → (∀ b ∈ T, b ∈ ([] : AttrSet)) →
      ¬ (∀ b ∈ ([] : AttrSet), b ∈ T) →
      ¬ (∀ x, InClo (Relation.mk ['R'] [] []).FuncDeps T x ↔
        x ∈ (Relation.mk ['R'] [] []).Attrs)) ∧
    ¬ ∃ k ∈ (Relation.mk ['R'] [] []).CandidateKeysBF, SameSet k [] := by
  refine ⟨by decide, by decide, ?_, ?_, ?_⟩
  · intro x
    constructor
    · intro h
      exact absurd h (InClo_empty_seed _ (by simp) x)
    · intro hx
      simp at hx
  · intro T _ _ hns
    exact absurd (by simp) hns
  · rintro ⟨k, hk, -⟩
    have hbf : (Relation.mk ['R'] [] []).CandidateKeysBF = [] := by
      unfold Relation.CandidateKeysBF Relation.enumerateCandidateKeys
      rw [recurBF_eq_fold]
      rfl
    rw [hbf] at hk
    simp at hk

/-- C1 (amended): for a well-formed relation with a nonempty attribute
set, attribute tokens that are nonempty and free of the separator, and
nonempty FD left sides, `CandidateKeysBF` returns exactly the minimal
candidate keys: every returned set derives the full attribute set, no
returned key properly contains another, and every minimal key appears (as
a set) in the result. -/
theorem C1_bf_minimal_keys (r : Relation) (hwf : WFRel r)
    (hAne : r.Attrs ≠ [])
    (hattrs : ∀ a ∈ r.Attrs, a ≠ [] ∧ AttrSep ∉ a)
    (hlefts : ∀ fd ∈ r.FuncDeps, fd.Left ≠ []) :
    (∀ k ∈ r.CandidateKeysBF, ∀ x, InClo r.FuncDeps k x ↔ x ∈ r.Attrs) ∧
    (∀ k ∈ r.CandidateKeysBF, ∀ k2 ∈ r.CandidateKeysBF,
      (∀ b ∈ k2, b ∈ k) → (∀ b ∈ k, b ∈ k2)) ∧
    (∀ S : AttrSet, S.Nodup →
      (∀ x, InClo r.FuncDeps S x ↔ x ∈ r.Attrs) →
      (∀ T : AttrSet, T.Nodup → (∀ b ∈ T, b ∈ S) → ¬ (∀ b ∈ S, b ∈ T) →
        ¬ (∀ x, InClo r.FuncDeps T x ↔ x ∈ r.Attrs)) →
      ∃ k ∈ r.CandidateKeysBF, SameSet k S) := by
  unfold Relation.CandidateKeysBF
  have hEspec := enumerate_spec r hattrs hwf.1
  have hEnd : ∀ c ∈ r.enumerateCandidateKeys, c.Nodup :=
    fun c hc => (hEspec.1 c hc).2.1
  have hF := filterContainingKeys_spec r r.enumerateCandidateKeys hEnd
  refine ⟨?_, ?_, ?_⟩
  · intro k hk x
    have hkE := hF.1 k hk
    obtain ⟨hne, hnd, hsub, hfix⟩ := hEspec.1 k hkE
    exact (fixFull_iff_key r hwf k hnd hsub hne).mp hfix x
  · exact hF.2.2
  · intro S hSnd hSkey hSmin
    have hSsub : ∀ b ∈ S, b ∈ r.Attrs :=
      fun b hb => (hSkey b).mp (.base hb)
    have hSne : S ≠ [] := by
      intro hc
      subst hc
      obtain ⟨a, ha⟩ := List.exists_mem_of_ne_nil _ hAne
      exact InClo_empty_seed r.FuncDeps hlefts a ((hSkey a).mpr ha)
    have hSfix : (closFix r.Closures (AttrSet.addAll [] [S])).length =
        r.Attrs.length :=
      (fixFull_iff_key r hwf S hSnd hSsub hSne).mpr hSkey
    obtain ⟨x, hxE, hxS⟩ := hEspec.2 S hSnd hSne hSsub hSfix
    obtain ⟨e, heBF, hesub⟩ := hF.2.1 x hxE
    have heE := hF.1 e heBF
    obtain ⟨hene, hend, hesub2, hefix⟩ := hEspec.1 e heE
    have hekey : ∀ y, InClo r.FuncDeps e y ↔ y ∈ r.Attrs :=
      (fixFull_iff_key r hwf e hend hesub2 hene).mp hefix
    have heS : ∀ b ∈ e, b ∈ S := fun b hb => (hxS b).mp (hesub b hb)
    by_cases hSe : ∀ b ∈ S, b ∈ e
    · exact ⟨e, heBF, fun b => ⟨fun hb => heS b hb, fun hb => hSe b hb⟩⟩
    · exact absurd hekey (hSmin e hend heS hSe)

/-- C1 witness: the amended minimality statement at a concrete two
attribute relation whose only FD is A → B. -/
theorem C1_bf_minimal_keys_witness :
    (WFRel (Relation.mk ['R'] [['A'], ['B']] [⟨[['A']], [['B']]⟩]) ∧
      (Relation.mk ['R'] [['A'], ['B']] [⟨[['A']], [['B']]⟩]).Attrs ≠ [] ∧
      (∀ a ∈ (Relation.mk ['R'] [['A'], ['B']] [⟨[['A']], [['B']]⟩]).Attrs,
        a ≠ [] ∧ AttrSep ∉ a) ∧
      (∀ fd ∈ (Relation.mk ['R'] [['A'], ['B']]
        [⟨[['A']], [['B']]⟩]).FuncDeps, fd.Left ≠ [])) ∧
    ((∀ k ∈ (Relation.mk ['R'] [['A'], ['B']]
        [⟨[['A']], [['B']]⟩]).CandidateKeysBF,
      ∀ x, InClo (Relation.mk ['R'] [['A'], ['B']]
        [⟨[['A']], [['B']]⟩]).FuncDeps k x ↔
        x ∈ (Relation.mk ['R'] [['A'], ['B']] [⟨[['A']], [['B']]⟩]).Attrs) ∧
    (∀ k ∈ (Relation.mk ['R'] [['A'], ['B']]
        [⟨[['A']], [['B']]⟩]).CandidateKeysBF,
      ∀ k2 ∈ (Relation.mk ['R'] [['A'], ['B']]
        [⟨[['A']], [['B']]⟩]).CandidateKeysBF,
      (∀ b ∈ k2, b ∈ k) → (∀ b ∈ k, b ∈ k2)) ∧
    (∀ S : AttrSet, S.Nodup →
      (∀ x, InClo (Relation.mk ['R'] [['A'], ['B']]
        [⟨[['A']], [['B']]⟩]).FuncDeps S x ↔
        x ∈ (Relation.mk ['R'] [['A'], ['B']] [⟨[['A']], [['B']]⟩]).Attrs) →
      (∀ T : AttrSet, T.Nodup → (∀ b ∈ T, b ∈ S) → ¬ (∀ b ∈ S, b ∈ T) →
        ¬ (∀ x, InClo (Relation.mk ['R'] [['A'], ['B']]
          [⟨[['A']], [['B']]⟩]).FuncDeps T x ↔
          x ∈ (Relation.mk ['R'] [['A'], ['B']] [⟨[['A']], [['B']]⟩]).Attrs)) →
      ∃ k ∈ (Relation.mk ['R'] [['A'], ['B']]
        [⟨[['A']], [['B']]⟩]).CandidateKeysBF, SameSet k S)) :=
  ⟨⟨by decide, by decide, by decide, by decide⟩,
   C1_bf_minimal_keys (Relation.mk ['R'] [['A'], ['B']] [⟨[['A']], [['B']]⟩])
     (by decide) (by decide) (by decide) (by decide)⟩


/-! ## C10: heap model of the mutating Go code

Go's `AttrSet` is a slice mutated through pointer receivers (`Add`,
`AddAll`, `Remove`) and sorted in place by `String()`.  To state the frame
property the pure embedding cannot express, the heap below holds one cell
per mutable `AttrSet`; a `FuncDepH`/`RelationH` refers to its attribute
sets by cell index, and each Go function is re-rendered as a heap
transformer performing exactly the allocations and cell writes the Go code
performs.  `readFD`/`readRel` recover the pure values from the heap. -/

abbrev Heap := List AttrSet

def hget (h : Heap) (l : Nat) : AttrSet := List.getD h l []

def hset (h : Heap) (l : Nat) (v : AttrSet) : Heap := List.set h l v

def halloc (h : Heap) (v : AttrSet) : Heap × Nat := (List.append h [v], List.length h)

def hlen (h : Heap) : Nat := List.length h

structure FuncDepH where
  left : Nat
  right : Nat
deriving DecidableEq, Repr

structure RelationH where
  NameH : List Char
  attrs : Nat
  fds : List FuncDepH
deriving DecidableEq, Repr

def readFD (h : Heap) (f : FuncDepH) : FuncDep :=
  { Left := hget h f.left, Right := hget h f.right }

def readRel (h : Heap) (R : RelationH) : Relation :=
  { Name := R.NameH, Attrs := hget h R.attrs, FuncDeps := R.fds.map (readFD h) }

/-- The call turned heap `h` into `h2` while leaving every cell below `n`
(in particular every cell allocated before the call, when `n` is the old
heap size) untouched. -/
def FramesAbove (n : Nat) (h h2 : Heap) : Prop :=
  n ≤ hlen h ∧ hlen h ≤ hlen h2 ∧ ∀ l, l < n → hget h2 l = hget h l

theorem frames_refl (n : Nat) (h : Heap) (hn : n ≤ hlen h) : FramesAbove n h h :=
  ⟨hn, le_rfl, fun _ _ => rfl⟩

theorem frames_trans {n : Nat} {h h2 h3 : Heap}
    (a : FramesAbove n h h2) (b : FramesAbove n h2 h3) : FramesAbove n h h3 :=
  ⟨a.1, a.2.1.trans b.2.1, fun l hl => (b.2.2 l hl).trans (a.2.2 l hl)⟩

theorem frames_mono {m n : Nat} {h h2 : Heap} (hmn : m ≤ n)
    (a : FramesAbove n h h2) : FramesAbove m h h2 :=
  ⟨hmn.trans a.1, a.2.1, fun l hl => a.2.2 l (lt_of_lt_of_le hl hmn)⟩

theorem hget_set_ne (h : Heap) (l l2 : Nat) (v : AttrSet) (hne : l2 ≠ l) :
    hget (hset h l v) l2 = hget h l2 := by
  unfold hget hset
  rw [List.getD_eq_getElem?_getD, List.getD_eq_getElem?_getD,
    List.getElem?_set_ne (fun hc => hne hc.symm)]

theorem hget_set_self (h : Heap) (l : Nat) (v : AttrSet) (hl : l < hlen h) :
    hget (hset h l v) l = v := by
  unfold hget hset
  rw [List.getD_eq_getElem?_getD, List.getElem?_set_self (by simpa [hlen] using hl)]
  rfl

theorem hlen_set (h : Heap) (l : Nat) (v : AttrSet) : hlen (hset h l v) = hlen h := by
  simp [hlen, hset]

theorem frames_set {n : Nat} (h : Heap) (l : Nat) (v : AttrSet)
    (hn : n ≤ hlen h) (hl : n ≤ l) : FramesAbove n h (hset h l v) :=
  ⟨hn, le_of_eq (hlen_set h l v).symm,
    fun l2 hl2 => hget_set_ne h l l2 v (by omega)⟩

theorem hget_append_lt (h : Heap) (v : AttrSet) (l : Nat) (hl : l < hlen h) :
    hget (List.append h [v]) l = hget h l := by
  unfold hget
  rw [List.append_eq, List.getD_eq_getElem?_getD, List.getD_eq_getElem?_getD,
    List.getElem?_append_left (by simpa [hlen] using hl)]

theorem hget_alloc_new (h : Heap) (v : AttrSet) :
    hget (halloc h v).1 (halloc h v).2 = v := by
  unfold hget halloc
  rw [List.append_eq, List.getD_eq_getElem?_getD, List.getElem?_concat_length]
  rfl

theorem frames_alloc {n : Nat} (h : Heap) (v : AttrSet) (hn : n ≤ hlen h) :
    FramesAbove n h (halloc h v).1 :=
  ⟨hn, by simp [halloc, hlen], fun l hl => hget_append_lt h v l (by omega)⟩

theorem frames_readFD {n : Nat} {h h2 : Heap} (fr : FramesAbove n h h2)
    (f : FuncDepH) (hf : f.left < n ∧ f.right < n) : readFD h2 f = readFD h f := by
  unfold readFD
  rw [fr.2.2 f.left hf.1, fr.2.2 f.right hf.2]

theorem frames_readRel {n : Nat} {h h2 : Heap} (fr : FramesAbove n h h2)
    (R : RelationH) (hA : R.attrs < n)
    (hf : ∀ g ∈ R.fds, g.left < n ∧ g.right < n) : readRel h2 R = readRel h R := by
  unfold readRel
  rw [fr.2.2 R.attrs hA]
  congr 1
  exact List.map_congr_left (fun g hg => frames_readFD fr g (hf g hg))

/-- The call turned `h` into `h2` writing only cell `l` (no allocation). -/
def WritesOnly (l : Nat) (h h2 : Heap) : Prop :=
  hlen h2 = hlen h ∧ ∀ l2, l2 ≠ l → hget h2 l2 = hget h l2

theorem writesOnly_refl (l : Nat) (h : Heap) : WritesOnly l h h :=
  ⟨rfl, fun _ _ => rfl⟩

theorem writesOnly_trans {l : Nat} {h h2 h3 : Heap}
    (a : WritesOnly l h h2) (b : WritesOnly l h2 h3) : WritesOnly l h h3 :=
  ⟨b.1.trans a.1, fun l2 hl2 => (b.2 l2 hl2).trans (a.2 l2 hl2)⟩

theorem writesOnly_set (h : Heap) (l : Nat) (v : AttrSet) :
    WritesOnly l h (hset h l v) :=
  ⟨hlen_set h l v, fun l2 hl2 => hget_set_ne h l l2 v hl2⟩

theorem writesOnly_readFD {l : Nat} {h h2 : Heap} (w : WritesOnly l h h2)
    (f : FuncDepH) (hf : f.left ≠ l ∧ f.right ≠ l) : readFD h2 f = readFD h f := by
  unfold readFD
  rw [w.2 f.left hf.1, w.2 f.right hf.2]

theorem writesOnly_frames {n l : Nat} {h h2 : Heap} (w : WritesOnly l h h2)
    (hn : n ≤ hlen h) (hl : n ≤ l) : FramesAbove n h h2 :=
  ⟨hn, le_of_eq w.1.symm, fun l2 hl2 => w.2 l2 (by omega)⟩

/-- One pass of the Go fixpoint loop `for _, other := range r.FuncDeps {...}`
acting on the fresh right-side cell `rl`; `other`'s sides are read from the
heap and `AddAll` writes through the pointer to cell `rl`. -/
def passH (fds : List FuncDepH) (rl : Nat) (h : Heap) : Heap :=
  fds.foldl
    (fun h2 other =>
      if AttrSet.ContainsB (hget h2 rl) (hget h2 other.left)
      then hset h2 rl (AttrSet.addAll (hget h2 rl) [hget h2 other.right])
      else h2) h

/-- The Go `for n != lastN` loop on cell `rl` (fuel as in `closLoop`). -/
def closLoopH (fds : List FuncDepH) (rl : Nat) : Nat → Heap → Heap
  | 0, h => h
  | k + 1, h =>
    let h2 := passH fds rl h
    if (hget h2 rl).length = (hget h rl).length then h2
    else closLoopH fds rl k h2

/-- The loop together with its `lastN = 0` entry test. -/
def closFixH (fds : List FuncDepH) (rl fuel : Nat) (h : Heap) : Heap :=
  if (hget h rl).length = 0 then h else closLoopH fds rl fuel h

theorem passH_spec (rl : Nat) (fds : List FuncDepH) :
    ∀ (h : Heap), rl < hlen h →
      (∀ g ∈ fds, g.left ≠ rl ∧ g.right ≠ rl) →
      hget (passH fds rl h) rl = closPass (fds.map (readFD h)) (hget h rl) ∧
      WritesOnly rl h (passH fds rl h) := by
  induction fds with
  | nil => exact fun h _ _ => ⟨rfl, writesOnly_refl rl h⟩
  | cons o os ih =>
    intro h hrl hdis
    have hstep : passH (o :: os) rl h = passH os rl
        (if AttrSet.ContainsB (hget h rl) (hget h o.left)
         then hset h rl (AttrSet.addAll (hget h rl) [hget h o.right])
         else h) := by
      unfold passH
      rw [List.foldl_cons]
    have hw2 : WritesOnly rl h
        (if AttrSet.ContainsB (hget h rl) (hget h o.left)
         then hset h rl (AttrSet.addAll (hget h rl) [hget h o.right])
         else h) := by
      split
      · exact writesOnly_set h rl _
      · exact writesOnly_refl rl h
    have hg2 : hget (if AttrSet.ContainsB (hget h rl) (hget h o.left)
         then hset h rl (AttrSet.addAll (hget h rl) [hget h o.right])
         else h) rl =
        (if AttrSet.ContainsB (hget h rl) ((readFD h o).Left)
         then AttrSet.addAll (hget h rl) [(readFD h o).Right] else hget h rl) := by
      unfold readFD
      split
      · exact hget_set_self h rl _ hrl
      · rfl
    have hrl2 : rl < hlen (if AttrSet.ContainsB (hget h rl) (hget h o.left)
         then hset h rl (AttrSet.addAll (hget h rl) [hget h o.right])
         else h) := by
      rw [hw2.1]
      exact hrl
    obtain ⟨hih1, hih2⟩ := ih _ hrl2 (fun g hg => hdis g (List.mem_cons_of_mem o hg))
    constructor
    · rw [hstep, hih1]
      have hmap : os.map (readFD (if AttrSet.ContainsB (hget h rl) (hget h o.left)
          then hset h rl (AttrSet.addAll (hget h rl) [hget h o.right])
          else h)) = os.map (readFD h) :=
        List.map_congr_left (fun g hg =>
          writesOnly_readFD hw2 g (hdis g (List.mem_cons_of_mem o hg)))
      rw [hmap, hg2]
      unfold closPass
      rw [List.map_cons, List.foldl_cons]
    · rw [hstep]
      exact writesOnly_trans hw2 hih2

theorem closLoopH_spec (fds : List FuncDepH) (rl : Nat) :
    ∀ (k : Nat) (h : Heap), rl < hlen h →
      (∀ g ∈ fds, g.left ≠ rl ∧ g.right ≠ rl) →
      hget (closLoopH fds rl k h) rl = closLoop (fds.map (readFD h)) k (hget h rl) ∧
      WritesOnly rl h (closLoopH fds rl k h) := by
  intro k
  induction k with
  | zero => exact fun h _ _ => ⟨rfl, writesOnly_refl rl h⟩
  | succ k ih =>
    intro h hrl hdis
    obtain ⟨hp1, hp2⟩ := passH_spec rl fds h hrl hdis
    have hrl2 : rl < hlen (passH fds rl h) := by
      rw [hp2.1]
      exact hrl
    simp only [closLoopH, closLoop, hp1]
    by_cases hlen2 : (closPass (fds.map (readFD h)) (hget h rl)).length =
        (hget h rl).length
    · rw [if_pos hlen2, if_pos hlen2]
      exact ⟨hp1, hp2⟩
    · rw [if_neg hlen2, if_neg hlen2]
      obtain ⟨hih1, hih2⟩ := ih (passH fds rl h) hrl2 hdis
      have hmap : fds.map (readFD (passH fds rl h)) = fds.map (readFD h) :=
        List.map_congr_left (fun g hg => writesOnly_readFD hp2 g (hdis g hg))
      rw [hih1, hmap, hp1]
      exact ⟨rfl, writesOnly_trans hp2 hih2⟩

theorem closFixH_spec (fds : List FuncDepH) (rl fuel : Nat) (h : Heap)
    (hrl : rl < hlen h) (hdis : ∀ g ∈ fds, g.left ≠ rl ∧ g.right ≠ rl)
    (hfuel : fuel = closFuel (fds.map (readFD h)) (hget h rl)) :
    hget (closFixH fds rl fuel h) rl = closFix (fds.map (readFD h)) (hget h rl) ∧
    WritesOnly rl h (closFixH fds rl fuel h) := by
  unfold closFixH closFix
  by_cases h0 : (hget h rl).length = 0
  · rw [if_pos h0, if_pos h0]
    exact ⟨rfl, writesOnly_refl rl h⟩
  · rw [if_neg h0, if_neg h0, hfuel]
    exact closLoopH_spec fds rl _ h hrl hdis

/-- Go `(r *Relation) Closure(fd)` in the heap model: allocate the fresh
`clofd` left and right cells (`clofd := &FuncDep{}` followed by the two
`AddAll` copies), then run the fixpoint loop writing only the fresh right
cell.  The fuel is the termination device of the pure model. -/
def ClosureH (R : RelationH) (h : Heap) (f : FuncDepH) : Heap × FuncDepH :=
  let a1 := halloc h (AttrSet.addAll [] [hget h f.left])
  let a2 := halloc a1.1 (AttrSet.addAll [] [hget a1.1 f.left, hget a1.1 f.right])
  (closFixH R.fds a2.2 (closFuel (R.fds.map (readFD a2.1)) (hget a2.1 a2.2)) a2.1,
    ⟨a1.2, a2.2⟩)

theorem ClosureH_spec (R : RelationH) (h : Heap) (f : FuncDepH)
    (hf : f.left < hlen h ∧ f.right < hlen h)
    (hfds : ∀ g ∈ R.fds, g.left < hlen h ∧ g.right < hlen h) :
    FramesAbove (hlen h) h (ClosureH R h f).1 ∧
    hlen (ClosureH R h f).1 = hlen h + 2 ∧
    (ClosureH R h f).2.left = hlen h ∧
    (ClosureH R h f).2.right = hlen h + 1 ∧
    readFD (ClosureH R h f).1 (ClosureH R h f).2 =
      (readRel h R).Closure (readFD h f) := by
  simp only [ClosureH]
  have hL1 : hget (halloc h (AttrSet.addAll [] [hget h f.left])).1 f.left =
      hget h f.left := hget_append_lt h _ f.left hf.1
  have hR1 : hget (halloc h (AttrSet.addAll [] [hget h f.left])).1 f.right =
      hget h f.right := hget_append_lt h _ f.right hf.2
  rw [hL1, hR1]
  have hlen1 : hlen (halloc h (AttrSet.addAll [] [hget h f.left])).1 = hlen h + 1 := by
    simp [halloc, hlen]
  have hfr1 : FramesAbove (hlen h) h (halloc h (AttrSet.addAll [] [hget h f.left])).1 :=
    frames_alloc h _ le_rfl
  have hfr2 : FramesAbove (hlen h) (halloc h (AttrSet.addAll [] [hget h f.left])).1
      (halloc (halloc h (AttrSet.addAll [] [hget h f.left])).1
        (AttrSet.addAll [] [hget h f.left, hget h f.right])).1 :=
    frames_alloc _ _ (by omega)
  have hfr12 := frames_trans hfr1 hfr2
  have hlen2 : hlen (halloc (halloc h (AttrSet.addAll [] [hget h f.left])).1
      (AttrSet.addAll [] [hget h f.left, hget h f.right])).1 = hlen h + 2 := by
    simp [halloc, hlen]
  have hrlv : hget (halloc (halloc h (AttrSet.addAll [] [hget h f.left])).1
        (AttrSet.addAll [] [hget h f.left, hget h f.right])).1
      (halloc (halloc h (AttrSet.addAll [] [hget h f.left])).1
        (AttrSet.addAll [] [hget h f.left, hget h f.right])).2 =
      AttrSet.addAll [] [hget h f.left, hget h f.right] :=
    hget_alloc_new _ _
  have hrlidx : (halloc (halloc h (AttrSet.addAll [] [hget h f.left])).1
      (AttrSet.addAll [] [hget h f.left, hget h f.right])).2 = hlen h + 1 := by
    simp only [halloc]
    simpa [hlen] using hlen1
  have hllv : hget (halloc (halloc h (AttrSet.addAll [] [hget h f.left])).1
        (AttrSet.addAll [] [hget h f.left, hget h f.right])).1 (hlen h) =
      AttrSet.addAll [] [hget h f.left] := by
    have := hget_append_lt (halloc h (AttrSet.addAll [] [hget h f.left])).1
      (AttrSet.addAll [] [hget h f.left, hget h f.right]) (hlen h) (by omega)
    simp only [halloc] at this ⊢
    rw [this]
    exact hget_alloc_new h _
  have hmap2 : R.fds.map (readFD (halloc (halloc h
        (AttrSet.addAll [] [hget h f.left])).1
        (AttrSet.addAll [] [hget h f.left, hget h f.right])).1) =
      R.fds.map (readFD h) :=
    List.map_congr_left (fun g hg => frames_readFD hfr12 g (hfds g hg))
  have hdis : ∀ g ∈ R.fds, g.left ≠ hlen h + 1 ∧ g.right ≠ hlen h + 1 := by
    intro g hg
    have := hfds g hg
    omega
  rw [hrlidx] at hrlv ⊢
  obtain ⟨hfix1, hfix2⟩ := closFixH_spec R.fds (hlen h + 1)
    (closFuel (R.fds.map (readFD (halloc (halloc h
      (AttrSet.addAll [] [hget h f.left])).1
      (AttrSet.addAll [] [hget h f.left, hget h f.right])).1))
      (hget (halloc (halloc h (AttrSet.addAll [] [hget h f.left])).1
        (AttrSet.addAll [] [hget h f.left, hget h f.right])).1 (hlen h + 1)))
    (halloc (halloc h (AttrSet.addAll [] [hget h f.left])).1
      (AttrSet.addAll [] [hget h f.left, hget h f.right])).1
    (by omega) hdis (by rw [hmap2])
  have hllidx : (halloc h (AttrSet.addAll [] [hget h f.left])).2 = hlen h := rfl
  refine ⟨?_, ?_, rfl, rfl, ?_⟩
  · exact frames_trans hfr12 (writesOnly_frames hfix2 (by omega) (by omega))
  · rw [hfix2.1, hlen2]
  · have hC : (readRel h R).Closure (readFD h f) =
        ⟨AttrSet.addAll [] [hget h f.left],
         closFix (R.fds.map (readFD h))
           (AttrSet.addAll [] [hget h f.left, hget h f.right])⟩ := rfl
    rw [hC]
    show FuncDep.mk _ _ = _
    refine congrArg₂ FuncDep.mk ?_ ?_
    · rw [hllidx, hfix2.2 (hlen h) (by omega), hllv]
    · rw [hfix1, hmap2, hrlv]

/-- Go `(r *Relation) Closures()` in the heap model: one `Closure` call per
declared FD, threading the heap. -/
def ClosuresH (R : RelationH) (h : Heap) : Heap × List FuncDepH :=
  R.fds.foldl
    (fun p f =>
      let q := ClosureH R p.1 f
      (q.1, p.2 ++ [q.2]))
    (h, [])

theorem closuresH_fold (R : RelationH) (n : Nat) (hA : R.attrs < n)
    (hR : ∀ g ∈ R.fds, g.left < n ∧ g.right < n) :
    ∀ (l : List FuncDepH) (h : Heap) (acc : List FuncDepH),
      (∀ g ∈ l, g.left < n ∧ g.right < n) → n ≤ hlen h →
      (∀ g ∈ acc, g.left < hlen h ∧ g.right < hlen h) →
      FramesAbove (hlen h) h
        (l.foldl (fun p f => let q := ClosureH R p.1 f; (q.1, p.2 ++ [q.2]))
          (h, acc)).1 ∧
      (∀ g ∈ (l.foldl (fun p f => let q := ClosureH R p.1 f; (q.1, p.2 ++ [q.2]))
          (h, acc)).2,
        g.left < hlen (l.foldl
            (fun p f => let q := ClosureH R p.1 f; (q.1, p.2 ++ [q.2])) (h, acc)).1 ∧
        g.right < hlen (l.foldl
            (fun p f => let q := ClosureH R p.1 f; (q.1, p.2 ++ [q.2])) (h, acc)).1) ∧
      (∀ g ∈ (l.foldl (fun p f => let q := ClosureH R p.1 f; (q.1, p.2 ++ [q.2]))
          (h, acc)).2, g ∈ acc ∨ (hlen h ≤ g.left ∧ hlen h ≤ g.right)) ∧
      (l.foldl (fun p f => let q := ClosureH R p.1 f; (q.1, p.2 ++ [q.2]))
          (h, acc)).2.map
        (readFD (l.foldl
          (fun p f => let q := ClosureH R p.1 f; (q.1, p.2 ++ [q.2])) (h, acc)).1) =
        acc.map (readFD h) ++
          l.map (fun f => (readRel h R).Closure (readFD h f)) := by
  intro l
  induction l with
  | nil =>
    intro h acc _ hn hacc
    exact ⟨frames_refl _ h le_rfl, hacc, fun g hg => Or.inl hg, by simp⟩
  | cons f l ih =>
    intro h acc hl hn hacc
    have hf := hl f (List.mem_cons_self f l)
    obtain ⟨hq1, hq2, hq3, hq4, hq5⟩ := ClosureH_spec R h f
      ⟨by omega, by omega⟩ (fun g hg => ⟨by have := hR g hg; omega,
        by have := hR g hg; omega⟩)
    rw [List.foldl_cons]
    have hacc2 : ∀ g ∈ acc ++ [(ClosureH R h f).2],
        g.left < hlen (ClosureH R h f).1 ∧ g.right < hlen (ClosureH R h f).1 := by
      intro g hg
      rcases List.mem_append.mp hg with h1 | h1
      · have := hacc g h1
        omega
      · simp at h1
        subst h1
        omega
    obtain ⟨hi1, hi2, hi3, hi4⟩ := ih (ClosureH R h f).1 (acc ++ [(ClosureH R h f).2])
      (fun g hg => hl g (List.mem_cons_of_mem f hg)) (by omega) hacc2
    refine ⟨frames_trans hq1 (frames_mono (by omega) hi1), hi2, ?_, ?_⟩
    · intro g hg
      rcases hi3 g hg with h1 | h1
      · rcases List.mem_append.mp h1 with h2 | h2
        · exact Or.inl h2
        · simp at h2
          subst h2
          exact Or.inr ⟨by omega, by omega⟩
      · exact Or.inr ⟨by omega, by omega⟩
    · rw [hi4, List.map_append]
      have hmacc : acc.map (readFD (ClosureH R h f).1) = acc.map (readFD h) :=
        List.map_congr_left (fun g hg => frames_readFD hq1 g (hacc g hg))
      have hmrel : readRel (ClosureH R h f).1 R = readRel h R :=
        frames_readRel hq1 R (by omega) (fun g hg => ⟨by have := hR g hg; omega,
          by have := hR g hg; omega⟩)
      have hml : l.map (fun f2 => (readRel h R).Closure
          (readFD (ClosureH R h f).1 f2)) =
          l.map (fun f2 => (readRel h R).Closure (readFD h f2)) :=
        List.map_congr_left (fun g hg => by
          rw [frames_readFD hq1 g ⟨by have := hl g (List.mem_cons_of_mem f hg); omega,
            by have := hl g (List.mem_cons_of_mem f hg); omega⟩])
      rw [hmacc, hmrel, hml]
      simp [hq5]

theorem ClosuresH_spec (R : RelationH) (h : Heap) (hA : R.attrs < hlen h)
    (hR : ∀ g ∈ R.fds, g.left < hlen h ∧ g.right < hlen h) :
    FramesAbove (hlen h) h (ClosuresH R h).1 ∧
    (∀ g ∈ (ClosuresH R h).2,
      g.left < hlen (ClosuresH R h).1 ∧ g.right < hlen (ClosuresH R h).1) ∧
    (∀ g ∈ (ClosuresH R h).2, hlen h ≤ g.left ∧ hlen h ≤ g.right) ∧
    (ClosuresH R h).2.map (readFD (ClosuresH R h).1) = (readRel h R).Closures := by
  obtain ⟨h1, h2, h3, h4⟩ := closuresH_fold R (hlen h) hA hR R.fds h [] hR le_rfl
    (by intro g hg; simp at hg)
  refine ⟨h1, h2, ?_, ?_⟩
  · intro g hg
    rcases h3 g hg with hc | hc
    · simp at hc
    · exact hc
  · rw [ClosuresH] at *
    rw [h4]
    unfold Relation.Closures
    simp only [readRel, List.map_map, List.nil_append]
    rfl

theorem passH_writesOnly (fds : List FuncDepH) (rl : Nat) :
    ∀ h : Heap, WritesOnly rl h (passH fds rl h) := by
  induction fds with
  | nil => exact fun h => writesOnly_refl rl h
  | cons o os ih =>
    intro h
    have hstep : passH (o :: os) rl h = passH os rl
        (if AttrSet.ContainsB (hget h rl) (hget h o.left)
         then hset h rl (AttrSet.addAll (hget h rl) [hget h o.right])
         else h) := by
      unfold passH
      rw [List.foldl_cons]
    rw [hstep]
    refine writesOnly_trans ?_ (ih _)
    split
    · exact writesOnly_set h rl _
    · exact writesOnly_refl rl h

theorem closLoopH_writesOnly (fds : List FuncDepH) (rl : Nat) :
    ∀ (k : Nat) (h : Heap), WritesOnly rl h (closLoopH fds rl k h) := by
  intro k
  induction k with
  | zero => exact fun h => writesOnly_refl rl h
  | succ k ih =>
    intro h
    simp only [closLoopH]
    split
    · exact passH_writesOnly fds rl h
    · exact writesOnly_trans (passH_writesOnly fds rl h) (ih _)

theorem closFixH_writesOnly (fds : List FuncDepH) (rl fuel : Nat) (h : Heap) :
    WritesOnly rl h (closFixH fds rl fuel h) := by
  unfold closFixH
  split
  · exact writesOnly_refl rl h
  · exact closLoopH_writesOnly fds rl fuel h

/-- Go `(r *Relation) CandidateKeys()` in the heap model: purely reads the
closure cells and the attribute cell. -/
def CandidateKeysH (R : RelationH) (h : Heap) : Heap × List AttrSet :=
  let c := ClosuresH R h
  (c.1,
   (c.2.filter
      (fun cfd => (hget c.1 cfd.right).length = (hget c.1 R.attrs).length)).map
     (fun cfd => hget c.1 cfd.left))

theorem CandidateKeysH_spec (R : RelationH) (h : Heap) (hA : R.attrs < hlen h)
    (hR : ∀ g ∈ R.fds, g.left < hlen h ∧ g.right < hlen h) :
    FramesAbove (hlen h) h (CandidateKeysH R h).1 ∧
    (CandidateKeysH R h).2 = (readRel h R).CandidateKeys := by
  obtain ⟨c1, _, _, c4⟩ := ClosuresH_spec R h hA hR
  refine ⟨c1, ?_⟩
  simp only [CandidateKeysH]
  have hattr : hget (ClosuresH R h).1 R.attrs = hget h R.attrs := c1.2.2 _ hA
  unfold Relation.CandidateKeys
  rw [← c4, List.filter_map, List.map_map, hattr]
  rfl

/-- Go `(r *Relation) CandidateKeysAlt()` in the heap model: for each
closure, `cfd.Left.Add(diff[i])` writes through the pointer into the fresh
closure's left cell. -/
def CandidateKeysAltH (R : RelationH) (h : Heap) : Heap × List AttrSet :=
  let c := ClosuresH R h
  c.2.foldl
    (fun p cfd =>
      if (hget p.1 R.attrs).length - 2 ≤ (hget p.1 cfd.right).length then
        let diff := AttrSet.DifferenceGo (hget p.1 R.attrs) [hget p.1 cfd.right]
        let h1 := if 0 < diff.length
          then hset p.1 cfd.left (AttrSet.add (hget p.1 cfd.left) (diff.getD 0 [])).1
          else p.1
        let h2 := if 1 < diff.length
          then hset h1 cfd.left (AttrSet.add (hget h1 cfd.left) (diff.getD 1 [])).1
          else h1
        (h2, p.2 ++ [hget h2 cfd.left])
      else p)
    (c.1, [])

theorem frames_ite {n : Nat} {h h1 h2 : Heap} (b : Prop) [Decidable b]
    (ht : b → FramesAbove n h h1) (he : ¬ b → FramesAbove n h h2) :
    FramesAbove n h (if b then h1 else h2) := by
  split
  · exact ht (by assumption)
  · exact he (by assumption)

theorem altH_fold_frames (R : RelationH) (n : Nat) :
    ∀ (l : List FuncDepH) (p : Heap × List AttrSet),
      (∀ g ∈ l, n ≤ g.left) → n ≤ hlen p.1 →
      FramesAbove n p.1
        (l.foldl
          (fun p cfd =>
            if (hget p.1 R.attrs).length - 2 ≤ (hget p.1 cfd.right).length then
              let diff := AttrSet.DifferenceGo (hget p.1 R.attrs) [hget p.1 cfd.right]
              let h1 := if 0 < diff.length
                then hset p.1 cfd.left
                  (AttrSet.add (hget p.1 cfd.left) (diff.getD 0 [])).1
                else p.1
              let h2 := if 1 < diff.length
                then hset h1 cfd.left (AttrSet.add (hget h1 cfd.left) (diff.getD 1 [])).1
                else h1
              (h2, p.2 ++ [hget h2 cfd.left])
            else p) p).1 := by
  intro l
  induction l with
  | nil => exact fun p _ hn => frames_refl n p.1 hn
  | cons cfd cs ih =>
    intro p hl hn
    rw [List.foldl_cons]
    have hcl : n ≤ cfd.left := hl cfd (List.mem_cons_self cfd cs)
    have hstep : FramesAbove n p.1
        (if (hget p.1 R.attrs).length - 2 ≤ (hget p.1 cfd.right).length then
          let diff := AttrSet.DifferenceGo (hget p.1 R.attrs) [hget p.1 cfd.right]
          let h1 := if 0 < diff.length
            then hset p.1 cfd.left (AttrSet.add (hget p.1 cfd.left) (diff.getD 0 [])).1
            else p.1
          let h2 := if 1 < diff.length
            then hset h1 cfd.left (AttrSet.add (hget h1 cfd.left) (diff.getD 1 [])).1
            else h1
          (h2, p.2 ++ [hget h2 cfd.left])
        else p).1 := by
      by_cases hc : (hget p.1 R.attrs).length - 2 ≤ (hget p.1 cfd.right).length
      · rw [if_pos hc]
        dsimp only
        have hf1 : FramesAbove n p.1
            (if 0 < (AttrSet.DifferenceGo (hget p.1 R.attrs)
                [hget p.1 cfd.right]).length
             then hset p.1 cfd.left (AttrSet.add (hget p.1 cfd.left)
               ((AttrSet.DifferenceGo (hget p.1 R.attrs)
                 [hget p.1 cfd.right]).getD 0 [])).1
             else p.1) :=
          frames_ite _ (fun _ => frames_set p.1 cfd.left _ hn hcl)
            (fun _ => frames_refl n p.1 hn)
        exact frames_trans hf1
          (frames_ite _
            (fun _ => frames_set _ cfd.left _ (hf1.1.trans hf1.2.1) hcl)
            (fun _ => frames_refl n _ (hf1.1.trans hf1.2.1)))
      · rw [if_neg hc]
        exact frames_refl n p.1 hn
    refine frames_trans hstep (ih _ (fun g hg => hl g (List.mem_cons_of_mem cfd hg)) ?_)
    exact hn.trans hstep.2.1

theorem CandidateKeysAltH_frame (R : RelationH) (h : Heap) (hA : R.attrs < hlen h)
    (hR : ∀ g ∈ R.fds, g.left < hlen h ∧ g.right < hlen h) :
    FramesAbove (hlen h) h (CandidateKeysAltH R h).1 := by
  obtain ⟨c1, _, c3, _⟩ := ClosuresH_spec R h hA hR
  have hf := altH_fold_frames R (hlen h) (ClosuresH R h).2
    ((ClosuresH R h).1, ([] : List AttrSet)) (fun g hg => (c3 g hg).1) c1.2.1
  exact frames_trans c1 hf

/-- Go's `check` closure in `enumerateCandidateKeys`, in the heap model:
`a.String()` sorts the tested cell in place, the fixpoint runs on a freshly
allocated `right` cell, and a recorded key is a fresh copy of the sorted
cell (the Go `var x AttrSet; x.AddAll(a)`).  The memo map and result list
live outside the attribute-set heap. -/
def checkH (R : RelationH) (clos : List FuncDepH) (zl : Nat) (h : Heap)
    (st : BFState) : Heap × BFState :=
  let h1 := hset h zl (AttrSet.sortGo (hget h zl))
  let key := AttrSet.joinSep (AttrSet.sortGo (hget h zl))
  if key ∈ st.hits then (h1, st)
  else
    let a2 := halloc h1 (AttrSet.addAll [] [hget h1 zl])
    let h3 := closFixH clos a2.2
      (closFuel (clos.map (readFD a2.1)) (hget a2.1 a2.2)) a2.1
    let res := if (hget h3 a2.2).length = (hget h3 R.attrs).length
      then st.result ++ [AttrSet.addAll [] [hget h3 zl]] else st.result
    (h3, ⟨res, st.hits ++ [key]⟩)

theorem hlen_alloc (h : Heap) (v : AttrSet) : hlen (halloc h v).1 = hlen h + 1 := by
  simp [halloc, hlen]

theorem halloc_idx (h : Heap) (v : AttrSet) : (halloc h v).2 = hlen h := rfl

theorem checkH_frames {n : Nat} (R : RelationH) (clos : List FuncDepH) (zl : Nat)
    (h : Heap) (st : BFState) (hn : n ≤ hlen h) (hzl : n ≤ zl) :
    FramesAbove n h (checkH R clos zl h st).1 := by
  have hf1 : FramesAbove n h (hset h zl (AttrSet.sortGo (hget h zl))) :=
    frames_set h zl _ hn hzl
  have hn1 : n ≤ hlen (hset h zl (AttrSet.sortGo (hget h zl))) := hf1.1.trans hf1.2.1
  unfold checkH
  dsimp only
  by_cases hk : AttrSet.joinSep (AttrSet.sortGo (hget h zl)) ∈ st.hits
  · rw [if_pos hk]
    exact hf1
  · rw [if_neg hk]
    dsimp only
    refine frames_trans hf1 (frames_trans (frames_alloc _
      (AttrSet.addAll [] [hget (hset h zl (AttrSet.sortGo (hget h zl))) zl]) hn1) ?_)
    refine writesOnly_frames (closFixH_writesOnly _ _ _ _) ?_ ?_
    · rw [hlen_alloc]
      omega
    · rw [halloc_idx]
      exact hn1

/-- Go `(r *Relation) recurBF(x, nremain, check)` in the heap model: a fresh
local cell `z` receives a copy of `x` (`var z AttrSet; z.AddAll(x)`), and the
loop mutates only `z` (via `Add`, `Remove` and the in-place sort inside
`check`) besides the cells `check` itself allocates. -/
def recurBFH (R : RelationH) (clos : List FuncDepH) (x : AttrSet) (nremain : Nat)
    (h : Heap) (st : BFState) : Heap × BFState :=
  ((hget h R.attrs).foldl
    (fun (p : Heap × BFState) a1 =>
      let zl := hlen h
      let t := AttrSet.add (hget p.1 zl) a1
      if t.2 then
        let c := checkH R clos zl (hset p.1 zl t.1) p.2
        let d := if h2 : 1 < nremain then
            recurBFH R clos (hget c.1 zl) (nremain - 1) c.1 c.2
          else c
        (hset d.1 zl (AttrSet.removeGo (hget d.1 zl) a1).1, d.2)
      else p)
    ((halloc h (AttrSet.addAll [] [x])).1, st))
termination_by nremain
decreasing_by omega

def recurBFHStep (R : RelationH) (clos : List FuncDepH) (nremain zl : Nat)
    (p : Heap × BFState) (a1 : Attr) : Heap × BFState :=
  let t := AttrSet.add (hget p.1 zl) a1
  if t.2 then
    let c := checkH R clos zl (hset p.1 zl t.1) p.2
    let d := if h2 : 1 < nremain then
        recurBFH R clos (hget c.1 zl) (nremain - 1) c.1 c.2
      else c
    (hset d.1 zl (AttrSet.removeGo (hget d.1 zl) a1).1, d.2)
  else p

theorem recurBFH_eq_fold (R : RelationH) (clos : List FuncDepH) (x : AttrSet)
    (m : Nat) (h : Heap) (st : BFState) :
    recurBFH R clos x m h st =
      (hget h R.attrs).foldl (recurBFHStep R clos m (hlen h))
        ((halloc h (AttrSet.addAll [] [x])).1, st) := by
  rw [recurBFH]
  rfl

theorem recurBFH_fold_frames (R : RelationH) (clos : List FuncDepH) (m zl : Nat)
    (hrec : 1 < m → ∀ (x : AttrSet) (h2 : Heap) (st2 : BFState),
      FramesAbove (hlen h2) h2 (recurBFH R clos x (m - 1) h2 st2).1) :
    ∀ (l : List Attr) (n : Nat) (p : Heap × BFState), n ≤ hlen p.1 → n ≤ zl →
      FramesAbove n p.1 (l.foldl (recurBFHStep R clos m zl) p).1 := by
  intro l
  induction l with
  | nil => exact fun n p hn _ => frames_refl n p.1 hn
  | cons a1 l ih =>
    intro n p hn hzl
    rw [List.foldl_cons]
    have hstep : FramesAbove n p.1 (recurBFHStep R clos m zl p a1).1 := by
      unfold recurBFHStep
      dsimp only
      by_cases ht : (AttrSet.add (hget p.1 zl) a1).2 = true
      · rw [if_pos ht]
        dsimp only
        have hf1 : FramesAbove n p.1
            (hset p.1 zl (AttrSet.add (hget p.1 zl) a1).1) :=
          frames_set p.1 zl _ hn hzl
        have hf2 : FramesAbove n p.1
            (checkH R clos zl (hset p.1 zl (AttrSet.add (hget p.1 zl) a1).1) p.2).1 :=
          frames_trans hf1 (checkH_frames R clos zl _ p.2 (hf1.1.trans hf1.2.1) hzl)
        have hf3 : FramesAbove n p.1
            (if h2 : 1 < m then
              recurBFH R clos
                (hget (checkH R clos zl
                  (hset p.1 zl (AttrSet.add (hget p.1 zl) a1).1) p.2).1 zl)
                (m - 1)
                (checkH R clos zl
                  (hset p.1 zl (AttrSet.add (hget p.1 zl) a1).1) p.2).1
                (checkH R clos zl
                  (hset p.1 zl (AttrSet.add (hget p.1 zl) a1).1) p.2).2
            else
              checkH R clos zl
                (hset p.1 zl (AttrSet.add (hget p.1 zl) a1).1) p.2).1 := by
          by_cases hm : 1 < m
          · rw [dif_pos hm]
            exact frames_trans hf2 (frames_mono (hf2.1.trans hf2.2.1) (hrec hm _ _ _))
          · rw [dif_neg hm]
            exact hf2
        exact frames_trans hf3 (frames_set _ zl _ (hf3.1.trans hf3.2.1) hzl)
      · rw [if_neg ht]
        exact frames_refl n p.1 hn
    refine frames_trans hstep
      (ih n (recurBFHStep R clos m zl p a1) (hn.trans hstep.2.1) hzl)

theorem recurBFH_frames (R : RelationH) (clos : List FuncDepH) :
    ∀ (m : Nat) (x : AttrSet) (h : Heap) (st : BFState),
      FramesAbove (hlen h) h (recurBFH R clos x m h st).1 := by
  intro m
  induction m using Nat.strong_induction_on with
  | _ m IH =>
    intro x h st
    rw [recurBFH_eq_fold]
    have hrec : 1 < m → ∀ (x2 : AttrSet) (h2 : Heap) (st2 : BFState),
        FramesAbove (hlen h2) h2 (recurBFH R clos x2 (m - 1) h2 st2).1 :=
      fun hm x2 h2 st2 => IH (m - 1) (by omega) x2 h2 st2
    have halc : FramesAbove (hlen h) h (halloc h (AttrSet.addAll [] [x])).1 :=
      frames_alloc h _ le_rfl
    refine frames_trans halc ?_
    exact recurBFH_fold_frames R clos m (hlen h) hrec (hget h R.attrs) (hlen h)
      ((halloc h (AttrSet.addAll [] [x])).1, st) (halc.1.trans halc.2.1) le_rfl

/-- Go `(r *Relation) enumerateCandidateKeys()` in the heap model. -/
def enumerateCandidateKeysH (R : RelationH) (h : Heap) : Heap × List AttrSet :=
  let c := ClosuresH R h
  let p := recurBFH R c.2 [] (hget c.1 R.attrs).length c.1 ⟨[], []⟩
  (p.1, p.2.result)

/-- Go `(r *Relation) CandidateKeysBF()` in the heap model: the filtering
phase reads and reorders only the freshly built candidate value list. -/
def CandidateKeysBFH (R : RelationH) (h : Heap) : Heap × List AttrSet :=
  let e := enumerateCandidateKeysH R h
  (e.1, Relation.filterContainingKeys (readRel e.1 R) e.2)

theorem enumerateCandidateKeysH_frame (R : RelationH) (h : Heap)
    (hA : R.attrs < hlen h)
    (hR : ∀ g ∈ R.fds, g.left < hlen h ∧ g.right < hlen h) :
    FramesAbove (hlen h) h (enumerateCandidateKeysH R h).1 := by
  obtain ⟨c1, _, _, _⟩ := ClosuresH_spec R h hA hR
  have hb := recurBFH_frames R (ClosuresH R h).2
    (hget (ClosuresH R h).1 R.attrs).length [] (ClosuresH R h).1 ⟨[], []⟩
  exact frames_trans c1 (frames_mono c1.2.1 hb)

theorem CandidateKeysBFH_frame (R : RelationH) (h : Heap)
    (hA : R.attrs < hlen h)
    (hR : ∀ g ∈ R.fds, g.left < hlen h ∧ g.right < hlen h) :
    FramesAbove (hlen h) h (CandidateKeysBFH R h).1 :=
  enumerateCandidateKeysH_frame R h hA hR

/-- C10: in the heap model of the mutating Go code, `Closure`, `Closures`,
`CandidateKeys`, `CandidateKeysAlt` and `CandidateKeysBF` never modify the
Relation they are called on — reading the relation back from the heap after
any of these calls yields exactly the relation read before, because every
write targets a cell allocated during the call (the fresh closure copies,
the enumeration's local set, or the memo cells); moreover the heap
rendering of `Closure` returns the pure closure of the relation read from
the heap and `CandidateKeys` returns the pure candidate-key list. -/
theorem C10_no_mutation (R : RelationH) (h : Heap)
    (hA : R.attrs < hlen h)
    (hfds : ∀ g ∈ R.fds, g.left < hlen h ∧ g.right < hlen h) :
    (∀ f : FuncDepH, f.left < hlen h → f.right < hlen h →
      readRel (ClosureH R h f).1 R = readRel h R ∧
      readFD (ClosureH R h f).1 (ClosureH R h f).2 =
        (readRel h R).Closure (readFD h f)) ∧
    readRel (ClosuresH R h).1 R = readRel h R ∧
    (readRel (CandidateKeysH R h).1 R = readRel h R ∧
      (CandidateKeysH R h).2 = (readRel h R).CandidateKeys) ∧
    readRel (CandidateKeysAltH R h).1 R = readRel h R ∧
    readRel (CandidateKeysBFH R h).1 R = readRel h R := by
  refine ⟨?_, ?_, ⟨?_, ?_⟩, ?_, ?_⟩
  · intro f hfl hfr
    obtain ⟨q1, _, _, _, q5⟩ := ClosureH_spec R h f ⟨hfl, hfr⟩ hfds
    exact ⟨frames_readRel q1 R hA hfds, q5⟩
  · exact frames_readRel (ClosuresH_spec R h hA hfds).1 R hA hfds
  · exact frames_readRel (CandidateKeysH_spec R h hA hfds).1 R hA hfds
  · exact (CandidateKeysH_spec R h hA hfds).2
  · exact frames_readRel (CandidateKeysAltH_frame R h hA hfds) R hA hfds
  · exact frames_readRel (CandidateKeysBFH_frame R h hA hfds) R hA hfds

/-- C10 witness: the frame statement at a concrete three cell heap holding
the attribute set {A, B} and the FD A → B. -/
theorem C10_no_mutation_witness :
    ((RelationH.mk ['R'] 0 [⟨1, 2⟩]).attrs <
        hlen ([[['A'], ['B']], [['A']], [['B']]] : Heap) ∧
      (∀ g ∈ (RelationH.mk ['R'] 0 [⟨1, 2⟩]).fds,
        g.left < hlen ([[['A'], ['B']], [['A']], [['B']]] : Heap) ∧
        g.right < hlen ([[['A'], ['B']], [['A']], [['B']]] : Heap))) ∧
    ((∀ f : FuncDepH,
      f.left < hlen ([[['A'], ['B']], [['A']], [['B']]] : Heap) →
      f.right < hlen ([[['A'], ['B']], [['A']], [['B']]] : Heap) →
      readRel (ClosureH (RelationH.mk ['R'] 0 [⟨1, 2⟩])
          ([[['A'], ['B']], [['A']], [['B']]] : Heap) f).1
          (RelationH.mk ['R'] 0 [⟨1, 2⟩]) =
        readRel ([[['A'], ['B']], [['A']], [['B']]] : Heap)
          (RelationH.mk ['R'] 0 [⟨1, 2⟩]) ∧
      readFD (ClosureH (RelationH.mk ['R'] 0 [⟨1, 2⟩])
          ([[['A'], ['B']], [['A']], [['B']]] : Heap) f).1
          (ClosureH (RelationH.mk ['R'] 0 [⟨1, 2⟩])
            ([[['A'], ['B']], [['A']], [['B']]] : Heap) f).2 =
        (readRel ([[['A'], ['B']], [['A']], [['B']]] : Heap)
          (RelationH.mk ['R'] 0 [⟨1, 2⟩])).Closure
          (readFD ([[['A'], ['B']], [['A']], [['B']]] : Heap) f)) ∧
    readRel (ClosuresH (RelationH.mk ['R'] 0 [⟨1, 2⟩])
        ([[['A'], ['B']], [['A']], [['B']]] : Heap)).1
        (RelationH.mk ['R'] 0 [⟨1, 2⟩]) =
      readRel ([[['A'], ['B']], [['A']], [['B']]] : Heap)
        (RelationH.mk ['R'] 0 [⟨1, 2⟩]) ∧
    (readRel (CandidateKeysH (RelationH.mk ['R'] 0 [⟨1, 2⟩])
        ([[['A'], ['B']], [['A']], [['B']]] : Heap)).1
        (RelationH.mk ['R'] 0 [⟨1, 2⟩]) =
      readRel ([[['A'], ['B']], [['A']], [['B']]] : Heap)
        (RelationH.mk ['R'] 0 [⟨1, 2⟩]) ∧
      (CandidateKeysH (RelationH.mk ['R'] 0 [⟨1, 2⟩])
        ([[['A'], ['B']], [['A']], [['B']]] : Heap)).2 =
        (readRel ([[['A'], ['B']], [['A']], [['B']]] : Heap)
          (RelationH.mk ['R'] 0 [⟨1, 2⟩])).CandidateKeys) ∧
    readRel (CandidateKeysAltH (RelationH.mk ['R'] 0 [⟨1, 2⟩])
        ([[['A'], ['B']], [['A']], [['B']]] : Heap)).1
        (RelationH.mk ['R'] 0 [⟨1, 2⟩]) =
      readRel ([[['A'], ['B']], [['A']], [['B']]] : Heap)
        (RelationH.mk ['R'] 0 [⟨1, 2⟩]) ∧
    readRel (CandidateKeysBFH (RelationH.mk ['R'] 0 [⟨1, 2⟩])
        ([[['A'], ['B']], [['A']], [['B']]] : Heap)).1
        (RelationH.mk ['R'] 0 [⟨1, 2⟩]) =
      readRel ([[['A'], ['B']], [['A']], [['B']]] : Heap)
        (RelationH.mk ['R'] 0 [⟨1, 2⟩])) :=
  ⟨⟨by decide, by decide⟩,
   C10_no_mutation (RelationH.mk ['R'] 0 [⟨1, 2⟩])
     ([[['A'], ['B']], [['A']], [['B']]] : Heap) (by decide) (by decide)⟩
